import Mathlib

/-!
# Verification of the enclose solver (`src/solver.hpp`)

A shallow embedding of the C++ solver in `src/solver.hpp` together with the
theorems settling the specification claims.  The embedding mirrors the source:

* grids are lists of rows of characters; element access `grid[r][c]` is
  modelled by `cellE`, which returns `none` for an out-of-bounds read
  (undefined behaviour in the C++ source);
* `DynamicBitset` values over the dense open-cell index space `0..N-1` are
  modelled as `Finset ℕ`; `first_set_bit` is `Finset.min'`,
  `for_each_set_bit` (ascending order) is `bitList`, the ascending scan;
* the flow template (`FlowTemplate`) keeps the source's parallel edge arrays
  `to`/`frm`/`rev`/`base_cap` and the adjacency lists `adj`/`in_adj`;
* loops whose iteration count is bounded are written with explicit fuel equal
  to the bound used in the analysis of the source (each is exact: the source
  loop performs at most that many iterations);
* in the max-flow breadth-first search the source's parent-pointer array is
  realised as a map from each discovered node to its parent path of edge ids
  (the same path the source reconstructs by walking `parent`/`frm`);
* the visited-set computations (`bfs_reachable` and the residual reverse
  reachability scan) only ever use the *set* of visited nodes, so they are
  embedded as a monotone saturation (`sat`) of the one-step successor map.
-/

namespace Enclose

/-! ## List helpers (array reads and writes of the source) -/

/-- `l[i] = x` on a C++ vector: out-of-range writes (never performed by the
source on in-range indices) leave the list unchanged. -/
def listSet {α : Type} : List α → Nat → α → List α
  | [], _, _ => []
  | _ :: rest, 0, x => x :: rest
  | a :: rest, Nat.succ i, x => a :: listSet rest i x

/-- `l[i]` with a default for out-of-range reads (never hit on the source's
in-range accesses). -/
def listGetD {α : Type} (l : List α) (i : Nat) (d : α) : α := l.getD i d

/-! ## Grid model -/

/-- A grid: a list of rows, each a list of characters. -/
abbrev Grid := List (List Char)

/-- A cell coordinate `(row, col)`. -/
abbrev Coord := Nat × Nat

/-- `is_open_cell` from the source. -/
def isOpenCell (ch : Char) : Bool := ch = '.' || ch = 'H'

/-- The element access `grid[r][c]`: `none` models an out-of-bounds read,
which is undefined behaviour in the C++ source. -/
def cellE (g : Grid) (r c : Nat) : Option Char :=
  (g.get? r).bind (fun row => row.get? c)

/-- The failures `solve` can produce.  `horseMissing` is the
`std::runtime_error` thrown when the grid has no `H`; `outOfBounds` models an
out-of-bounds element access (undefined behaviour in C++).
`invalidGridShape` is modelled from the spec: the spec names an
`InvalidGridShape` error for rows of unequal length, but no such check exists
anywhere in the source. -/
inductive SolveErr where
  | horseMissing
  | outOfBounds
  | invalidGridShape
deriving DecidableEq, Repr

/-! ## Horse scan (the nested loops locating `H`) -/

/-- Scan columns `c, c+1, ...` of row `r` (up to `C` total remaining) for the
first `H`; mirrors the inner loop of the horse scan including its early break. -/
def scanRowForHorse (g : Grid) (r : Nat) : Nat → Nat → Except SolveErr (Option Nat)
  | _, 0 => .ok none
  | c, Nat.succ rem =>
    match cellE g r c with
    | none => .error .outOfBounds
    | some ch => if ch = 'H' then .ok (some c) else scanRowForHorse g r (c + 1) rem

/-- Scan rows `r, r+1, ...` (up to `R` total remaining) for the horse;
mirrors the outer loop (`r < R && hr == -1`). -/
def scanForHorse (g : Grid) (C : Nat) : Nat → Nat → Except SolveErr Coord
  | _, 0 => .error .horseMissing
  | r, Nat.succ rem =>
    match scanRowForHorse g r 0 C with
    | .error e => .error e
    | .ok (some c) => .ok (r, c)
    | .ok none => scanForHorse g C (r + 1) rem

/-! ## Flood fill building the dense index space -/

/-- The four neighbour candidates of `(r, c)` that pass the source's bounds
test, in the source's direction order `{+1,-1,0,0} × {0,0,+1,-1}`
(down, up, right, left). -/
def nbrsInBounds (R C : Nat) (p : Coord) : List Coord :=
  (if p.1 + 1 < R then [(p.1 + 1, p.2)] else []) ++
  (if 0 < p.1 then [(p.1 - 1, p.2)] else []) ++
  (if p.2 + 1 < C then [(p.1, p.2 + 1)] else []) ++
  (if 0 < p.2 then [(p.1, p.2 - 1)] else [])

/-- Process the neighbour list of one popped cell: each in-bounds neighbour is
read (the read can be out of bounds on a ragged grid), admitted if open and
not yet indexed.  `coords` is the discovery-ordered index map (the source's
`idx_of`/`coords`), `pushed` the cells appended to the queue. -/
def bfsAdmit (g : Grid) :
    List Coord → List Coord → List Coord → Except SolveErr (List Coord × List Coord)
  | [], coords, pushed => .ok (coords, pushed)
  | n :: rest, coords, pushed =>
    match cellE g n.1 n.2 with
    | none => .error .outOfBounds
    | some ch =>
      if isOpenCell ch then
        if coords.contains n then bfsAdmit g rest coords pushed
        else bfsAdmit g rest (coords ++ [n]) (pushed ++ [n])
      else bfsAdmit g rest coords pushed

/-- The flood-fill queue loop assigning dense indices in discovery order.
The fuel `R*C + 1` given by `buildGraph` bounds the iteration count: every
iteration pops one cell, and the total number of pushes is at most the number
of grid cells. -/
def bfsBuild (g : Grid) (R C : Nat) : Nat → List Coord → List Coord → Except SolveErr (List Coord)
  | 0, coords, _ => .ok coords
  | Nat.succ fuel, coords, queue =>
    match queue with
    | [] => .ok coords
    | p :: rest =>
      match bfsAdmit g (nbrsInBounds R C p) coords [] with
      | .error e => .error e
      | .ok (coords2, pushed) => bfsBuild g R C fuel coords2 (rest ++ pushed)

/-- Per-index `wallable` flags: the original character is `.`
(the loop re-reads `grid[r][c]` like the source). -/
def computeWallable (g : Grid) : List Coord → Except SolveErr (List Bool)
  | [] => .ok []
  | p :: rest =>
    match cellE g p.1 p.2 with
    | none => .error .outOfBounds
    | some ch => (computeWallable g rest).map (fun l => decide (ch = '.') :: l)

/-- Per-index boundary flag: the coordinate lies on the outermost row or
column of the grid. -/
def boundarySet (R C : Nat) (coords : List Coord) : Finset Nat :=
  (Finset.range coords.length).filter (fun i =>
    let p := listGetD coords i (0, 0)
    p.1 = 0 ∨ p.1 = R - 1 ∨ p.2 = 0 ∨ p.2 = C - 1)

/-- The neighbour keys looked up when building the adjacency list of `p`.
The source performs no bounds test here: it looks the four neighbours up in
`idx_of`, where a key with a negative component can never occur; with `Nat`
coordinates the underflowing candidates are dropped explicitly instead. -/
def nbrKeys (p : Coord) : List Coord :=
  [(p.1 + 1, p.2)] ++
  (if 0 < p.1 then [(p.1 - 1, p.2)] else []) ++
  [(p.1, p.2 + 1)] ++
  (if 0 < p.2 then [(p.1, p.2 - 1)] else [])

/-- `idx_of.find`: the dense index of a coordinate, if assigned — the
position of its first (the map being injective, only) occurrence in the
discovery-ordered `coords`. -/
def idxOf : List Coord → Coord → Option Nat
  | [], _ => none
  | q :: rest, p => if q = p then some 0 else (idxOf rest p).map (· + 1)

/-- The adjacency list of one cell: neighbour indices in direction order. -/
def adjOf (coords : List Coord) (p : Coord) : List Nat :=
  (nbrKeys p).filterMap (idxOf coords)

/-- The output of the graph-building phase of `solve`. -/
structure Graph where
  R : Nat
  C : Nat
  coords : List Coord
  adj : List (List Nat)
  wallable : List Bool
  boundary : Finset Nat

/-- Number of dense indices. -/
def Graph.N (G : Graph) : Nat := G.coords.length

/-- The horse receives index 0 by construction. -/
def horseIdx : Nat := 0

/-- The graph-building phase of `solve`: locate the horse, flood-fill the
index space, record coordinates, wallable flags, boundary flags and
adjacency lists. -/
def buildGraph (g : Grid) : Except SolveErr Graph :=
  let R := g.length
  match g.get? 0 with
  | none => Except.error SolveErr.outOfBounds
  | some row0 =>
    let C := row0.length
    match scanForHorse g C 0 R with
    | .error e => .error e
    | .ok hp =>
      match bfsBuild g R C (R * C + 1) [hp] [hp] with
      | .error e => .error e
      | .ok coords =>
        match computeWallable g coords with
        | .error e => .error e
        | .ok wallable =>
          Except.ok { R := R, C := C, coords := coords,
                      adj := coords.map (adjOf coords),
                      wallable := wallable,
                      boundary := boundarySet R C coords }

/-! ## Flow template (`FlowTemplate` of the source) -/

/-- The residual edge-list graph: parallel arrays `to`, `frm`, `rev`,
`base_cap` and the adjacency lists `adj` (by `frm`) and `in_adj` (by `to`).
`to` and `frm` are reserved words in Lean, so they become `eto` and `frm`. -/
structure FlowT where
  n : Nat
  eto : List Nat
  frm : List Nat
  rev : List Nat
  baseCap : List Int
  adj : List (List Nat)
  inAdj : List (List Nat)

/-- The empty template with `n` nodes. -/
def FlowT.init (n : Nat) : FlowT :=
  ⟨n, [], [], [], [], List.replicate n [], List.replicate n []⟩

/-- `add_edge`: append a forward edge and its reverse (capacity 0) twin,
return the updated template and the forward edge id. -/
def addEdge (f : FlowT) (u v : Nat) (c : Int) : FlowT × Nat :=
  let idx := f.eto.length
  (⟨f.n,
    f.eto ++ [v, u],
    f.frm ++ [u, v],
    f.rev ++ [idx + 1, idx],
    f.baseCap ++ [c, 0],
    listSet (listSet f.adj u (listGetD f.adj u [] ++ [idx])) v
      (listGetD (listSet f.adj u (listGetD f.adj u [] ++ [idx])) v [] ++ [idx + 1]),
    listSet (listSet f.inAdj v (listGetD f.inAdj v [] ++ [idx])) u
      (listGetD (listSet f.inAdj v (listGetD f.inAdj v [] ++ [idx])) u [] ++ [idx + 1])⟩,
   idx)

/-! ## Max-flow with augmenting-path limit -/

/-- Process the out-edges of the popped node `u` inside the forward BFS,
mirroring the inner `for (int e : adj[u])` loop of `maxflow_limit`.  The
source's parent-pointer array is realised as `disc`, mapping each discovered
node to its parent path of edge ids (the path the source reconstructs after
the search by walking `parent`/`frm`); the source node carries the empty
path.  Returns the updated map, the nodes pushed, and whether the target was
reached (on which the source clears the queue and breaks). -/
def bfsEdges (fl : FlowT) (cap : List Int) (t : Nat) (pathU : List Nat) :
    List Nat → List (Option (List Nat)) → List Nat →
    List (Option (List Nat)) × List Nat × Bool
  | [], disc, pushed => (disc, pushed, false)
  | e :: rest, disc, pushed =>
    if listGetD cap e 0 ≤ 0 then bfsEdges fl cap t pathU rest disc pushed
    else
      let v := listGetD fl.eto e 0
      match listGetD disc v none with
      | some _ => bfsEdges fl cap t pathU rest disc pushed
      | none =>
        let disc2 := listSet disc v (some (pathU ++ [e]))
        if v = t then (disc2, [], true)
        else bfsEdges fl cap t pathU rest disc2 (pushed ++ [v])

/-- The forward BFS queue loop of `maxflow_limit`
(`while (!q.empty() && parent[t] == -1)`).  The fuel `fl.n + 1` used by
`maxflowLimit` bounds the iterations: each pops one node and every node is
pushed at most once. -/
def bfsFlow (fl : FlowT) (cap : List Int) (t : Nat) :
    Nat → List (Option (List Nat)) → List Nat → List (Option (List Nat))
  | 0, disc, _ => disc
  | Nat.succ fuel, disc, queue =>
    match queue with
    | [] => disc
    | u :: rest =>
      match listGetD disc t none with
      | some _ => disc
      | none =>
        match bfsEdges fl cap t ((listGetD disc u none).getD [])
            (listGetD fl.adj u []) disc [] with
        | (disc2, _, true) => disc2
        | (disc2, pushed, false) => bfsFlow fl cap t fuel disc2 (rest ++ pushed)

/-- Augment one unit along edge `e`: `cap[e] -= 1; cap[rev[e]] += 1`. -/
def augmentEdge (fl : FlowT) (cap : List Int) (e : Nat) : List Int :=
  let cap1 := listSet cap e (listGetD cap e 0 - 1)
  listSet cap1 (listGetD fl.rev e 0) (listGetD cap1 (listGetD fl.rev e 0) 0 + 1)

/-- Augment one unit along a path of edge ids (the source walks the parent
pointers from `t` back to `s` performing the same per-edge updates). -/
def augmentPath (fl : FlowT) (cap : List Int) (path : List Nat) : List Int :=
  path.foldl (augmentEdge fl) cap

/-- The augmenting loop of `maxflow_limit` (`while (flow < limit)`), with
fuel `limit.toNat` counting the remaining units: the source increments `flow`
exactly once per iteration.  Returns the mutated capacities and the flow. -/
def maxflowLoop (fl : FlowT) (s t : Nat) : Nat → List Int → Int → List Int × Int
  | 0, cap, flow => (cap, flow)
  | Nat.succ fuel, cap, flow =>
    let disc0 := listSet (List.replicate fl.n (none : Option (List Nat))) s (some [])
    let disc := bfsFlow fl cap t (fl.n + 1) disc0 [s]
    match listGetD disc t none with
    | none => (cap, flow)
    | some path => maxflowLoop fl s t fuel (augmentPath fl cap path) (flow + 1)

/-- `maxflow_limit(s, t, cap, limit)`. -/
def maxflowLimit (fl : FlowT) (s t : Nat) (cap : List Int) (limit : Int) : List Int × Int :=
  maxflowLoop fl s t limit.toNat cap 0

/-! ## Monotone saturation of a successor map

The two visited-set searches of the source (`bfs_reachable` and the residual
reverse scan of `min_separator`) use only the *set* of visited nodes, which
is independent of the queue order: it is the closure of the start set under
the one-step successor map.  `sat n` applies the one-step expansion `n`
times; with `n` at least the carrier size this reaches the closure. -/

/-- One expansion step: add every successor of a member. -/
def satStep {α : Type} [DecidableEq α] (nbrs : α → List α) (s : Finset α) : Finset α :=
  s ∪ s.biUnion (fun a => (nbrs a).toFinset)

/-- `n`-fold expansion. -/
def sat {α : Type} [DecidableEq α] (nbrs : α → List α) : Nat → Finset α → Finset α
  | 0, s => s
  | Nat.succ n, s => sat nbrs n (satStep nbrs s)

/-- `for_each_set_bit` of a `DynamicBitset` over the index space `0..N-1`:
the set bits in ascending order (the source scans words upward). -/
def bitList (N : Nat) (s : Finset Nat) : List Nat :=
  (List.range N).filter (fun i => decide (i ∈ s))

/-- Insert into a sorted list (used to model `std::sort`; the sorted wall
lists have pairwise distinct keys, so any correct sort yields this result). -/
def insertSorted {α : Type} (le : α → α → Bool) (x : α) : List α → List α
  | [] => [x]
  | y :: rest => if le x y then x :: y :: rest else y :: insertSorted le x rest

/-- Sorting by a boolean comparison. -/
def sortByLe {α : Type} (le : α → α → Bool) (l : List α) : List α :=
  l.foldr (insertSorted le) []

/-! ## The solver network and oracle -/

/-- The per-`solve` flow network: the graph, `INF = k + 1`, the template and
the recorded `cell_edge_idx` / `src_edge_idx` arrays. -/
structure Network where
  G : Graph
  INF : Int
  flow : FlowT
  cellEdgeIdx : List Nat
  srcEdgeIdx : List Nat

/-- Super-source node id. -/
def Network.SRC (net : Network) : Nat := 2 * net.G.N

/-- Super-sink node id. -/
def Network.SNK (net : Network) : Nat := 2 * net.G.N + 1

/-- Build the flow network of `solve`: cell edges `in(i)→out(i)` (capacity 1
if wallable and not the horse, else `INF`), adjacency edges `out(i)→in(j)`
(`INF`), boundary edges `out(i)→SNK` (`INF`), and source edges `SRC→out(i)`
(`INF` for the horse, else 0), recording the cell and source edge ids. -/
def buildNetwork (G : Graph) (k : Int) : Network :=
  let INF : Int := k + 1
  let N := G.N
  let f0 := FlowT.init (2 * N + 2)
  let step1 := (List.range N).foldl
    (fun (acc : FlowT × List Nat) i =>
      let capCell : Int := if i = horseIdx ∨ listGetD G.wallable i false = false then INF else 1
      let (f2, idx) := addEdge acc.1 (2 * i) (2 * i + 1) capCell
      (f2, acc.2 ++ [idx])) (f0, [])
  let f3 := (List.range N).foldl
    (fun f i => (listGetD G.adj i []).foldl
      (fun f j => (addEdge f (2 * i + 1) (2 * j) INF).1) f) step1.1
  let f4 := (List.range N).foldl
    (fun f i => if i ∈ G.boundary then (addEdge f (2 * i + 1) (2 * N + 1) INF).1 else f) f3
  let step5 := (List.range N).foldl
    (fun (acc : FlowT × List Nat) i =>
      let capSrc : Int := if i = horseIdx then INF else 0
      let (f2, idx) := addEdge acc.1 (2 * N) (2 * i + 1) capSrc
      (f2, acc.2 ++ [idx])) (f4, [])
  ⟨G, INF, step5.1, step1.2, step5.2⟩

/-- The successor map of the index-level flood fill: adjacent indices that
are not blocked. -/
def idxNbrs (G : Graph) (blocked : Finset Nat) (u : Nat) : List Nat :=
  (listGetD G.adj u []).filter (fun v => decide (v ∉ blocked))

/-- `bfs_reachable(blocked)`: the flood fill from the horse over the index
graph treating `blocked` cells as walls.  Returns the visited set, its size,
and whether it intersects the boundary. -/
def bfsReachable (G : Graph) (blocked : Finset Nat) : Finset Nat × Nat × Bool :=
  if horseIdx ∈ blocked then (∅, 0, true)
  else
    let vis := sat (idxNbrs G blocked) G.N {horseIdx}
    (vis, vis.card, decide (vis ∩ G.boundary).Nonempty)

/-- The residual successor map for the reverse reachability scan: from `v`,
walk every edge `e ∈ in_adj[v]` with `cap[e] > 0` backward to `frm[e]`. -/
def residNbrs (fl : FlowT) (cap : List Int) (v : Nat) : List Nat :=
  (listGetD fl.inAdj v []).filterMap
    (fun e => if 0 < listGetD cap e 0 then some (listGetD fl.frm e 0) else none)

/-- `min_separator(deleted, forced, k_rem)`: `none` when the branch is
infeasible, otherwise the extracted minimum-cut cell set.  The source applies
the `deleted` and `forced` capacity patches in ascending bit order and
returns `false` when `deleted` and `forced` intersect (the patched vector is
discarded in that case, so the early `ok = false` flag is equivalent to the
up-front disjointness test). -/
def minSeparator (net : Network) (deleted forced : Finset Nat) (kRem : Int) :
    Option (Finset Nat) :=
  if ¬ Disjoint deleted forced then none
  else
    let cap1 := (bitList net.G.N deleted).foldl
      (fun cap i => listSet cap (listGetD net.cellEdgeIdx i 0) 0) net.flow.baseCap
    let cap2 := (bitList net.G.N forced).foldl
      (fun cap i =>
        listSet (listSet cap (listGetD net.cellEdgeIdx i 0) net.INF)
          (listGetD net.srcEdgeIdx i 0) net.INF) cap1
    let res := maxflowLimit net.flow net.SRC net.SNK cap2 (kRem + 1)
    if kRem < res.2 then none
    else
      let can := sat (residNbrs net.flow res.1) net.flow.n {net.SNK}
      some ((Finset.range net.G.N).filter (fun i =>
        listGetD net.G.wallable i false = true ∧ i ∉ deleted ∧ i ∉ forced ∧
        2 * i ∉ can ∧ 2 * i + 1 ∈ can))

/-! ## The search driver -/

/-- A memoised search state `(deleted, forced, k_rem)`. -/
structure State where
  deleted : Finset Nat
  forced : Finset Nat
  kRem : Int
deriving DecidableEq

/-- The mutable search context: the best area and walls found so far and the
memo table of visited states. -/
structure Ctx where
  bestArea : Nat
  bestWalls : Finset Nat
  memo : List State

/-- The recursive branch-and-bound `dfs`.  The fuel argument bounds the
recursion depth: every recursive call commits one further cell (to `forced`
or to `deleted`), so depth `G.N + 1` as passed by `solve` is never exhausted. -/
def dfs (net : Network) : Nat → Finset Nat → Finset Nat → Int → Ctx → Ctx
  | 0, _, _, _, ctx => ctx
  | Nat.succ fuel, deleted, forced, kRem, ctx =>
    if State.mk deleted forced kRem ∈ ctx.memo then ctx
    else
      let ctx1 : Ctx := ⟨ctx.bestArea, ctx.bestWalls, State.mk deleted forced kRem :: ctx.memo⟩
      let fill := bfsReachable net.G deleted
      if fill.2.1 ≤ ctx1.bestArea then ctx1
      else if ¬ forced ⊆ fill.1 then ctx1
      else
        match minSeparator net deleted forced kRem with
        | none => ctx1
        | some sep =>
          let cand := deleted ∪ sep
          let eval := bfsReachable net.G cand
          let ctx2 : Ctx :=
            if eval.2.2 = false ∧ ctx1.bestArea < eval.2.1 then
              ⟨eval.2.1, cand, ctx1.memo⟩
            else ctx1
          if kRem = 0 then ctx2
          else if h : sep = ∅ then ctx2
          else
            let v := sep.min' (Finset.nonempty_iff_ne_empty.mpr h)
            let ctx3 := dfs net fuel deleted (insert v forced) kRem ctx2
            dfs net fuel (insert v deleted) forced (kRem - 1) ctx3

/-! ## `solve` -/

/-- The result of `solve`: the best area and the sorted wall list. -/
structure SolveResult where
  bestArea : Nat
  walls : List Coord
deriving DecidableEq, Repr

/-- Lexicographic comparison of coordinates (`std::sort` on pairs). -/
def lexLe (p q : Coord) : Bool := p.1 < q.1 || (p.1 = q.1 && p.2 ≤ q.2)

/-- `solve(k, grid)`: build the graph, short-circuit a boundary horse, run
the search, and return the best area with the lexicographically sorted wall
coordinates. -/
def solve (k : Int) (g : Grid) : Except SolveErr SolveResult :=
  match buildGraph g with
  | .error e => .error e
  | .ok G =>
    if horseIdx ∈ G.boundary then
      Except.ok ⟨0, []⟩
    else
      let net := buildNetwork G k
      let ctx := dfs net (G.N + 1) ∅ {horseIdx} k ⟨0, ∅, []⟩
      let walls := (bitList G.N ctx.bestWalls).map (fun i => listGetD G.coords i (0, 0))
      Except.ok ⟨ctx.bestArea, sortByLe lexLe walls⟩

/-! ## Closure theory for `sat` -/

/-- Reachability along the successor map: `b` is reachable from `a`. -/
def ReachRel {α : Type} (nbrs : α → List α) (a b : α) : Prop :=
  Relation.ReflTransGen (fun x y => y ∈ nbrs x) a b

theorem subset_satStep {α : Type} [DecidableEq α] (nbrs : α → List α) (s : Finset α) :
    s ⊆ satStep nbrs s :=
  Finset.subset_union_left

theorem satStep_mono {α : Type} [DecidableEq α] (nbrs : α → List α) {s t : Finset α}
    (h : s ⊆ t) : satStep nbrs s ⊆ satStep nbrs t := by
  intro x hx
  rcases Finset.mem_union.1 hx with hx | hx
  · exact Finset.mem_union.2 (Or.inl (h hx))
  · rcases Finset.mem_biUnion.1 hx with ⟨a, ha, hxa⟩
    exact Finset.mem_union.2 (Or.inr (Finset.mem_biUnion.2 ⟨a, h ha, hxa⟩))

theorem mem_satStep_of_mem {α : Type} [DecidableEq α] (nbrs : α → List α) {s : Finset α}
    {a b : α} (ha : a ∈ s) (hb : b ∈ nbrs a) : b ∈ satStep nbrs s :=
  Finset.mem_union.2 (Or.inr (Finset.mem_biUnion.2 ⟨a, ha, List.mem_toFinset.2 hb⟩))

theorem subset_sat {α : Type} [DecidableEq α] (nbrs : α → List α) (n : Nat) (s : Finset α) :
    s ⊆ sat nbrs n s := by
  induction n generalizing s with
  | zero => exact fun x hx => hx
  | succ n ih => exact fun x hx => ih (satStep nbrs s) (subset_satStep nbrs s hx)

theorem sat_mono {α : Type} [DecidableEq α] (nbrs : α → List α) (n : Nat) {s t : Finset α}
    (h : s ⊆ t) : sat nbrs n s ⊆ sat nbrs n t := by
  induction n generalizing s t with
  | zero => exact h
  | succ n ih => exact ih (satStep_mono nbrs h)

/-- Soundness: everything in the saturation is reachable from the start set. -/
theorem sat_sound {α : Type} [DecidableEq α] (nbrs : α → List α) (n : Nat) (s : Finset α)
    {x : α} (hx : x ∈ sat nbrs n s) : ∃ a ∈ s, ReachRel nbrs a x := by
  induction n generalizing s with
  | zero => exact ⟨x, hx, Relation.ReflTransGen.refl⟩
  | succ n ih =>
    rcases ih (satStep nbrs s) hx with ⟨b, hb, hreach⟩
    rcases Finset.mem_union.1 hb with hb | hb
    · exact ⟨b, hb, hreach⟩
    · rcases Finset.mem_biUnion.1 hb with ⟨a, ha, hba⟩
      exact ⟨a, ha, Relation.ReflTransGen.head (List.mem_toFinset.1 hba) hreach⟩

/-- A set closed under one expansion step absorbs everything reachable from it. -/
theorem closed_absorbs {α : Type} [DecidableEq α] {nbrs : α → List α} {s : Finset α}
    (hclosed : satStep nbrs s = s) {a x : α} (ha : a ∈ s) (hx : ReachRel nbrs a x) :
    x ∈ s := by
  induction hx with
  | refl => exact ha
  | tail _ hstep ih => exact hclosed ▸ mem_satStep_of_mem nbrs ih hstep

theorem sat_of_closed {α : Type} [DecidableEq α] {nbrs : α → List α} {s : Finset α}
    (hclosed : satStep nbrs s = s) (n : Nat) : sat nbrs n s = s := by
  induction n with
  | zero => rfl
  | succ n ih => simpa [sat, hclosed] using ih

/-- Iterating the expansion splits additively. -/
theorem sat_grow_eq {α : Type} [DecidableEq α] (nbrs : α → List α) (a b : Nat) (t : Finset α) :
    sat nbrs (a + b) t = sat nbrs a (sat nbrs b t) := by
  induction b generalizing t with
  | zero => rfl
  | succ b ih =>
    have h1 : a + (b + 1) = (a + b) + 1 := by omega
    rw [h1]
    exact ih (satStep nbrs t)

/-- If the whole process stays inside a carrier `U`, then `U.card` expansion
steps reach a closed set. -/
theorem satStep_sat_card {α : Type} [DecidableEq α] {nbrs : α → List α} {s U : Finset α}
    (hsU : s ⊆ U) (hU : ∀ a ∈ U, ∀ b ∈ nbrs a, b ∈ U) :
    satStep nbrs (sat nbrs U.card s) = sat nbrs U.card s := by
  -- every iterate stays inside `U`
  have hstay : ∀ n t, t ⊆ U → sat nbrs n t ⊆ U := by
    intro n
    induction n with
    | zero => exact fun t ht => ht
    | succ n ih =>
      intro t ht
      refine ih (satStep nbrs t) ?_
      intro x hx
      rcases Finset.mem_union.1 hx with hx | hx
      · exact ht hx
      · rcases Finset.mem_biUnion.1 hx with ⟨a, ha, hxa⟩
        exact hU a (ht ha) x (List.mem_toFinset.1 hxa)
  -- if no iterate below `n` is closed, cardinalities grow linearly
  have hgrow : ∀ n, (∀ m < n, satStep nbrs (sat nbrs m s) ≠ sat nbrs m s) →
      s.card + n ≤ (sat nbrs n s).card := by
    intro n
    induction n with
    | zero => simp [sat]
    | succ n ih =>
      intro hne
      have h1 : s.card + n ≤ (sat nbrs n s).card :=
        ih (fun m hm => hne m (Nat.lt_succ_of_lt hm))
      have h2 : (sat nbrs n s).card < (satStep nbrs (sat nbrs n s)).card := by
        refine Finset.card_lt_card (Finset.ssubset_iff_subset_ne.2
          ⟨subset_satStep nbrs _, ?_⟩)
        exact fun h => hne n (Nat.lt_succ_self n) h.symm
      have h3 : sat nbrs (n + 1) s = satStep nbrs (sat nbrs n s) := by
        have h4 := sat_grow_eq nbrs 1 n s
        rw [Nat.add_comm 1 n] at h4
        rw [h4]
        rfl
      rw [h3]
      omega
  -- main argument: some iterate of index at most `U.card` is closed
  by_contra hnot
  have hall : ∀ m < U.card + 1, satStep nbrs (sat nbrs m s) ≠ sat nbrs m s := by
    intro m hm hclosed
    rcases Nat.lt_or_ge m U.card with hlt | hge
    · apply hnot
      have heq : sat nbrs U.card s = sat nbrs m s := by
        have h2 : U.card = (U.card - m) + m := by omega
        rw [h2, sat_grow_eq nbrs (U.card - m) m s, sat_of_closed hclosed]
      rw [heq, hclosed]
    · have hm2 : m = U.card := by omega
      exact hnot (hm2 ▸ hclosed)
  have hbig := hgrow (U.card + 1) hall
  have hin : sat nbrs (U.card + 1) s ⊆ U := hstay _ s hsU
  have hcard := Finset.card_le_card hin
  omega

/-- Completeness at the carrier bound: everything reachable from the start
set is in the saturation. -/
theorem sat_complete {α : Type} [DecidableEq α] {nbrs : α → List α} {s U : Finset α}
    (hsU : s ⊆ U) (hU : ∀ a ∈ U, ∀ b ∈ nbrs a, b ∈ U)
    {a x : α} (ha : a ∈ s) (hx : ReachRel nbrs a x) : x ∈ sat nbrs U.card s :=
  closed_absorbs (satStep_sat_card hsU hU) (subset_sat nbrs U.card s ha) hx

/-! ## Properties of the separator oracle -/

/-- A successful `min_separator` query implies the inputs were disjoint and
every extracted cut cell is wallable, uncommitted and a real index. -/
theorem minSeparator_spec {net : Network} {d f : Finset Nat} {kr : Int} {sep : Finset Nat}
    (h : minSeparator net d f kr = some sep) :
    Disjoint d f ∧ ∀ i ∈ sep,
      listGetD net.G.wallable i false = true ∧ i ∉ d ∧ i ∉ f ∧ i < net.G.N := by
  unfold minSeparator at h
  split at h
  · exact absurd h (by simp)
  · next hdisj =>
    refine ⟨not_not.mp hdisj, ?_⟩
    dsimp only at h
    split at h
    · exact absurd h (by simp)
    · intro i hi
      rw [← Option.some.inj h] at hi
      have hm := Finset.mem_filter.1 hi
      exact ⟨hm.2.1, hm.2.2.1, hm.2.2.2.1, Finset.mem_range.1 hm.1⟩

/-! ## The reachable search states -/

/-- Search states reachable from the initial `dfs(∅, {horse}, k)` call by the
two branching steps.  The relation over-approximates the executed search: the
memoisation and best-area prunes (which depend on the evolving search
context) are dropped, while the data-relevant guards are kept — a successful
separator query, a nonzero remaining budget, a nonempty cut, and the
smallest-index tie-break `first_set_bit`. -/
inductive ReachesState (net : Network) (k : Int) : Finset Nat → Finset Nat → Int → Prop
  | init : ReachesState net k ∅ {horseIdx} k
  | force (d f : Finset Nat) (kr : Int) (sep : Finset Nat)
      (hprev : ReachesState net k d f kr)
      (hsep : minSeparator net d f kr = some sep)
      (hkr : kr ≠ 0) (hne : sep.Nonempty) :
      ReachesState net k d (insert (sep.min' hne) f) kr
  | wall (d f : Finset Nat) (kr : Int) (sep : Finset Nat)
      (hprev : ReachesState net k d f kr)
      (hsep : minSeparator net d f kr = some sep)
      (hkr : kr ≠ 0) (hne : sep.Nonempty) :
      ReachesState net k (insert (sep.min' hne) d) f (kr - 1)

/-- C7.  In every search state reachable from the initial call by the two
branching steps: the horse index is in `forced`, the horse index is not in
`deleted`, every member of `deleted` is wallable, and `deleted` and `forced`
are disjoint. -/
theorem dfs_state_invariants (net : Network) (k : Int) (d f : Finset Nat) (kr : Int)
    (h : ReachesState net k d f kr) :
    horseIdx ∈ f ∧ horseIdx ∉ d ∧
      (∀ i ∈ d, listGetD net.G.wallable i false = true) ∧ Disjoint d f := by
  induction h with
  | init => simp
  | force d f kr sep hprev hsep hkr hne ih =>
    obtain ⟨hh, hhd, hw, hdisj⟩ := ih
    have hv := (minSeparator_spec hsep).2 _ (sep.min'_mem hne)
    refine ⟨Finset.mem_insert_of_mem hh, hhd, hw, ?_⟩
    rw [Finset.disjoint_insert_right]
    exact ⟨hv.2.1, hdisj⟩
  | wall d f kr sep hprev hsep hkr hne ih =>
    obtain ⟨hh, hhd, hw, hdisj⟩ := ih
    have hv := (minSeparator_spec hsep).2 _ (sep.min'_mem hne)
    refine ⟨hh, ?_, ?_, ?_⟩
    · intro hmem
      rcases Finset.mem_insert.1 hmem with hmem | hmem
      · exact hv.2.2.1 (hmem ▸ hh)
      · exact hhd hmem
    · intro i hi
      rcases Finset.mem_insert.1 hi with hi | hi
      · exact hi ▸ hv.1
      · exact hw i hi
    · rw [Finset.disjoint_insert_left]
      exact ⟨hv.2.2.1, hdisj⟩

/-! ## Termination of the search -/

/-- The number of cells not yet committed to either side of a search state:
the termination measure of the recursion. -/
def unassigned (N : Nat) (d f : Finset Nat) : Nat :=
  (Finset.range N \ (d ∪ f)).card

theorem unassigned_le (N : Nat) (d f : Finset Nat) : unassigned N d f ≤ N := by
  calc (Finset.range N \ (d ∪ f)).card ≤ (Finset.range N).card :=
        Finset.card_le_card (Finset.sdiff_subset)
    _ = N := Finset.card_range N

theorem unassigned_insert_forced {N v : Nat} {d f : Finset Nat}
    (hv : v < N) (hvd : v ∉ d) (hvf : v ∉ f) :
    unassigned N d (insert v f) < unassigned N d f := by
  have hmem : v ∈ Finset.range N \ (d ∪ f) := by
    simp only [Finset.mem_sdiff, Finset.mem_range, Finset.mem_union]
    exact ⟨hv, fun h => h.elim hvd hvf⟩
  have heq : Finset.range N \ (d ∪ insert v f) = (Finset.range N \ (d ∪ f)).erase v := by
    ext x
    simp only [Finset.mem_sdiff, Finset.mem_range, Finset.mem_union, Finset.mem_erase,
      Finset.mem_insert]
    constructor
    · rintro ⟨hx, hnot⟩
      exact ⟨fun hxv => hnot (Or.inr (Or.inl hxv)), hx, fun h => hnot (h.imp id Or.inr)⟩
    · rintro ⟨hxv, hx, hnot⟩
      exact ⟨hx, fun h => hnot (h.imp id (fun h2 => h2.resolve_left hxv))⟩
  have hpos : 0 < (Finset.range N \ (d ∪ f)).card := Finset.card_pos.2 ⟨v, hmem⟩
  rw [unassigned, unassigned, heq, Finset.card_erase_of_mem hmem]
  omega

theorem unassigned_insert_deleted {N v : Nat} {d f : Finset Nat}
    (hv : v < N) (hvd : v ∉ d) (hvf : v ∉ f) :
    unassigned N (insert v d) f < unassigned N d f := by
  have h := unassigned_insert_forced (d := f) (f := d) hv hvf hvd
  have hcomm : ∀ a b : Finset Nat, unassigned N a b = unassigned N b a := by
    intro a b
    rw [unassigned, unassigned, Finset.union_comm]
  rw [hcomm (insert v d) f, hcomm d f]
  exact h

/-- The result of `dfs` does not depend on the fuel once the fuel exceeds the
measure: the fuel `G.N + 1` passed by `solve` is never exhausted, which is the
fuel-based rendering of the termination of the source's recursion. -/
theorem dfs_fuel_stable (net : Network) : ∀ fuel1 fuel2 (d f : Finset Nat) (kr : Int) (ctx : Ctx),
    unassigned net.G.N d f < fuel1 → unassigned net.G.N d f < fuel2 →
    dfs net fuel1 d f kr ctx = dfs net fuel2 d f kr ctx := by
  intro fuel1
  induction fuel1 with
  | zero => intro fuel2 d f kr ctx h1 _; exact absurd h1 (Nat.not_lt_zero _)
  | succ fuel1 ih =>
    intro fuel2 d f kr ctx h1 h2
    cases fuel2 with
    | zero => exact absurd h2 (Nat.not_lt_zero _)
    | succ fuel2 =>
      simp only [dfs]
      split
      · rfl
      · split
        · rfl
        · split
          · rfl
          · split
            · rfl
            · next sep heq =>
              split
              · rfl
              · split
                · rfl
                · next hkr hne =>
                  have hnonempty := Finset.nonempty_iff_ne_empty.2 hne
                  have hv := (minSeparator_spec heq).2 _ (sep.min'_mem hnonempty)
                  obtain ⟨-, hvd, hvf, hvN⟩ := hv
                  have hlt1 := unassigned_insert_forced (d := d) hvN hvd hvf
                  have hlt2 := unassigned_insert_deleted (f := f) hvN hvd hvf
                  rw [ih fuel2 d (insert (sep.min' hnonempty) f) kr _
                        (by omega) (by omega)]
                  exact ih fuel2 (insert (sep.min' hnonempty) d) f (kr - 1) _
                    (by omega) (by omega)

/-- Indices committed in reachable states are genuine (below `N`). -/
theorem dfs_state_range (net : Network) (k : Int) (hN : 0 < net.G.N)
    (d f : Finset Nat) (kr : Int) (h : ReachesState net k d f kr) :
    d ∪ f ⊆ Finset.range net.G.N := by
  induction h with
  | init =>
    intro x hx
    simp only [Finset.empty_union, Finset.mem_singleton] at hx
    simpa [hx, horseIdx] using hN
  | force d f kr sep hprev hsep hkr hne ih =>
    intro x hx
    rcases Finset.mem_union.1 hx with hx | hx
    · exact ih (Finset.mem_union_left _ hx)
    · rcases Finset.mem_insert.1 hx with hx | hx
      · have hv := (minSeparator_spec hsep).2 _ (sep.min'_mem hne)
        simpa [hx] using hv.2.2.2
      · exact ih (Finset.mem_union_right _ hx)
  | wall d f kr sep hprev hsep hkr hne ih =>
    intro x hx
    rcases Finset.mem_union.1 hx with hx | hx
    · rcases Finset.mem_insert.1 hx with hx | hx
      · have hv := (minSeparator_spec hsep).2 _ (sep.min'_mem hne)
        simpa [hx] using hv.2.2.2
      · exact ih (Finset.mem_union_left _ hx)
    · exact ih (Finset.mem_union_right _ hx)

/-- C8.  Branching from any reachable state, the `force` child strictly grows
`|deleted| + |forced|` with `k_rem` unchanged and the `wall` child strictly
decreases `k_rem`; the sum is bounded by `N`; and the fuel `G.N + 1` that
`solve` passes to `dfs` is exact — any larger fuel computes the same result,
i.e. the recursion always bottoms out within the bound, so the search
terminates. -/
theorem dfs_terminates (net : Network) (k : Int) (hN : 0 < net.G.N) :
    (∀ (d f : Finset Nat) (kr : Int) (sep : Finset Nat),
        ReachesState net k d f kr → minSeparator net d f kr = some sep →
        kr ≠ 0 → ∀ hne : sep.Nonempty,
        d.card + (insert (sep.min' hne) f).card = d.card + f.card + 1 ∧
          (insert (sep.min' hne) d).card + f.card = d.card + f.card + 1 ∧
          kr - 1 < kr) ∧
    (∀ (d f : Finset Nat) (kr : Int), ReachesState net k d f kr →
        d.card + f.card ≤ net.G.N) ∧
    (∀ (fuel : Nat) (d f : Finset Nat) (kr : Int) (ctx : Ctx), net.G.N < fuel →
        dfs net fuel d f kr ctx = dfs net (net.G.N + 1) d f kr ctx) := by
  refine ⟨?_, ?_, ?_⟩
  · intro d f kr sep hreach hsep hkr hne
    have hv := (minSeparator_spec hsep).2 _ (sep.min'_mem hne)
    obtain ⟨-, hvd, hvf, -⟩ := hv
    refine ⟨?_, ?_, by omega⟩
    · rw [Finset.card_insert_of_not_mem hvf]
      omega
    · rw [Finset.card_insert_of_not_mem hvd]
      omega
  · intro d f kr hreach
    have hdisj := (dfs_state_invariants net k d f kr hreach).2.2.2
    have hsub := dfs_state_range net k hN d f kr hreach
    calc d.card + f.card = (d ∪ f).card := (Finset.card_union_of_disjoint hdisj).symm
      _ ≤ (Finset.range net.G.N).card := Finset.card_le_card hsub
      _ = net.G.N := Finset.card_range _
  · intro fuel d f kr ctx hfuel
    exact dfs_fuel_stable net fuel (net.G.N + 1) d f kr ctx
      (by have := unassigned_le net.G.N d f; omega)
      (by have := unassigned_le net.G.N d f; omega)

/-! ## Elementary lemmas about the list helpers -/

theorem mem_bitList {N : Nat} {s : Finset Nat} {x : Nat} :
    x ∈ bitList N s ↔ x < N ∧ x ∈ s := by
  simp [bitList]

theorem mem_insertSorted {α : Type} (le : α → α → Bool) (x y : α) :
    ∀ l : List α, y ∈ insertSorted le x l ↔ y = x ∨ y ∈ l := by
  intro l
  induction l with
  | nil => simp [insertSorted]
  | cons a rest ih =>
    rw [insertSorted]
    split
    · simp only [List.mem_cons]
    · simp only [List.mem_cons, ih]
      tauto

theorem mem_sortByLe {α : Type} (le : α → α → Bool) (y : α) :
    ∀ l : List α, y ∈ sortByLe le l ↔ y ∈ l := by
  intro l
  induction l with
  | nil => simp [sortByLe]
  | cons a rest ih =>
    simp only [sortByLe, List.foldr_cons, List.mem_cons]
    rw [show List.foldr (insertSorted le) [] rest = sortByLe le rest from rfl] at *
    rw [mem_insertSorted, ih]

theorem length_insertSorted {α : Type} (le : α → α → Bool) (x : α) :
    ∀ l : List α, (insertSorted le x l).length = l.length + 1 := by
  intro l
  induction l with
  | nil => rfl
  | cons a rest ih =>
    by_cases hle : le x a = true
    · simp [insertSorted, hle]
    · simp [insertSorted, hle, ih]

theorem length_sortByLe {α : Type} (le : α → α → Bool) :
    ∀ l : List α, (sortByLe le l).length = l.length := by
  intro l
  induction l with
  | nil => rfl
  | cons a rest ih =>
    simp only [sortByLe, List.foldr_cons, List.length_cons]
    rw [show List.foldr (insertSorted le) [] rest = sortByLe le rest from rfl,
      length_insertSorted, ih]

theorem length_bitList_card {N : Nat} {s : Finset Nat} (hs : s ⊆ Finset.range N) :
    (bitList N s).length = s.card := by
  rw [bitList]
  rw [← List.toFinset_card_of_nodup ((List.nodup_range N).filter _)]
  congr 1
  ext x
  simp only [List.mem_toFinset, List.mem_filter, List.mem_range, decide_eq_true_eq]
  exact ⟨fun h => h.2, fun h => ⟨Finset.mem_range.1 (hs h), h⟩⟩

theorem listGetD_append_left {α : Type} {d : α} :
    ∀ {l1 : List α} {i : Nat}, i < l1.length →
      ∀ l2 : List α, listGetD (l1 ++ l2) i d = listGetD l1 i d := by
  intro l1
  induction l1 with
  | nil => intro i h; exact absurd h (Nat.not_lt_zero _)
  | cons a rest ih =>
    intro i h l2
    cases i with
    | zero => rfl
    | succ i =>
      have h2 : i < rest.length := by simpa using h
      simpa [listGetD, List.getD] using ih h2 l2

/-! ## The index map `idx_of` -/

theorem idxOf_some_spec {p : Coord} {i : Nat} :
    ∀ {cs : List Coord}, idxOf cs p = some i → i < cs.length ∧ listGetD cs i (0, 0) = p := by
  intro cs
  induction cs generalizing i with
  | nil => intro h; cases h
  | cons q rest ih =>
    intro h
    rw [idxOf] at h
    split at h
    · next hq =>
      cases h
      exact ⟨Nat.succ_pos _, hq⟩
    · cases hrec : idxOf rest p with
      | none => rw [hrec] at h; cases h
      | some j =>
        rw [hrec] at h
        cases h
        obtain ⟨hlt, hget⟩ := ih hrec
        refine ⟨Nat.succ_lt_succ hlt, ?_⟩
        simpa [listGetD, List.getD] using hget

theorem idxOf_isSome_of_mem {p : Coord} :
    ∀ {cs : List Coord}, p ∈ cs → (idxOf cs p).isSome = true := by
  intro cs
  induction cs with
  | nil => intro h; cases h
  | cons q rest ih =>
    intro h
    rw [idxOf]
    split
    · rfl
    · next hq =>
      rcases List.mem_cons.1 h with h | h
      · exact absurd h.symm hq
      · cases hrec : idxOf rest p with
        | none => rw [hrec] at ih; exact absurd (ih h) (by simp)
        | some j => simp [hrec]

theorem mem_adjOf_lt {cs : List Coord} {p : Coord} {j : Nat} (h : j ∈ adjOf cs p) :
    j < cs.length := by
  rw [adjOf] at h
  rcases List.mem_filterMap.1 h with ⟨q, -, hq⟩
  exact (idxOf_some_spec hq).1

/-! ## Decomposition of `solve` -/

theorem solve_of_build_error {k : Int} {g : Grid} {e : SolveErr}
    (hb : buildGraph g = Except.error e) : solve k g = Except.error e := by
  rw [solve, hb]

theorem solve_of_build_ok {k : Int} {g : Grid} {G : Graph}
    (hb : buildGraph g = Except.ok G) :
    solve k g =
      if horseIdx ∈ G.boundary then Except.ok ⟨0, []⟩
      else
        Except.ok ⟨(dfs (buildNetwork G k) (G.N + 1) ∅ {horseIdx} k ⟨0, ∅, []⟩).bestArea,
          sortByLe lexLe
            (((bitList G.N (dfs (buildNetwork G k) (G.N + 1) ∅ {horseIdx} k
                ⟨0, ∅, []⟩).bestWalls)).map (fun i => listGetD G.coords i (0, 0)))⟩ := by
  rw [solve, hb]

/-! ## What a successful graph build guarantees -/

theorem buildGraph_ok_spec {g : Grid} {G : Graph} (hb : buildGraph g = Except.ok G) :
    G.R = g.length ∧
    (∃ row0 rest, g = row0 :: rest ∧ G.C = row0.length) ∧
    (∃ hp, scanForHorse g G.C 0 G.R = Except.ok hp ∧
      bfsBuild g G.R G.C (G.R * G.C + 1) [hp] [hp] = Except.ok G.coords) ∧
    computeWallable g G.coords = Except.ok G.wallable ∧
    G.adj = G.coords.map (adjOf G.coords) ∧
    G.boundary = boundarySet G.R G.C G.coords := by
  cases g with
  | nil => rw [buildGraph] at hb; cases hb
  | cons row0 rest =>
    rw [buildGraph] at hb
    simp only [List.get?] at hb
    cases hscan : scanForHorse (row0 :: rest) row0.length 0 (row0 :: rest).length with
    | error e => simp only [hscan] at hb; cases hb
    | ok hp =>
      simp only [hscan] at hb
      cases hbfs : bfsBuild (row0 :: rest) (row0 :: rest).length row0.length
          ((row0 :: rest).length * row0.length + 1) [hp] [hp] with
      | error e => simp only [hbfs] at hb; cases hb
      | ok cs =>
        simp only [hbfs] at hb
        cases hw : computeWallable (row0 :: rest) cs with
        | error e => simp only [hw] at hb; cases hb
        | ok w =>
          simp only [hw] at hb
          cases hb
          exact ⟨rfl, ⟨row0, rest, rfl, rfl⟩, ⟨hp, hscan, hbfs⟩, hw, rfl, rfl⟩

/-- The `wallable` array records exactly whether the cell's character is `.`. -/
theorem computeWallable_spec {g : Grid} :
    ∀ {cs : List Coord} {w : List Bool}, computeWallable g cs = Except.ok w →
    w.length = cs.length ∧
    ∀ i, i < cs.length →
      ∃ ch, cellE g (listGetD cs i (0, 0)).1 (listGetD cs i (0, 0)).2 = some ch ∧
        listGetD w i false = decide (ch = '.') := by
  intro cs
  induction cs with
  | nil =>
    intro w h
    rw [computeWallable] at h
    cases h
    exact ⟨rfl, fun i hi => absurd hi (Nat.not_lt_zero _)⟩
  | cons p rest ih =>
    intro w h
    rw [computeWallable] at h
    cases hcell : cellE g p.1 p.2 with
    | none => rw [hcell] at h; cases h
    | some ch =>
      rw [hcell] at h
      cases hrec : computeWallable g rest with
      | error e => rw [hrec] at h; cases h
      | ok w2 =>
        rw [hrec] at h
        cases h
        obtain ⟨hlen, hall⟩ := ih hrec
        refine ⟨by simpa using hlen, ?_⟩
        intro i hi
        cases i with
        | zero => exact ⟨ch, by simpa [listGetD, List.getD] using hcell, rfl⟩
        | succ i =>
          have hi2 : i < rest.length := by simpa using hi
          obtain ⟨ch2, hc2, hw2⟩ := hall i hi2
          exact ⟨ch2, by simpa [listGetD, List.getD] using hc2,
            by simpa [listGetD, List.getD] using hw2⟩

/-! ## The best-walls invariant of the search context -/

/-- Well-formedness of a committed wall set: genuine wallable indices. -/
def WallsGood (net : Network) (w : Finset Nat) : Prop :=
  w ⊆ Finset.range net.G.N ∧ ∀ i ∈ w, listGetD net.G.wallable i false = true

/-- The search-context invariant maintained by `dfs`: either nothing has been
recorded yet, or the recorded walls are genuine wallable indices whose flood
fill does not escape to the boundary and whose area is the recorded best. -/
def CtxGood (net : Network) (ctx : Ctx) : Prop :=
  (ctx.bestArea = 0 ∧ ctx.bestWalls = ∅) ∨
  (0 < ctx.bestArea ∧ WallsGood net ctx.bestWalls ∧
    (bfsReachable net.G ctx.bestWalls).2.2 = false ∧
    (bfsReachable net.G ctx.bestWalls).2.1 = ctx.bestArea)

theorem wallsGood_union {net : Network} {d sep : Finset Nat} (hd : WallsGood net d)
    (hsep : ∀ i ∈ sep, listGetD net.G.wallable i false = true ∧ i < net.G.N) :
    WallsGood net (d ∪ sep) := by
  constructor
  · intro i hi
    rcases Finset.mem_union.1 hi with hi | hi
    · exact hd.1 hi
    · exact Finset.mem_range.2 (hsep i hi).2
  · intro i hi
    rcases Finset.mem_union.1 hi with hi | hi
    · exact hd.2 i hi
    · exact (hsep i hi).1

/-- `dfs` preserves the context invariant, provided the committed wall set of
the current state is itself well-formed. -/
theorem dfs_preserves_ctxGood (net : Network) :
    ∀ (fuel : Nat) (d f : Finset Nat) (kr : Int) (ctx : Ctx),
    WallsGood net d → CtxGood net ctx → CtxGood net (dfs net fuel d f kr ctx) := by
  intro fuel
  induction fuel with
  | zero => intro d f kr ctx _ hctx; exact hctx
  | succ fuel ih =>
    intro d f kr ctx hd hctx
    simp only [dfs]
    split
    · exact hctx
    · split
      · exact hctx
      · split
        · exact hctx
        · split
          · exact hctx
          · next sep heq =>
            have hsepGood : ∀ i ∈ sep, listGetD net.G.wallable i false = true ∧ i < net.G.N :=
              fun i hi => ⟨((minSeparator_spec heq).2 i hi).1,
                ((minSeparator_spec heq).2 i hi).2.2.2⟩
            have hctx2 : CtxGood net
                (if (bfsReachable net.G (d ∪ sep)).2.2 = false ∧
                    ctx.bestArea < (bfsReachable net.G (d ∪ sep)).2.1 then
                  ⟨(bfsReachable net.G (d ∪ sep)).2.1, d ∪ sep,
                    State.mk d f kr :: ctx.memo⟩
                else ⟨ctx.bestArea, ctx.bestWalls, State.mk d f kr :: ctx.memo⟩) := by
              split
              · next hcond =>
                obtain ⟨hesc, hlt⟩ := hcond
                refine Or.inr ⟨?_, wallsGood_union hd hsepGood, hesc, rfl⟩
                show 0 < (bfsReachable net.G (d ∪ sep)).2.1
                omega
              · exact hctx
            split
            · exact hctx2
            · split
              · exact hctx2
              · next hkr0 hne =>
                have hv := sep.min'_mem (Finset.nonempty_iff_ne_empty.2 hne)
                have hvGood := hsepGood _ hv
                refine ih _ _ _ _ ⟨?_, ?_⟩ (ih _ _ _ _ hd hctx2)
                · intro x hx
                  rcases Finset.mem_insert.1 hx with hx | hx
                  · exact hx ▸ Finset.mem_range.2 hvGood.2
                  · exact hd.1 hx
                · intro x hx
                  rcases Finset.mem_insert.1 hx with hx | hx
                  · exact hx ▸ hvGood.1
                  · exact hd.2 x hx

/-- The initial context is trivially good. -/
theorem ctxGood_start (net : Network) : CtxGood net ⟨0, ∅, []⟩ :=
  Or.inl ⟨rfl, rfl⟩

/-- The final context of the search performed by `solve` is good. -/
theorem searchCtx_good (G : Graph) (k : Int) :
    CtxGood (buildNetwork G k) (dfs (buildNetwork G k) (G.N + 1) ∅ {horseIdx} k ⟨0, ∅, []⟩) :=
  dfs_preserves_ctxGood (buildNetwork G k) (G.N + 1) ∅ {horseIdx} k ⟨0, ∅, []⟩
    ⟨Finset.empty_subset _, fun i hi => absurd hi (Finset.not_mem_empty i)⟩
    (ctxGood_start _)

/-- C4.  Every wall coordinate returned by `solve` was a `.` cell of the
input grid (in particular never the `H` cell and never a `#` cell). -/
theorem solve_walls_are_dots (k : Int) (g : Grid) (res : SolveResult)
    (h : solve k g = Except.ok res) :
    ∀ p ∈ res.walls, cellE g p.1 p.2 = some '.' := by
  cases hb : buildGraph g with
  | error e => rw [solve_of_build_error hb] at h; cases h
  | ok G =>
    rw [solve_of_build_ok hb] at h
    split at h
    · cases h
      intro p hp
      cases hp
    · cases h
      intro p hp
      rw [mem_sortByLe] at hp
      rcases List.mem_map.1 hp with ⟨i, hi, hpi⟩
      obtain ⟨hiN, hibest⟩ := mem_bitList.1 hi
      rcases searchCtx_good G k with ⟨-, hempty⟩ | ⟨-, ⟨-, hwall⟩, -, -⟩
      · rw [hempty] at hibest
        exact absurd hibest (Finset.not_mem_empty i)
      · have hwi := hwall i hibest
        have hnetG : (buildNetwork G k).G = G := rfl
        rw [hnetG] at hwi
        obtain ⟨-, -, -, hcw, -, -⟩ := buildGraph_ok_spec hb
        obtain ⟨-, hspec⟩ := computeWallable_spec hcw
        obtain ⟨ch, hch, hwch⟩ := hspec i hiN
        rw [hwi] at hwch
        have hch2 : ch = '.' := of_decide_eq_true hwch.symm
        rw [← hpi]
        rw [hch2] at hch
        exact hch

/-- Witness for C4 on a concrete run: the 3×3 grid with the horse at the
centre and budget 4 yields four walls, each a `.` cell. -/
def gridA : Grid := [['.', '.', '.'], ['.', 'H', '.'], ['.', '.', '.']]

set_option maxRecDepth 80000 in
theorem solve_walls_are_dots_witness :
    cellE gridA 0 1 = some '.' ∧ cellE gridA 1 0 = some '.' := by
  have hsolve : solve 4 gridA = Except.ok ⟨1, [(0, 1), (1, 0), (1, 2), (2, 1)]⟩ := rfl
  have h := solve_walls_are_dots 4 gridA ⟨1, [(0, 1), (1, 0), (1, 2), (2, 1)]⟩ hsolve
  exact ⟨h (0, 1) (by simp), h (1, 0) (by simp)⟩

/-! ## The error kinds the solver can actually produce -/

theorem scanRowForHorse_error {g : Grid} {r : Nat} :
    ∀ {c rem : Nat} {e : SolveErr}, scanRowForHorse g r c rem = Except.error e →
      e = SolveErr.outOfBounds := by
  intro c rem
  induction rem generalizing c with
  | zero => intro e h; cases h
  | succ rem ih =>
    intro e h
    rw [scanRowForHorse] at h
    split at h
    · cases h; rfl
    · split at h
      · cases h
      · exact ih h

theorem scanForHorse_error {g : Grid} {C : Nat} :
    ∀ {r rem : Nat} {e : SolveErr}, scanForHorse g C r rem = Except.error e →
      e = SolveErr.outOfBounds ∨ e = SolveErr.horseMissing := by
  intro r rem
  induction rem generalizing r with
  | zero => intro e h; cases h; exact Or.inr rfl
  | succ rem ih =>
    intro e h
    rw [scanForHorse] at h
    split at h
    · next heq =>
      cases h
      exact Or.inl (scanRowForHorse_error heq)
    · next heq => cases h
    · exact ih h

theorem bfsAdmit_error {g : Grid} :
    ∀ {ns cs ps : List Coord} {e : SolveErr}, bfsAdmit g ns cs ps = Except.error e →
      e = SolveErr.outOfBounds := by
  intro ns
  induction ns with
  | nil => intro cs ps e h; cases h
  | cons n rest ih =>
    intro cs ps e h
    rw [bfsAdmit] at h
    split at h
    · cases h; rfl
    · split at h
      · split at h
        · exact ih h
        · exact ih h
      · exact ih h

theorem bfsBuild_error {g : Grid} {R C : Nat} :
    ∀ {fuel : Nat} {cs q : List Coord} {e : SolveErr},
      bfsBuild g R C fuel cs q = Except.error e → e = SolveErr.outOfBounds := by
  intro fuel
  induction fuel with
  | zero => intro cs q e h; cases h
  | succ fuel ih =>
    intro cs q e h
    cases q with
    | nil => rw [bfsBuild] at h; cases h
    | cons p rest =>
      rw [bfsBuild] at h
      split at h
      · next heq => cases h; exact bfsAdmit_error heq
      · exact ih h

theorem computeWallable_error {g : Grid} :
    ∀ {cs : List Coord} {e : SolveErr}, computeWallable g cs = Except.error e →
      e = SolveErr.outOfBounds := by
  intro cs
  induction cs with
  | nil => intro e h; cases h
  | cons p rest ih =>
    intro e h
    rw [computeWallable] at h
    split at h
    · cases h; rfl
    · cases hrec : computeWallable g rest with
      | error e2 =>
        rw [hrec] at h
        simp only [Except.map] at h
        cases h
        exact ih hrec
      | ok w =>
        rw [hrec] at h
        simp only [Except.map] at h
        cases h

/-- The only failures the graph build produces are an out-of-bounds read or
the missing-horse exception. -/
theorem buildGraph_error {g : Grid} {e : SolveErr} (hb : buildGraph g = Except.error e) :
    e = SolveErr.outOfBounds ∨ e = SolveErr.horseMissing := by
  cases g with
  | nil => rw [buildGraph] at hb; cases hb; exact Or.inl rfl
  | cons row0 rest =>
    rw [buildGraph] at hb
    simp only [List.get?] at hb
    cases hscan : scanForHorse (row0 :: rest) row0.length 0 (row0 :: rest).length with
    | error e2 =>
      simp only [hscan] at hb
      cases hb
      exact scanForHorse_error hscan
    | ok hp =>
      simp only [hscan] at hb
      cases hbfs : bfsBuild (row0 :: rest) (row0 :: rest).length row0.length
          ((row0 :: rest).length * row0.length + 1) [hp] [hp] with
      | error e2 =>
        simp only [hbfs] at hb
        cases hb
        exact Or.inl (bfsBuild_error hbfs)
      | ok cs =>
        simp only [hbfs] at hb
        cases hw : computeWallable (row0 :: rest) cs with
        | error e2 =>
          simp only [hw] at hb
          cases hb
          exact Or.inl (computeWallable_error hw)
        | ok w =>
          simp only [hw] at hb
          cases hb

/-! ## C6: no grid-shape validation exists -/

/-- A ragged grid whose later row is longer than the first: columns past the
first row's length are simply never read. -/
def raggedA : Grid := [['.', '.'], ['.', 'H', '.', '.']]

set_option maxRecDepth 8000 in
/-- C6 counterexample: on a grid with rows of unequal length, `solve` does
not surface any shape error — here it returns the perfectly normal result
`(0, [])` (the horse, at row 1 of 2, sits on the boundary of the truncated
grid). -/
theorem ragged_grid_normal_result :
    (∃ r1, r1 ∈ raggedA ∧ ∃ r2, r2 ∈ raggedA ∧ r1.length ≠ r2.length) ∧
    solve 4 raggedA = Except.ok ⟨0, []⟩ := by
  constructor
  · exact ⟨['.', '.'], by simp [raggedA], ['.', 'H', '.', '.'], by simp [raggedA], by simp⟩
  · rfl

/-- C6 (amended): `solve` performs no grid-shape validation at all:
no `InvalidGridShape` error is ever surfaced.  On ragged input the search
either proceeds on the columns up to the first row's length (returning a
normal result, as in the counterexample) or reads a short row out of bounds,
which is undefined behaviour in the C++ source (surfaced as `outOfBounds`
in this embedding, never as `invalidGridShape`). -/
theorem solve_never_invalidGridShape (k : Int) (g : Grid) :
    solve k g ≠ Except.error SolveErr.invalidGridShape := by
  cases hb : buildGraph g with
  | error e =>
    rw [solve_of_build_error hb]
    intro h
    cases h
    rcases buildGraph_error hb with h | h <;> cases h
  | ok G =>
    rw [solve_of_build_ok hb]
    split <;> intro h <;> cases h

/-! ## C5: behaviour on degenerate inputs -/

/-- C5 counterexample: `solve` on the empty grid fails (the source reads
`grid[0]`, an out-of-bounds access, before anything else; the empty grid is
moreover horse-less).  It does not return `(0, ∅)`. -/
theorem solve_empty_grid_fails :
    solve 6 ([] : Grid) = Except.error SolveErr.outOfBounds ∧
    ∀ res : SolveResult, solve 6 ([] : Grid) ≠ Except.ok res := by
  refine ⟨rfl, ?_⟩
  intro res h
  rw [(rfl : solve 6 ([] : Grid) = Except.error SolveErr.outOfBounds)] at h
  cases h

/-! ## C5: degenerate inputs that do return `(0, ∅)` -/

theorem bfsAdmit_extends {g : Grid} :
    ∀ {ns cs ps cs2 ps2 : List Coord},
      bfsAdmit g ns cs ps = Except.ok (cs2, ps2) → ∃ t, cs2 = cs ++ t := by
  intro ns
  induction ns with
  | nil =>
    intro cs ps cs2 ps2 h
    rw [bfsAdmit] at h
    cases h
    exact ⟨[], by simp⟩
  | cons n rest ih =>
    intro cs ps cs2 ps2 h
    rw [bfsAdmit] at h
    split at h
    · cases h
    · split at h
      · split at h
        · exact ih h
        · rcases ih h with ⟨t, ht⟩
          exact ⟨[n] ++ t, by simp [ht]⟩
      · exact ih h

theorem bfsBuild_extends {g : Grid} {R C : Nat} :
    ∀ {fuel : Nat} {cs q out : List Coord},
      bfsBuild g R C fuel cs q = Except.ok out → ∃ t, out = cs ++ t := by
  intro fuel
  induction fuel with
  | zero =>
    intro cs q out h
    rw [bfsBuild] at h
    cases h
    exact ⟨[], by simp⟩
  | succ fuel ih =>
    intro cs q out h
    cases q with
    | nil =>
      rw [bfsBuild] at h
      cases h
      exact ⟨[], by simp⟩
    | cons p rest =>
      rw [bfsBuild] at h
      cases ha : bfsAdmit g (nbrsInBounds R C p) cs [] with
      | error e =>
        simp only [ha] at h
        cases h
      | ok pr =>
        obtain ⟨cs2, pushed⟩ := pr
        simp only [ha] at h
        rcases ih h with ⟨t2, ht2⟩
        rcases bfsAdmit_extends ha with ⟨t1, ht1⟩
        exact ⟨t1 ++ t2, by simp [ht2, ht1]⟩

/-- The index space of a built graph contains at least the horse. -/
theorem buildGraph_N_pos {g : Grid} {G : Graph} (hb : buildGraph g = Except.ok G) :
    0 < G.N := by
  obtain ⟨-, -, ⟨hp, -, hbfs⟩, -, -, -⟩ := buildGraph_ok_spec hb
  rcases bfsBuild_extends hbfs with ⟨t, ht⟩
  rw [Graph.N, ht]
  simp

theorem horse_mem_bfsReachable {G : Graph} {b : Finset Nat} (hh : horseIdx ∉ b) :
    horseIdx ∈ (bfsReachable G b).1 := by
  rw [bfsReachable, if_neg hh]
  exact subset_sat _ _ _ (Finset.mem_singleton_self _)

theorem bfsReachable_card_pos {G : Graph} {b : Finset Nat} (hh : horseIdx ∉ b) :
    0 < (bfsReachable G b).2.1 := by
  rw [bfsReachable, if_neg hh]
  exact Finset.card_pos.2 ⟨horseIdx, subset_sat _ _ _ (Finset.mem_singleton_self _)⟩

/-- With a negative remaining budget the oracle always reports infeasible:
`maxflow_limit` is called with a nonpositive limit, pushes no flow, and
`0 > k_rem`. -/
theorem minSeparator_of_neg {net : Network} {d f : Finset Nat} {kr : Int} (hk : kr < 0) :
    minSeparator net d f kr = none := by
  rw [minSeparator]
  split
  · rfl
  · have htn : (kr + 1).toNat = 0 := Int.toNat_of_nonpos (by omega)
    simp only [maxflowLimit, htn, maxflowLoop]
    rw [if_pos hk]

theorem bitList_empty (N : Nat) : bitList N ∅ = [] := by
  simp [bitList]

/-- With a negative budget the root call prunes at the separator query and
returns the untouched context (with the root state memoised). -/
theorem dfs_root_neg {net : Network} {k : Int} (hk : k < 0) (fuel : Nat) :
    dfs net (fuel + 1) ∅ {horseIdx} k ⟨0, ∅, []⟩ =
      ⟨0, ∅, [⟨∅, {horseIdx}, k⟩]⟩ := by
  have hfill : ¬ ((bfsReachable net.G ∅).2.1 ≤ (0 : Nat)) := by
    have := bfsReachable_card_pos (G := net.G) (Finset.not_mem_empty horseIdx)
    omega
  have hsub : ({horseIdx} : Finset Nat) ⊆ (bfsReachable net.G ∅).1 := by
    intro x hx
    rw [Finset.mem_singleton] at hx
    subst hx
    exact horse_mem_bfsReachable (Finset.not_mem_empty _)
  have hpos : (bfsReachable net.G ∅).2.1 ≠ 0 := by
    have h2 := bfsReachable_card_pos (G := net.G) (Finset.not_mem_empty horseIdx)
    omega
  simp [dfs, minSeparator_of_neg hk, hsub, hpos]

/-- C5 (amended): the degenerate inputs the source does handle return
`(0, ∅)` safely — any negative budget (on any grid whose graph build
succeeds, i.e. any grid with a horse and no out-of-bounds read), and the
grid consisting of only the horse, for every budget.  The empty grid is
excluded: it is horse-less and its first row is read out of bounds
(see the counterexample). -/
theorem solve_degenerate_safe :
    (∀ k : Int, k < 0 → ∀ (g : Grid) (G : Graph), buildGraph g = Except.ok G →
        solve k g = Except.ok ⟨0, []⟩) ∧
    (∀ k : Int, solve k [['H']] = Except.ok ⟨0, []⟩) := by
  constructor
  · intro k hk g G hb
    rw [solve_of_build_ok hb]
    split
    · rfl
    · rw [show G.N + 1 = (G.N) + 1 from rfl, dfs_root_neg hk G.N]
      rw [show (⟨0, ∅, [⟨∅, {horseIdx}, k⟩]⟩ : Ctx).bestWalls = ∅ from rfl]
      rw [bitList_empty]
      rfl
  · intro k
    have hb : buildGraph [['H']] = Except.ok
        ⟨1, 1, [(0, 0)], [[]], [false], boundarySet 1 1 [(0, 0)]⟩ := rfl
    rw [solve_of_build_ok hb]
    rw [if_pos]
    show horseIdx ∈ boundarySet 1 1 [(0, 0)]
    decide

/-! ## Concrete witnesses -/

/-- The graph `solve` builds for `gridA`. -/
def graphA : Graph :=
  match buildGraph gridA with
  | .ok G => G
  | .error _ => ⟨0, 0, [], [], [], ∅⟩

theorem buildGraph_gridA : buildGraph gridA = Except.ok graphA := rfl

/-- Witness for C7 at the initial search state of a concrete network. -/
theorem dfs_state_invariants_witness :
    horseIdx ∈ ({horseIdx} : Finset Nat) ∧ horseIdx ∉ (∅ : Finset Nat) ∧
      (∀ i ∈ (∅ : Finset Nat), listGetD (buildNetwork graphA 4).G.wallable i false = true) ∧
      Disjoint (∅ : Finset Nat) ({horseIdx} : Finset Nat) :=
  dfs_state_invariants (buildNetwork graphA 4) 4 ∅ {horseIdx} 4 ReachesState.init

set_option maxRecDepth 8000 in
/-- Witness for C8 on a concrete network: the bound at the initial state and
the fuel stability of `dfs` beyond `N + 1`. -/
theorem dfs_terminates_witness :
    (∅ : Finset Nat).card + ({horseIdx} : Finset Nat).card ≤ (buildNetwork graphA 4).G.N ∧
    dfs (buildNetwork graphA 4) ((buildNetwork graphA 4).G.N + 2) ∅ {horseIdx} 4 ⟨0, ∅, []⟩ =
      dfs (buildNetwork graphA 4) ((buildNetwork graphA 4).G.N + 1) ∅ {horseIdx} 4
        ⟨0, ∅, []⟩ := by
  have h := dfs_terminates (buildNetwork graphA 4) 4 (by decide)
  exact ⟨h.2.1 ∅ {horseIdx} 4 ReachesState.init,
    h.2.2 ((buildNetwork graphA 4).G.N + 2) ∅ {horseIdx} 4 ⟨0, ∅, []⟩ (by omega)⟩

/-- Witness for C5 (amended) on concrete inputs. -/
theorem solve_degenerate_safe_witness :
    solve (-1) gridA = Except.ok ⟨0, []⟩ ∧ solve 6 [['H']] = Except.ok ⟨0, []⟩ :=
  ⟨solve_degenerate_safe.1 (-1) (by decide) gridA graphA buildGraph_gridA,
   solve_degenerate_safe.2 6⟩

/-- Witness for C6 (amended) on a concrete ragged grid. -/
theorem solve_never_invalidGridShape_witness :
    solve 4 raggedA ≠ Except.error SolveErr.invalidGridShape :=
  solve_never_invalidGridShape 4 raggedA

/-! ## Characterising the flood fill of the graph builder -/

/-- The number of columns the source uses: the length of the first row. -/
def gridC (g : Grid) : Nat := (g.headD []).length

/-- Whether the cell at `p` exists and holds an open character. -/
def openCellB (g : Grid) (p : Coord) : Bool :=
  match cellE g p.1 p.2 with
  | some ch => isOpenCell ch
  | none => false

/-- The open-cell coordinate graph the builder flood fill explores. -/
def openNbrs (g : Grid) (R C : Nat) (p : Coord) : List Coord :=
  (nbrsInBounds R C p).filter (openCellB g)

theorem mem_nbrsInBounds_bounds {R C : Nat} {p q : Coord}
    (hp : p.1 < R ∧ p.2 < C) (hq : q ∈ nbrsInBounds R C p) : q.1 < R ∧ q.2 < C := by
  obtain ⟨hp1, hp2⟩ := hp
  rw [nbrsInBounds] at hq
  simp only [List.mem_append] at hq
  rcases hq with ((hq | hq) | hq) | hq
  · split at hq
    · next hc =>
      rw [List.mem_singleton] at hq
      subst hq
      exact ⟨hc, hp2⟩
    · cases hq
  · split at hq
    · next hc =>
      rw [List.mem_singleton] at hq
      subst hq
      exact ⟨by omega, hp2⟩
    · cases hq
  · split at hq
    · next hc =>
      rw [List.mem_singleton] at hq
      subst hq
      exact ⟨hp1, hc⟩
    · cases hq
  · split at hq
    · next hc =>
      rw [List.mem_singleton] at hq
      subst hq
      exact ⟨hp1, by omega⟩
    · cases hq

/-- The horse scan returns an in-bounds `H` cell. -/
theorem scanRowForHorse_ok {g : Grid} {r : Nat} :
    ∀ {c0 rem c : Nat}, scanRowForHorse g r c0 rem = Except.ok (some c) →
      c0 ≤ c ∧ c < c0 + rem ∧ cellE g r c = some 'H' := by
  intro c0 rem
  induction rem generalizing c0 with
  | zero => intro c h; cases h
  | succ rem ih =>
    intro c h
    rw [scanRowForHorse] at h
    split at h
    · cases h
    · next ch heq =>
      split at h
      · next hch =>
        cases h
        subst hch
        exact ⟨Nat.le_refl _, by omega, heq⟩
      · obtain ⟨h1, h2, h3⟩ := ih h
        exact ⟨by omega, by omega, h3⟩

theorem scanForHorse_ok {g : Grid} {C : Nat} :
    ∀ {r0 rem : Nat} {hp : Coord}, scanForHorse g C r0 rem = Except.ok hp →
      r0 ≤ hp.1 ∧ hp.1 < r0 + rem ∧ hp.2 < C ∧ cellE g hp.1 hp.2 = some 'H' := by
  intro r0 rem
  induction rem generalizing r0 with
  | zero => intro hp h; cases h
  | succ rem ih =>
    intro hp h
    rw [scanForHorse] at h
    split at h
    · cases h
    · next c heq =>
      cases h
      obtain ⟨h1, h2, h3⟩ := scanRowForHorse_ok heq
      exact ⟨Nat.le_refl _, by omega, by omega, h3⟩
    · obtain ⟨h1, h2, h3, h4⟩ := ih h
      exact ⟨by omega, by omega, h3, h4⟩

/-- What one `bfsAdmit` pass does: both the index map and the queue receive
the same suffix of newly admitted cells — each a not-yet-indexed open member
of the neighbour list — and afterwards every open neighbour is indexed. -/
theorem bfsAdmit_core {g : Grid} :
    ∀ {ns cs ps cs2 ps2 : List Coord}, bfsAdmit g ns cs ps = Except.ok (cs2, ps2) →
      ∃ new, cs2 = cs ++ new ∧ ps2 = ps ++ new ∧
        (cs.Nodup → cs2.Nodup) ∧
        (∀ p, p ∈ new → p ∈ ns ∧ openCellB g p = true ∧ p ∉ cs) ∧
        (∀ r, r ∈ ns → openCellB g r = true → r ∈ cs2) := by
  intro ns
  induction ns with
  | nil =>
    intro cs ps cs2 ps2 h
    rw [bfsAdmit] at h
    cases h
    exact ⟨[], by simp, by simp, id, fun p hp => absurd hp (List.not_mem_nil p),
      fun r hr => absurd hr (List.not_mem_nil r)⟩
  | cons n rest ih =>
    intro cs ps cs2 ps2 h
    rw [bfsAdmit] at h
    split at h
    · cases h
    · next ch heq =>
      by_cases hopen : isOpenCell ch = true
      · rw [if_pos hopen] at h
        have hob : openCellB g n = true := by rw [openCellB, heq]; exact hopen
        by_cases hmem : cs.contains n = true
        · rw [if_pos hmem] at h
          have hmem2 : n ∈ cs := by simpa using hmem
          obtain ⟨new, h1, h2, h3, h4, h5⟩ := ih h
          refine ⟨new, h1, h2, h3, ?_, ?_⟩
          · intro p hp
            obtain ⟨hp1, hp2, hp3⟩ := h4 p hp
            exact ⟨List.mem_cons_of_mem n hp1, hp2, hp3⟩
          · intro r hr hro
            rcases List.mem_cons.1 hr with hr | hr
            · rw [h1, hr]
              exact List.mem_append_left _ hmem2
            · exact h5 r hr hro
        · rw [if_neg hmem] at h
          have hmem2 : n ∉ cs := by simpa using hmem
          obtain ⟨new, h1, h2, h3, h4, h5⟩ := ih h
          refine ⟨n :: new, by simpa using h1, by simpa using h2, ?_, ?_, ?_⟩
          · intro hnd
            refine h3 ?_
            rw [List.nodup_append]
            exact ⟨hnd, List.nodup_singleton n, by simpa using hmem2⟩
          · intro p hp
            rcases List.mem_cons.1 hp with hp | hp
            · subst hp
              exact ⟨List.mem_cons_self _ _, hob, hmem2⟩
            · obtain ⟨hp1, hp2, hp3⟩ := h4 p hp
              refine ⟨List.mem_cons_of_mem n hp1, hp2, ?_⟩
              intro hcon
              exact hp3 (List.mem_append_left _ hcon)
          · intro r hr hro
            rcases List.mem_cons.1 hr with hr | hr
            · rw [h1, hr]
              exact List.mem_append_left _ (List.mem_append_right _ (by simp))
            · exact h5 r hr hro
      · rw [if_neg hopen] at h
        obtain ⟨new, h1, h2, h3, h4, h5⟩ := ih h
        refine ⟨new, h1, h2, h3, ?_, ?_⟩
        · intro p hp
          obtain ⟨hp1, hp2, hp3⟩ := h4 p hp
          exact ⟨List.mem_cons_of_mem n hp1, hp2, hp3⟩
        · intro r hr hro
          rcases List.mem_cons.1 hr with hr | hr
          · rw [hr, openCellB, heq] at hro
            exact absurd hro hopen
          · exact h5 r hr hro

/-- A duplicate-free list of in-bounds coordinates has at most `R * C`
members. -/
theorem length_le_grid {R C : Nat} {l : List Coord} (hnd : l.Nodup)
    (hin : ∀ p, p ∈ l → p.1 < R ∧ p.2 < C) : l.length ≤ R * C := by
  have hsub : l.toFinset ⊆ Finset.range R ×ˢ Finset.range C := by
    intro p hp
    rw [List.mem_toFinset] at hp
    rw [Finset.mem_product, Finset.mem_range, Finset.mem_range]
    exact hin p hp
  have hcard := Finset.card_le_card hsub
  rw [List.toFinset_card_of_nodup hnd] at hcard
  simpa [Finset.card_product] using hcard

/-- The full characterisation of the builder flood fill: starting from a
duplicate-free, in-bounds, open, reachable seed whose queue is covered and
whose already-dequeued members are closed under open neighbours, and with
fuel exceeding the measure, the successful result is duplicate-free,
in-bounds, open, reachable from `hp`, and closed under open neighbours. -/
theorem bfsBuild_spec {g : Grid} {R C : Nat} (hp : Coord) :
    ∀ {fuel : Nat} {cs q out : List Coord},
      bfsBuild g R C fuel cs q = Except.ok out →
      cs.Nodup →
      (∀ p, p ∈ cs → p.1 < R ∧ p.2 < C) →
      (∀ p, p ∈ cs → openCellB g p = true) →
      (∀ p, p ∈ cs → ReachRel (openNbrs g R C) hp p) →
      (∀ p, p ∈ q → p ∈ cs) →
      (∀ p, p ∈ cs → p ∉ q → ∀ r, r ∈ openNbrs g R C p → r ∈ cs) →
      R * C - cs.length + q.length < fuel →
      out.Nodup ∧
        (∀ p, p ∈ out → p.1 < R ∧ p.2 < C) ∧
        (∀ p, p ∈ out → openCellB g p = true) ∧
        (∀ p, p ∈ out → ReachRel (openNbrs g R C) hp p) ∧
        (∀ p, p ∈ out → ∀ r, r ∈ openNbrs g R C p → r ∈ out) := by
  intro fuel
  induction fuel with
  | zero =>
    intro cs q out h hnd hin hop hre hq hcl hm
    exact absurd hm (Nat.not_lt_zero _)
  | succ fuel ih =>
    intro cs q out h hnd hin hop hre hq hcl hm
    cases q with
    | nil =>
      rw [bfsBuild] at h
      cases h
      exact ⟨hnd, hin, hop, hre,
        fun p hp2 r hr => hcl p hp2 (List.not_mem_nil p) r hr⟩
    | cons p0 rest =>
      rw [bfsBuild] at h
      cases ha : bfsAdmit g (nbrsInBounds R C p0) cs [] with
      | error e =>
        simp only [ha] at h
        cases h
      | ok pr =>
        obtain ⟨cs2, pushed⟩ := pr
        simp only [ha] at h
        obtain ⟨new, he1, he2, he3, he4, he5⟩ := bfsAdmit_core ha
        have hpushed : pushed = new := by simpa using he2
        rw [hpushed] at h
        subst he1
        have hp0cs : p0 ∈ cs := hq p0 (List.mem_cons_self _ _)
        have hp0in := hin p0 hp0cs
        -- properties of the grown seed
        have hnd2 : (cs ++ new).Nodup := he3 hnd
        have hin2 : ∀ p, p ∈ cs ++ new → p.1 < R ∧ p.2 < C := by
          intro p hp2
          rcases List.mem_append.1 hp2 with hp2 | hp2
          · exact hin p hp2
          · exact mem_nbrsInBounds_bounds hp0in (he4 p hp2).1
        have hop2 : ∀ p, p ∈ cs ++ new → openCellB g p = true := by
          intro p hp2
          rcases List.mem_append.1 hp2 with hp2 | hp2
          · exact hop p hp2
          · exact (he4 p hp2).2.1
        have hre2 : ∀ p, p ∈ cs ++ new → ReachRel (openNbrs g R C) hp p := by
          intro p hp2
          rcases List.mem_append.1 hp2 with hp2 | hp2
          · exact hre p hp2
          · refine Relation.ReflTransGen.tail (hre p0 hp0cs) ?_
            rw [openNbrs, List.mem_filter]
            exact ⟨(he4 p hp2).1, (he4 p hp2).2.1⟩
        have hq2 : ∀ p, p ∈ rest ++ new → p ∈ cs ++ new := by
          intro p hp2
          rcases List.mem_append.1 hp2 with hp2 | hp2
          · exact List.mem_append_left _ (hq p (List.mem_cons_of_mem p0 hp2))
          · exact List.mem_append_right _ hp2
        have hcl2 : ∀ p, p ∈ cs ++ new → p ∉ rest ++ new →
            ∀ r, r ∈ openNbrs g R C p → r ∈ cs ++ new := by
          intro p hp2 hnot r hr
          rcases List.mem_append.1 hp2 with hp2 | hp2
          · by_cases hpp0 : p = p0
            · subst hpp0
              rw [openNbrs, List.mem_filter] at hr
              exact he5 r hr.1 hr.2
            · have hnotin : p ∉ p0 :: rest := by
                intro hcon
                rcases List.mem_cons.1 hcon with hcon | hcon
                · exact hpp0 hcon
                · exact hnot (List.mem_append_left _ hcon)
              exact List.mem_append_left _ (hcl p hp2 hnotin r hr)
          · exact absurd (List.mem_append_right rest hp2) hnot
        have hcount : (cs ++ new).length ≤ R * C := length_le_grid hnd2 hin2
        have hm2 : R * C - (cs ++ new).length + (rest ++ new).length < fuel := by
          rw [List.length_append, List.length_append]
          rw [List.length_append] at hcount
          simp only [List.length_cons] at hm
          omega
        exact ih h hnd2 hin2 hop2 hre2 hq2 hcl2 hm2

/-! ## Small access lemmas -/

theorem listGetD_cons_succ {α : Type} (a : α) (l : List α) (j : Nat) (d : α) :
    listGetD (a :: l) (j + 1) d = listGetD l j d := rfl

theorem listGetD_mem {α : Type} {d : α} :
    ∀ {l : List α} {i : Nat}, i < l.length → listGetD l i d ∈ l := by
  intro l
  induction l with
  | nil => intro i hi; exact absurd hi (by simp)
  | cons a rest ih =>
    intro i hi
    cases i with
    | zero => exact List.mem_cons_self _ _
    | succ i =>
      have hi2 : i < rest.length := by simpa using hi
      exact List.mem_cons_of_mem a (ih hi2)

theorem listGetD_map {α β : Type} (f : α → β) :
    ∀ {l : List α} {i : Nat} (d : α) (d2 : β), i < l.length →
      listGetD (l.map f) i d2 = f (listGetD l i d) := by
  intro l
  induction l with
  | nil => intro i d d2 hi; exact absurd hi (by simp)
  | cons a rest ih =>
    intro i d d2 hi
    cases i with
    | zero => rfl
    | succ i =>
      have hi2 : i < rest.length := by simpa using hi
      exact ih d d2 hi2

theorem mem_iff_listGetD {cs : List Coord} {p : Coord} :
    p ∈ cs ↔ ∃ i, i < cs.length ∧ listGetD cs i (0, 0) = p := by
  induction cs with
  | nil => simp
  | cons a rest ih =>
    constructor
    · intro h
      rcases List.mem_cons.1 h with h | h
      · exact ⟨0, by simp, h.symm⟩
      · rcases ih.1 h with ⟨i, hi, hg⟩
        exact ⟨i + 1, by simpa using hi, hg⟩
    · rintro ⟨i, hi, hg⟩
      cases i with
      | zero => exact hg ▸ List.mem_cons_self _ _
      | succ i =>
        have hi2 : i < rest.length := by simpa using hi
        exact List.mem_cons_of_mem a (ih.2 ⟨i, hi2, hg⟩)

/-- `idx_of` finds the index of a stored coordinate (the map is injective:
`coords` is duplicate-free). -/
theorem idxOf_of_getD :
    ∀ {cs : List Coord}, cs.Nodup →
      ∀ {j : Nat} {q : Coord}, j < cs.length → listGetD cs j (0, 0) = q →
        idxOf cs q = some j := by
  intro cs
  induction cs with
  | nil => intro _ j q hj; exact absurd hj (by simp)
  | cons a rest ih =>
    intro hnd j q hj hg
    rw [idxOf]
    cases j with
    | zero =>
      have ha : a = q := hg
      rw [if_pos ha]
    | succ j =>
      have hjlen : j < rest.length := by simpa using hj
      have hqmem : q ∈ rest := hg ▸ listGetD_mem hjlen
      have hne : a ≠ q := fun hc => (List.nodup_cons.1 hnd).1 (hc ▸ hqmem)
      rw [if_neg hne, ih (List.nodup_cons.1 hnd).2 hjlen hg]
      rfl

/-! ## The two neighbour lists agree on in-bounds cells -/

theorem nbrsInBounds_subset_nbrKeys {R C : Nat} {p q : Coord}
    (h : q ∈ nbrsInBounds R C p) : q ∈ nbrKeys p := by
  rw [nbrsInBounds] at h
  rw [nbrKeys]
  simp only [List.mem_append] at h ⊢
  rcases h with ((h | h) | h) | h
  · split at h
    · exact Or.inl (Or.inl (Or.inl (by simpa using h)))
    · cases h
  · split at h
    · next hc => exact Or.inl (Or.inl (Or.inr (by simp only [hc, if_true]; exact h)))
    · cases h
  · split at h
    · exact Or.inl (Or.inr (by simpa using h))
    · cases h
  · split at h
    · next hc => exact Or.inr (by simp only [hc, if_true]; exact h)
    · cases h

theorem mem_nbrKeys_to_nbrsInBounds {R C : Nat} {p q : Coord}
    (h : q ∈ nbrKeys p) (hq1 : q.1 < R) (hq2 : q.2 < C) : q ∈ nbrsInBounds R C p := by
  rw [nbrKeys] at h
  rw [nbrsInBounds]
  simp only [List.mem_append] at h ⊢
  rcases h with ((h | h) | h) | h
  · rw [List.mem_singleton] at h
    subst h
    exact Or.inl (Or.inl (Or.inl (by simp [hq1])))
  · split at h
    · next hc =>
      rw [List.mem_singleton] at h
      subst h
      exact Or.inl (Or.inl (Or.inr (by simp [hc])))
    · cases h
  · rw [List.mem_singleton] at h
    subst h
    exact Or.inl (Or.inr (by simp [hq2]))
  · split at h
    · next hc =>
      rw [List.mem_singleton] at h
      subst h
      exact Or.inr (by simp [hc])
    · cases h

/-! ## The coordinate-level flood of the specification -/

/-- Valid characters (spec §6): every readable cell holds `.`, `#` or `H`. -/
def CharsValid (g : Grid) : Prop :=
  ∀ r c ch, cellE g r c = some ch → ch = '.' ∨ ch = '#' ∨ ch = 'H'

/-- The number of columns: the length of the first row (the source's `C`). -/
theorem gridC_eq {row0 : List Char} {rest : List (List Char)} :
    gridC (row0 :: rest) = row0.length := rfl

/-- One step of the coordinate-level flood from the claim (and the renderer
`buildSolvedGrid` of `solve2_wasm.cpp`): 4-neighbours inside the grid
rectangle whose character is not `#` and which carry no overlaid wall. -/
def gridStep (g : Grid) (R C : Nat) (walls : List Coord) (p : Coord) : List Coord :=
  (nbrsInBounds R C p).filter (fun q =>
    (match cellE g q.1 q.2 with
     | some ch => decide (ch ≠ '#')
     | none => false) && !(walls.contains q))

/-- The coordinate-level flood fill from `start`, walls overlaid. -/
def gridFlood (g : Grid) (walls : List Coord) (start : Coord) : Finset Coord :=
  sat (gridStep g g.length (gridC g) walls) (g.length * gridC g) {start}

/-- Membership in the outermost row or column of the grid. -/
def onBoundary (R C : Nat) (p : Coord) : Prop :=
  p.1 = 0 ∨ p.1 = R - 1 ∨ p.2 = 0 ∨ p.2 = C - 1

theorem mem_boundarySet {R C : Nat} {cs : List Coord} {i : Nat} :
    i ∈ boundarySet R C cs ↔ i < cs.length ∧ onBoundary R C (listGetD cs i (0, 0)) := by
  rw [boundarySet, Finset.mem_filter, Finset.mem_range, onBoundary]

/-! ## What the builder guarantees about `coords` -/

theorem buildGraph_coords_spec {g : Grid} {G : Graph} (hb : buildGraph g = Except.ok G) :
    G.coords.Nodup ∧
    (∀ p, p ∈ G.coords → p.1 < G.R ∧ p.2 < G.C) ∧
    (∀ p, p ∈ G.coords → openCellB g p = true) ∧
    cellE g (listGetD G.coords 0 (0, 0)).1 (listGetD G.coords 0 (0, 0)).2 = some 'H' ∧
    (∀ p, p ∈ G.coords → ReachRel (openNbrs g G.R G.C) (listGetD G.coords 0 (0, 0)) p) ∧
    (∀ p, p ∈ G.coords → ∀ r, r ∈ openNbrs g G.R G.C p → r ∈ G.coords) := by
  obtain ⟨hR, ⟨row0, rest, hg, hC⟩, ⟨hp, hscan, hbfs⟩, -, -, -⟩ := buildGraph_ok_spec hb
  obtain ⟨-, hlt, hc, hH⟩ := scanForHorse_ok hscan
  have hhp0 : listGetD G.coords 0 (0, 0) = hp := by
    rcases bfsBuild_extends hbfs with ⟨t, ht⟩
    rw [ht]
    rfl
  have hhpin : hp.1 < G.R ∧ hp.2 < G.C := ⟨by omega, hc⟩
  have hopenH : openCellB g hp = true := by
    rw [openCellB, hH]
    rfl
  have hspec := bfsBuild_spec hp hbfs
    (List.nodup_singleton hp)
    (by intro p hp2; rw [List.mem_singleton] at hp2; subst hp2; exact hhpin)
    (by intro p hp2; rw [List.mem_singleton] at hp2; subst hp2; exact hopenH)
    (by intro p hp2; rw [List.mem_singleton] at hp2; subst hp2; exact Relation.ReflTransGen.refl)
    (fun p hp2 => hp2)
    (by
      intro p hp2 hnot
      exact absurd hp2 hnot)
    (by
      simp only [List.length_singleton]
      have hRC : 0 < G.R * G.C :=
        Nat.mul_pos (Nat.lt_of_le_of_lt (Nat.zero_le hp.1) hhpin.1)
          (Nat.lt_of_le_of_lt (Nat.zero_le hp.2) hhpin.2)
      omega)
  obtain ⟨h1, h2, h3, h4, h5⟩ := hspec
  rw [hhp0]
  exact ⟨h1, h2, h3, hH, h4, h5⟩

/-! ## Stepping between the index flood and the coordinate flood -/

theorem openCellB_iff {g : Grid} {p : Coord} :
    openCellB g p = true ↔ ∃ ch, cellE g p.1 p.2 = some ch ∧ isOpenCell ch = true := by
  rw [openCellB]
  cases hc : cellE g p.1 p.2 with
  | none => simp
  | some ch =>
    constructor
    · intro h
      exact ⟨ch, rfl, h⟩
    · rintro ⟨ch2, hch2, ho⟩
      cases hch2
      exact ho

theorem isOpenCell_ne_hash {ch : Char} (h : isOpenCell ch = true) : ch ≠ '#' := by
  intro hc
  rw [hc] at h
  exact absurd h (by decide)

theorem coords_getD_inj {cs : List Coord} (hnd : cs.Nodup) {i j : Nat}
    (hi : i < cs.length) (hj : j < cs.length)
    (h : listGetD cs i (0, 0) = listGetD cs j (0, 0)) : i = j := by
  have h1 := idxOf_of_getD hnd hi h
  have h2 := idxOf_of_getD hnd hj rfl
  rw [h1] at h2
  exact Option.some.inj h2

/-- An unblocked index-graph step maps to a coordinate-flood step. -/
theorem idx_step_coord {g : Grid} {G : Graph} (hb : buildGraph g = Except.ok G)
    {blocked : Finset Nat} {walls : List Coord}
    (hwalls : ∀ q, q ∈ walls ↔ ∃ i2, i2 ∈ blocked ∧ i2 < G.N ∧
      listGetD G.coords i2 (0, 0) = q)
    {i j : Nat} (hi : i < G.N) (hj : j ∈ idxNbrs G blocked i) :
    j < G.N ∧ listGetD G.coords j (0, 0) ∈
      gridStep g G.R G.C walls (listGetD G.coords i (0, 0)) := by
  obtain ⟨hnd, hin, hop, -, -, -⟩ := buildGraph_coords_spec hb
  obtain ⟨-, -, -, -, hadj, -⟩ := buildGraph_ok_spec hb
  rw [idxNbrs, List.mem_filter, hadj,
    listGetD_map (adjOf G.coords) (0, 0) [] hi] at hj
  obtain ⟨hjadj, hjbl⟩ := hj
  have hjbl2 : j ∉ blocked := by simpa using hjbl
  rw [adjOf, List.mem_filterMap] at hjadj
  obtain ⟨q, hqk, hqidx⟩ := hjadj
  obtain ⟨hjlen, hjget⟩ := idxOf_some_spec hqidx
  have hqmem : q ∈ G.coords := hjget ▸ listGetD_mem hjlen
  have hqin := hin q hqmem
  have hqopen := hop q hqmem
  refine ⟨hjlen, ?_⟩
  rw [hjget, gridStep, List.mem_filter]
  refine ⟨mem_nbrKeys_to_nbrsInBounds hqk hqin.1 hqin.2, ?_⟩
  obtain ⟨ch, hch, hcho⟩ := openCellB_iff.1 hqopen
  rw [hch]
  simp only [Bool.and_eq_true, decide_eq_true_eq, Bool.not_eq_true']
  refine ⟨isOpenCell_ne_hash hcho, ?_⟩
  by_contra hcon
  simp only [Bool.not_eq_false] at hcon
  have hqw : q ∈ walls := by simpa using hcon
  obtain ⟨i2, hi2b, hi2N, hi2g⟩ := (hwalls q).1 hqw
  have : i2 = j := coords_getD_inj hnd hi2N hjlen (hi2g.trans hjget.symm)
  exact hjbl2 (this ▸ hi2b)

/-- A coordinate-flood step from an indexed cell maps to an unblocked
index-graph step. -/
theorem coord_step_idx {g : Grid} {G : Graph} (hb : buildGraph g = Except.ok G)
    (hchars : CharsValid g)
    {blocked : Finset Nat} {walls : List Coord}
    (hwalls : ∀ q, q ∈ walls ↔ ∃ i2, i2 ∈ blocked ∧ i2 < G.N ∧
      listGetD G.coords i2 (0, 0) = q)
    {i : Nat} {q : Coord} (hi : i < G.N)
    (hq : q ∈ gridStep g G.R G.C walls (listGetD G.coords i (0, 0))) :
    ∃ j, j < G.N ∧ listGetD G.coords j (0, 0) = q ∧ j ∈ idxNbrs G blocked i := by
  obtain ⟨hnd, hin, hop, -, -, hcl⟩ := buildGraph_coords_spec hb
  obtain ⟨-, -, -, -, hadj, -⟩ := buildGraph_ok_spec hb
  rw [gridStep, List.mem_filter] at hq
  obtain ⟨hqn, hqcond⟩ := hq
  simp only [Bool.and_eq_true, Bool.not_eq_true'] at hqcond
  obtain ⟨hqch, hqw⟩ := hqcond
  have hqnw : q ∉ walls := by simpa using hqw
  obtain ⟨ch, hch, hchh⟩ : ∃ ch, cellE g q.1 q.2 = some ch ∧ ch ≠ '#' := by
    cases hc : cellE g q.1 q.2 with
    | none => rw [hc] at hqch; cases hqch
    | some ch =>
      rw [hc] at hqch
      exact ⟨ch, rfl, by simpa using hqch⟩
  have hopen : isOpenCell ch = true := by
    rcases hchars q.1 q.2 ch hch with h | h | h
    · rw [h]; rfl
    · exact absurd h hchh
    · rw [h]; rfl
  have hqopen : openCellB g q = true := openCellB_iff.2 ⟨ch, hch, hopen⟩
  have hpmem : listGetD G.coords i (0, 0) ∈ G.coords := listGetD_mem hi
  have hqmem : q ∈ G.coords := by
    refine hcl _ hpmem q ?_
    rw [openNbrs, List.mem_filter]
    exact ⟨hqn, hqopen⟩
  obtain ⟨j, hjlen, hjget⟩ := mem_iff_listGetD.1 hqmem
  refine ⟨j, hjlen, hjget, ?_⟩
  rw [idxNbrs, List.mem_filter, hadj, listGetD_map (adjOf G.coords) (0, 0) [] hi]
  constructor
  · rw [adjOf, List.mem_filterMap]
    exact ⟨q, nbrsInBounds_subset_nbrKeys hqn, idxOf_of_getD hnd hjlen hjget⟩
  · simp only [decide_eq_true_eq]
    intro hjb
    exact hqnw ((hwalls q).2 ⟨j, hjb, hjlen, hjget⟩)

/-! ## Fixpoints of the two floods -/

theorem bfsReachable_fst {G : Graph} {blocked : Finset Nat} (hh : horseIdx ∉ blocked) :
    (bfsReachable G blocked).1 = sat (idxNbrs G blocked) G.N {horseIdx} := by
  rw [bfsReachable, if_neg hh]

theorem idxNbrs_stay {g : Grid} {G : Graph} (hb : buildGraph g = Except.ok G)
    (blocked : Finset Nat) :
    ∀ u, u ∈ Finset.range G.N → ∀ v, v ∈ idxNbrs G blocked u → v ∈ Finset.range G.N := by
  intro u hu v hv
  obtain ⟨-, -, -, -, hadj, -⟩ := buildGraph_ok_spec hb
  rw [idxNbrs, List.mem_filter, hadj,
    listGetD_map (adjOf G.coords) (0, 0) [] (Finset.mem_range.1 hu)] at hv
  exact Finset.mem_range.2 (mem_adjOf_lt hv.1)

theorem bfsReachable_closed {g : Grid} {G : Graph} (hb : buildGraph g = Except.ok G)
    {blocked : Finset Nat} (hh : horseIdx ∉ blocked) :
    satStep (idxNbrs G blocked) (bfsReachable G blocked).1 = (bfsReachable G blocked).1 := by
  rw [bfsReachable_fst hh]
  have hN := buildGraph_N_pos hb
  have h := satStep_sat_card (s := {horseIdx}) (U := Finset.range G.N)
    (by
      intro x hx
      rw [Finset.mem_singleton] at hx
      subst hx
      exact Finset.mem_range.2 hN)
    (idxNbrs_stay hb blocked)
  rw [Finset.card_range] at h
  exact h

theorem gridFlood_closed {g : Grid} {walls : List Coord} {start : Coord}
    (hstart : start.1 < g.length ∧ start.2 < gridC g) :
    satStep (gridStep g g.length (gridC g) walls) (gridFlood g walls start) =
      gridFlood g walls start := by
  rw [gridFlood]
  have hcard : (Finset.range g.length ×ˢ Finset.range (gridC g)).card =
      g.length * gridC g := by
    rw [Finset.card_product, Finset.card_range, Finset.card_range]
  rw [← hcard]
  refine satStep_sat_card ?_ ?_
  · intro x hx
    rw [Finset.mem_singleton] at hx
    subst hx
    rw [Finset.mem_product, Finset.mem_range, Finset.mem_range]
    exact hstart
  · intro a ha b hbmem
    rw [gridStep, List.mem_filter] at hbmem
    rw [Finset.mem_product, Finset.mem_range, Finset.mem_range] at ha ⊢
    exact mem_nbrsInBounds_bounds ha hbmem.1

/-- Everything in the grid flood stays inside the grid rectangle. -/
theorem gridFlood_bounds {g : Grid} {walls : List Coord} {start : Coord}
    (hstart : start.1 < g.length ∧ start.2 < gridC g) :
    ∀ p, p ∈ gridFlood g walls start → p.1 < g.length ∧ p.2 < gridC g := by
  intro p hp
  rcases sat_sound _ _ _ hp with ⟨a, ha, hreach⟩
  rw [Finset.mem_singleton] at ha
  subst ha
  clear hp
  induction hreach with
  | refl => exact hstart
  | tail hchain hstep ih =>
    rw [gridStep, List.mem_filter] at hstep
    exact mem_nbrsInBounds_bounds ih hstep.1

/-! ## The flood correspondence -/

/-- Lifting a coordinate-flood chain into the index flood. -/
theorem coord_chain_idx {g : Grid} {G : Graph} (hb : buildGraph g = Except.ok G)
    (hchars : CharsValid g) {blocked : Finset Nat} (hh : horseIdx ∉ blocked)
    {walls : List Coord}
    (hwalls : ∀ q, q ∈ walls ↔ ∃ i2, i2 ∈ blocked ∧ i2 < G.N ∧
      listGetD G.coords i2 (0, 0) = q)
    (hGR : G.R = g.length) (hGC : G.C = gridC g)
    {p : Coord}
    (hreach : ReachRel (gridStep g g.length (gridC g) walls)
      (listGetD G.coords 0 (0, 0)) p) :
    ∃ i, i ∈ (bfsReachable G blocked).1 ∧ i < G.N ∧ listGetD G.coords i (0, 0) = p := by
  have hN := buildGraph_N_pos hb
  induction hreach with
  | refl =>
    refine ⟨horseIdx, ?_, hN, rfl⟩
    rw [bfsReachable_fst hh]
    exact subset_sat _ _ _ (Finset.mem_singleton_self _)
  | tail hchain hstep ih =>
    obtain ⟨i, hivis, hiN, hig⟩ := ih
    rw [← hGR, ← hGC, ← hig] at hstep
    obtain ⟨j, hjN, hjget, hjstep⟩ := coord_step_idx hb hchars hwalls hiN hstep
    refine ⟨j, ?_, hjN, hjget⟩
    rw [← bfsReachable_closed hb hh]
    exact mem_satStep_of_mem _ hivis hjstep

/-- Lifting an index-flood chain into the coordinate flood. -/
theorem idx_chain_coord {g : Grid} {G : Graph} (hb : buildGraph g = Except.ok G)
    {blocked : Finset Nat} {walls : List Coord}
    (hwalls : ∀ q, q ∈ walls ↔ ∃ i2, i2 ∈ blocked ∧ i2 < G.N ∧
      listGetD G.coords i2 (0, 0) = q)
    (hGR : G.R = g.length) (hGC : G.C = gridC g)
    (hhpin : (listGetD G.coords 0 (0, 0)).1 < g.length ∧
      (listGetD G.coords 0 (0, 0)).2 < gridC g)
    {i : Nat} (hreach : ReachRel (idxNbrs G blocked) horseIdx i) :
    i < G.N ∧ listGetD G.coords i (0, 0) ∈
      gridFlood g walls (listGetD G.coords 0 (0, 0)) := by
  have hN := buildGraph_N_pos hb
  induction hreach with
  | refl => exact ⟨hN, subset_sat _ _ _ (Finset.mem_singleton_self _)⟩
  | tail hchain hstep ih =>
    obtain ⟨hiN, hmem⟩ := ih
    obtain ⟨hjN, hjstep⟩ := idx_step_coord hb hwalls hiN hstep
    rw [hGR, hGC] at hjstep
    refine ⟨hjN, ?_⟩
    rw [← gridFlood_closed hhpin]
    exact mem_satStep_of_mem _ hmem hjstep

/-- The coordinate flood from the horse with the walls of `blocked` overlaid
is exactly the image under `coords` of the index flood blocking `blocked`. -/
theorem flood_correspondence {g : Grid} {G : Graph} (hb : buildGraph g = Except.ok G)
    (hchars : CharsValid g) {blocked : Finset Nat} (hh : horseIdx ∉ blocked)
    {walls : List Coord}
    (hwalls : ∀ q, q ∈ walls ↔ ∃ i2, i2 ∈ blocked ∧ i2 < G.N ∧
      listGetD G.coords i2 (0, 0) = q) :
    ∀ p, p ∈ gridFlood g walls (listGetD G.coords 0 (0, 0)) ↔
      ∃ i, i ∈ (bfsReachable G blocked).1 ∧ i < G.N ∧
        listGetD G.coords i (0, 0) = p := by
  obtain ⟨hR, ⟨row0, rest, hg, hC⟩, -, -, -, -⟩ := buildGraph_ok_spec hb
  have hGR : G.R = g.length := hR
  have hGC : G.C = gridC g := by
    subst hg
    exact hC
  obtain ⟨hnd, hin, -, -, -, -⟩ := buildGraph_coords_spec hb
  have hN := buildGraph_N_pos hb
  have hhpin : (listGetD G.coords 0 (0, 0)).1 < g.length ∧
      (listGetD G.coords 0 (0, 0)).2 < gridC g := by
    have h2 := hin (listGetD G.coords 0 (0, 0)) (listGetD_mem hN)
    rw [hGR, hGC] at h2
    exact h2
  intro p
  constructor
  · intro hp
    rcases sat_sound _ _ _ hp with ⟨a, ha, hreach⟩
    rw [Finset.mem_singleton] at ha
    subst ha
    exact coord_chain_idx hb hchars hh hwalls hGR hGC hreach
  · rintro ⟨i, hivis, hiN, hig⟩
    rw [bfsReachable_fst hh] at hivis
    rcases sat_sound _ _ _ hivis with ⟨a, ha, hreach⟩
    rw [Finset.mem_singleton] at ha
    subst ha
    subst hig
    exact (idx_chain_coord hb hwalls hGR hGC hhpin hreach).2

/-! ## C2: enclosure of the returned walls -/

theorem charsValid_of_rows {g : Grid}
    (h : ∀ row, row ∈ g → ∀ ch, ch ∈ row → ch = '.' ∨ ch = '#' ∨ ch = 'H') :
    CharsValid g := by
  intro r c ch hc
  rw [cellE] at hc
  cases hr : g.get? r with
  | none => rw [hr] at hc; cases hc
  | some row =>
    rw [hr] at hc
    exact h row (List.get?_mem hr) ch (List.get?_mem hc)

/-- The wall list produced by `solve` holds exactly the images of the
recorded best-wall indices. -/
theorem mem_solve_walls_iff {G : Graph} {W : Finset Nat} {q : Coord} :
    q ∈ sortByLe lexLe ((bitList G.N W).map (fun i => listGetD G.coords i (0, 0))) ↔
      ∃ i2, i2 ∈ W ∧ i2 < G.N ∧ listGetD G.coords i2 (0, 0) = q := by
  rw [mem_sortByLe, List.mem_map]
  constructor
  · rintro ⟨i, hi, hg⟩
    obtain ⟨hiN, hiW⟩ := mem_bitList.1 hi
    exact ⟨i, hiW, hiN, hg⟩
  · rintro ⟨i, hiW, hiN, hg⟩
    exact ⟨i, mem_bitList.2 ⟨hiN, hiW⟩, hg⟩

/-- A false `escapes` flag means the horse is unblocked and the visited set
misses the boundary. -/
theorem bfsReachable_escapes_false {G : Graph} {b : Finset Nat}
    (h : (bfsReachable G b).2.2 = false) :
    horseIdx ∉ b ∧ ((bfsReachable G b).1 ∩ G.boundary) = ∅ := by
  by_cases hh : horseIdx ∈ b
  · rw [bfsReachable, if_pos hh] at h
    cases h
  · refine ⟨hh, ?_⟩
    rw [bfsReachable, if_neg hh] at h ⊢
    have h2 : ¬ (sat (idxNbrs G b) G.N {horseIdx} ∩ G.boundary).Nonempty := by
      simpa using h
    rw [Finset.not_nonempty_iff_eq_empty] at h2
    exact h2

/-- C2 (amended): whenever `solve` has found an enclosure — the returned
`best_area` is positive — overlaying the returned walls and flooding the
grid from the horse with the walls and `#` blocked reaches no cell of the
outermost row or column.  (Unconditionally the claim fails: when no
enclosure exists the returned wall list is empty and the flood can reach
the boundary; see the counterexample.) -/
theorem solve_enclosure_holds (k : Int) (g : Grid) (res : SolveResult) (G : Graph)
    (hchars : CharsValid g) (hb : buildGraph g = Except.ok G)
    (hs : solve k g = Except.ok res) (hpos : 0 < res.bestArea) :
    ∀ p, p ∈ gridFlood g res.walls (listGetD G.coords 0 (0, 0)) →
      ¬ onBoundary g.length (gridC g) p := by
  rw [solve_of_build_ok hb] at hs
  split at hs
  · cases hs
    exact absurd hpos (by simp)
  · next hnotb =>
    cases hs
    rcases searchCtx_good G k with ⟨hzero, -⟩ | ⟨-, ⟨hWrange, -⟩, hesc, -⟩
    · rw [show ({ bestArea := (dfs (buildNetwork G k) (G.N + 1) ∅ {horseIdx} k
          ⟨0, ∅, []⟩).bestArea, walls := _ } : SolveResult).bestArea =
          (dfs (buildNetwork G k) (G.N + 1) ∅ {horseIdx} k ⟨0, ∅, []⟩).bestArea from rfl,
        hzero] at hpos
      exact absurd hpos (by simp)
    · intro p hp hbound
      obtain ⟨hh, hdisj⟩ := bfsReachable_escapes_false hesc
      have hwalls2 : ∀ q2, q2 ∈ sortByLe lexLe
          ((bitList G.N (dfs (buildNetwork G k) (G.N + 1) ∅ {horseIdx} k
            ⟨0, ∅, []⟩).bestWalls).map (fun i => listGetD G.coords i (0, 0))) ↔
          ∃ i2, i2 ∈ (dfs (buildNetwork G k) (G.N + 1) ∅ {horseIdx} k
            ⟨0, ∅, []⟩).bestWalls ∧ i2 < G.N ∧ listGetD G.coords i2 (0, 0) = q2 :=
        fun q2 => mem_solve_walls_iff
      have hcorr := flood_correspondence hb hchars hh hwalls2
      obtain ⟨i, hivis, hiN, hig⟩ := (hcorr p).1 hp
      have hib : i ∉ G.boundary := by
        intro hcon
        have hmem2 : i ∈ (bfsReachable (buildNetwork G k).G
            (dfs (buildNetwork G k) (G.N + 1) ∅ {horseIdx} k
              ⟨0, ∅, []⟩).bestWalls).1 ∩ (buildNetwork G k).G.boundary :=
          Finset.mem_inter.2 ⟨hivis, hcon⟩
        rw [hdisj] at hmem2
        exact absurd hmem2 (Finset.not_mem_empty i)
      obtain ⟨hR, ⟨row0, rest, hg, hC⟩, -, -, -, hbound2⟩ := buildGraph_ok_spec hb
      have hGC : G.C = gridC g := by
        subst hg
        exact hC
      apply hib
      rw [hbound2, mem_boundarySet, hig]
      refine ⟨hiN, ?_⟩
      rw [hR, hGC]
      exact hbound

def gridA_walls : List Coord := [(0, 1), (1, 0), (1, 2), (2, 1)]

set_option maxRecDepth 20000 in
/-- C2 counterexample: with no budget on the open 3×3 grid, `solve` returns
`(0, [])`, and the flood from the horse `(1, 1)` with no walls overlaid
reaches the boundary cell `(0, 1)` — the claim's unconditional enclosure
fails. -/
theorem solve_no_enclosure_flood_escapes :
    solve 0 gridA = Except.ok ⟨0, []⟩ ∧
    cellE gridA 1 1 = some 'H' ∧
    (0, 1) ∈ gridFlood gridA [] (1, 1) ∧
    onBoundary gridA.length (gridC gridA) (0, 1) := by
  refine ⟨rfl, rfl, by decide, Or.inl rfl⟩

set_option maxRecDepth 80000 in
/-- Witness for C2 (amended) on a concrete run: budget 4 on the 3×3 grid. -/
theorem solve_enclosure_holds_witness :
    ¬ onBoundary gridA.length (gridC gridA) (1, 1) := by
  have h := solve_enclosure_holds 4 gridA ⟨1, gridA_walls⟩ graphA
    (charsValid_of_rows (by decide)) buildGraph_gridA rfl (by decide)
  exact h (1, 1) (by decide)

/-! ## C10: a pre-enclosed horse region -/

/-- On a rectangular grid every in-rectangle read succeeds. -/
theorem cellE_isSome_of_rect {g : Grid} (hrect : ∀ row, row ∈ g → row.length = gridC g)
    {r c : Nat} (hr : r < g.length) (hc : c < gridC g) :
    ∃ ch, cellE g r c = some ch := by
  cases hrow : g.get? r with
  | none =>
    rw [List.get?_eq_none] at hrow
    omega
  | some row =>
    have hlen : row.length = gridC g := hrect row (List.get?_mem hrow)
    cases hch : row.get? c with
    | none =>
      rw [List.get?_eq_none] at hch
      omega
    | some ch =>
      refine ⟨ch, ?_⟩
      rw [cellE, hrow]
      exact hch

theorem bfsAdmit_ok {g : Grid} :
    ∀ {ns : List Coord}, (∀ q, q ∈ ns → ∃ ch, cellE g q.1 q.2 = some ch) →
      ∀ cs ps, ∃ out, bfsAdmit g ns cs ps = Except.ok out := by
  intro ns
  induction ns with
  | nil => intro _ cs ps; exact ⟨(cs, ps), rfl⟩
  | cons n rest ih =>
    intro hns cs ps
    obtain ⟨ch, hch⟩ := hns n (List.mem_cons_self _ _)
    have hrest : ∀ q, q ∈ rest → ∃ ch, cellE g q.1 q.2 = some ch :=
      fun q hq => hns q (List.mem_cons_of_mem n hq)
    simp only [bfsAdmit, hch]
    split
    · split
      · exact ih hrest cs ps
      · exact ih hrest (cs ++ [n]) (ps ++ [n])
    · exact ih hrest cs ps

theorem bfsBuild_ok {g : Grid} (hrect : ∀ row, row ∈ g → row.length = gridC g) :
    ∀ (fuel : Nat) (cs q : List Coord),
      (∀ p, p ∈ q → p.1 < g.length ∧ p.2 < gridC g) →
      ∃ out, bfsBuild g g.length (gridC g) fuel cs q = Except.ok out := by
  intro fuel
  induction fuel with
  | zero => intro cs q _; exact ⟨cs, rfl⟩
  | succ fuel ih =>
    intro cs q hq
    cases q with
    | nil => exact ⟨cs, rfl⟩
    | cons p rest =>
      have hpin := hq p (List.mem_cons_self _ _)
      have hreads : ∀ r, r ∈ nbrsInBounds g.length (gridC g) p →
          ∃ ch, cellE g r.1 r.2 = some ch := by
        intro r hr
        have hrb := mem_nbrsInBounds_bounds hpin hr
        exact cellE_isSome_of_rect hrect hrb.1 hrb.2
      obtain ⟨pr, hpr⟩ := bfsAdmit_ok hreads cs []
      obtain ⟨cs2, ps2⟩ := pr
      obtain ⟨new, -, he2, -, he4, -⟩ := bfsAdmit_core hpr
      have hq2 : ∀ r, r ∈ rest ++ ps2 → r.1 < g.length ∧ r.2 < gridC g := by
        intro r hr
        rcases List.mem_append.1 hr with hr | hr
        · exact hq r (List.mem_cons_of_mem p hr)
        · rw [show ps2 = new from by simpa using he2] at hr
          exact mem_nbrsInBounds_bounds hpin (he4 r hr).1
      obtain ⟨out, hout⟩ := ih cs2 (rest ++ ps2) hq2
      refine ⟨out, ?_⟩
      rw [bfsBuild, hpr]
      exact hout

theorem computeWallable_ok {g : Grid} :
    ∀ {cs : List Coord}, (∀ p, p ∈ cs → ∃ ch, cellE g p.1 p.2 = some ch) →
      ∃ w, computeWallable g cs = Except.ok w := by
  intro cs
  induction cs with
  | nil => intro _; exact ⟨[], rfl⟩
  | cons p rest ih =>
    intro hcs
    obtain ⟨ch, hch⟩ := hcs p (List.mem_cons_self _ _)
    obtain ⟨w, hw⟩ := ih (fun q hq => hcs q (List.mem_cons_of_mem p hq))
    refine ⟨decide (ch = '.') :: w, ?_⟩
    rw [computeWallable, hch, hw]
    rfl

/-- On a rectangular grid where the horse scan succeeds, the whole graph
build succeeds. -/
theorem buildGraph_ok_of_rect {g : Grid}
    (hrect : ∀ row, row ∈ g → row.length = gridC g)
    {hp : Coord} (hscan : scanForHorse g (gridC g) 0 g.length = Except.ok hp) :
    ∃ G, buildGraph g = Except.ok G := by
  cases g with
  | nil => cases hscan
  | cons row0 rest =>
    have hC : gridC (row0 :: rest) = row0.length := rfl
    obtain ⟨-, hlt, hc, hH⟩ := scanForHorse_ok hscan
    obtain ⟨out, hout⟩ :=
      bfsBuild_ok hrect ((row0 :: rest).length * gridC (row0 :: rest) + 1) [hp] [hp]
        (by
          intro p hp2
          rw [List.mem_singleton] at hp2
          subst hp2
          exact ⟨by omega, hc⟩)
    have hhpin : hp.1 < (row0 :: rest).length ∧ hp.2 < gridC (row0 :: rest) :=
      ⟨by omega, hc⟩
    have hspec := bfsBuild_spec hp hout
      (List.nodup_singleton hp)
      (by intro p hp2; rw [List.mem_singleton] at hp2; subst hp2; exact hhpin)
      (by intro p hp2; rw [List.mem_singleton] at hp2; subst hp2
          rw [openCellB, hH]; rfl)
      (by intro p hp2; rw [List.mem_singleton] at hp2; subst hp2
          exact Relation.ReflTransGen.refl)
      (fun p hp2 => hp2)
      (by intro p hp2 hnot; exact absurd hp2 hnot)
      (by
        simp only [List.length_singleton]
        have hRC : 0 < (row0 :: rest).length * gridC (row0 :: rest) :=
          Nat.mul_pos (Nat.lt_of_le_of_lt (Nat.zero_le hp.1) hhpin.1)
            (Nat.lt_of_le_of_lt (Nat.zero_le hp.2) hhpin.2)
        omega)
    obtain ⟨-, hin, -, -, -⟩ := hspec
    obtain ⟨w, hw⟩ := computeWallable_ok
      (fun p hp2 => cellE_isSome_of_rect hrect (hin p hp2).1 (hin p hp2).2)
    cases hbg : buildGraph (row0 :: rest) with
    | ok G => exact ⟨G, rfl⟩
    | error e =>
      exfalso
      rw [buildGraph] at hbg
      rw [hC] at hscan hout
      simp only [List.get?, hscan, hout, hw] at hbg
      cases hbg

/-- Every member of the builder's index map lies in the unwalled coordinate
flood from the horse. -/
theorem coords_mem_gridFlood {g : Grid} {G : Graph} (hb : buildGraph g = Except.ok G)
    {i : Nat} (hi : i < G.N) :
    listGetD G.coords i (0, 0) ∈ gridFlood g [] (listGetD G.coords 0 (0, 0)) := by
  obtain ⟨hR, ⟨row0, rest, hg, hC⟩, -, -, -, -⟩ := buildGraph_ok_spec hb
  have hGC : G.C = gridC g := by subst hg; exact hC
  obtain ⟨hnd, hin, -, -, hreach, -⟩ := buildGraph_coords_spec hb
  have hN := buildGraph_N_pos hb
  have hhpin : (listGetD G.coords 0 (0, 0)).1 < g.length ∧
      (listGetD G.coords 0 (0, 0)).2 < gridC g := by
    have h2 := hin (listGetD G.coords 0 (0, 0)) (listGetD_mem hN)
    rw [hR, hGC] at h2
    exact h2
  have hchain := hreach (listGetD G.coords i (0, 0)) (listGetD_mem hi)
  have hchain2 : ReachRel (gridStep g g.length (gridC g) [])
      (listGetD G.coords 0 (0, 0)) (listGetD G.coords i (0, 0)) := by
    refine Relation.ReflTransGen.mono ?_ hchain
    intro a b hab
    rw [openNbrs, List.mem_filter] at hab
    rw [gridStep, List.mem_filter]
    rw [hR, hGC] at hab
    refine ⟨hab.1, ?_⟩
    obtain ⟨ch, hch, hcho⟩ := openCellB_iff.1 hab.2
    rw [hch]
    simp [isOpenCell_ne_hash hcho]
  exact closed_absorbs (gridFlood_closed hhpin)
    (subset_sat _ _ _ (Finset.mem_singleton_self _)) hchain2

/-- When the unwalled flood from the horse misses the boundary, the graph's
boundary index set is empty. -/
theorem boundary_empty_of_noescape {g : Grid} {G : Graph}
    (hb : buildGraph g = Except.ok G)
    (hnob : ∀ p, p ∈ gridFlood g [] (listGetD G.coords 0 (0, 0)) →
      ¬ onBoundary g.length (gridC g) p) :
    G.boundary = ∅ := by
  obtain ⟨hR, ⟨row0, rest, hg, hC⟩, -, -, -, hbound⟩ := buildGraph_ok_spec hb
  have hGC : G.C = gridC g := by subst hg; exact hC
  ext i
  simp only [Finset.not_mem_empty, iff_false]
  intro hcon
  rw [hbound, mem_boundarySet] at hcon
  obtain ⟨hiN, hob⟩ := hcon
  rw [hR, hGC] at hob
  exact hnob _ (coords_mem_gridFlood hb hiN) hob

/-! ## The flow network of a boundary-free graph -/

theorem listGetD_listSet_ne {α : Type} {d x : α} :
    ∀ {l : List α} {i j : Nat}, i ≠ j →
      listGetD (listSet l i x) j d = listGetD l j d := by
  intro l
  induction l with
  | nil => intro i j _; cases i <;> rfl
  | cons a rest ih =>
    intro i j hne
    cases i with
    | zero =>
      cases j with
      | zero => exact absurd rfl hne
      | succ j => rfl
    | succ i =>
      cases j with
      | zero => rfl
      | succ j =>
        have hij : i ≠ j := fun h => hne (by rw [h])
        rw [listSet, listGetD_cons_succ, listGetD_cons_succ]
        exact ih hij

theorem listGetD_replicate {α : Type} (x : α) : ∀ (n i : Nat),
    listGetD (List.replicate n x) i x = x := by
  intro n
  induction n with
  | zero => intro i; rfl
  | succ n ih =>
    intro i
    cases i with
    | zero => rfl
    | succ i =>
      rw [List.replicate_succ, listGetD_cons_succ]
      exact ih i

theorem listGetD_append_right {α : Type} {d : α} :
    ∀ {l1 : List α} {i : Nat}, l1.length ≤ i →
      ∀ l2 : List α, listGetD (l1 ++ l2) i d = listGetD l2 (i - l1.length) d := by
  intro l1
  induction l1 with
  | nil => intro i _ l2; rfl
  | cons a rest ih =>
    intro i h l2
    cases i with
    | zero => simp at h
    | succ i =>
      rw [List.cons_append, listGetD_cons_succ]
      have h2 : rest.length ≤ i := by simpa using h
      rw [ih h2 l2]
      simp [Nat.succ_sub_succ]

/-- A property preserved by every step of a fold holds of the result. -/
theorem foldl_preserve {α β : Type} {P : α → Prop} (step : α → β → α) :
    ∀ (l : List β) (init : α), P init →
      (∀ a b, b ∈ l → P a → P (step a b)) → P (l.foldl step init) := by
  intro l
  induction l with
  | nil => intro init h _; exact h
  | cons b rest ih =>
    intro init h hstep
    exact ih (step init b) (hstep init b (List.mem_cons_self _ _) h)
      (fun a c hc ha => hstep a c (List.mem_cons_of_mem b hc) ha)

/-- The sink is untouched by the template: no edge points to it and its
incoming-edge list is empty.  This holds of the networks `solve` builds when
the boundary is empty, because only boundary cells receive an edge to the
sink. -/
def SnkClean (snk : Nat) (f : FlowT) : Prop :=
  (∀ e, listGetD f.eto e 0 ≠ snk) ∧ listGetD f.inAdj snk [] = []

theorem addEdge_snkClean {snk u v : Nat} {c : Int} {f : FlowT}
    (hs0 : snk ≠ 0) (hu : u ≠ snk) (hv : v ≠ snk) (h : SnkClean snk f) :
    SnkClean snk (addEdge f u v c).1 := by
  obtain ⟨h1, h2⟩ := h
  constructor
  · intro e
    show listGetD (f.eto ++ [v, u]) e 0 ≠ snk
    rcases Nat.lt_or_ge e f.eto.length with hlt | hge
    · rw [listGetD_append_left hlt]
      exact h1 e
    · rw [listGetD_append_right hge]
      cases hm : e - f.eto.length with
      | zero => exact hv
      | succ m =>
        cases m with
        | zero => exact hu
        | succ m =>
          rw [listGetD_cons_succ, listGetD_cons_succ]
          rw [show listGetD ([] : List Nat) m 0 = 0 from rfl]
          exact fun hc2 => hs0 hc2.symm
  · show listGetD
      (listSet (listSet f.inAdj v (listGetD f.inAdj v [] ++ [f.eto.length]))
        u (listGetD (listSet f.inAdj v (listGetD f.inAdj v [] ++ [f.eto.length])) u []
            ++ [f.eto.length + 1])) snk [] = []
    rw [listGetD_listSet_ne hu, listGetD_listSet_ne hv]
    exact h2

theorem buildNetwork_G (G : Graph) (k : Int) : (buildNetwork G k).G = G := rfl

theorem buildNetwork_snkClean (G : Graph) (k : Int) (hbound : G.boundary = ∅) :
    SnkClean (2 * G.N + 1) (buildNetwork G k).flow := by
  have hs0 : 2 * G.N + 1 ≠ 0 := by omega
  have hinit : SnkClean (2 * G.N + 1) (FlowT.init (2 * G.N + 2)) := by
    constructor
    · intro e
      rw [show listGetD (FlowT.init (2 * G.N + 2)).eto e 0 = 0 from rfl]
      omega
    · exact listGetD_replicate _ _ _
  have h1 := foldl_preserve (P := fun (acc : FlowT × List Nat) => SnkClean (2 * G.N + 1) acc.1)
    (fun (acc : FlowT × List Nat) i =>
      ((addEdge acc.1 (2 * i) (2 * i + 1)
          (if i = horseIdx ∨ listGetD G.wallable i false = false then k + 1 else 1)).1,
       acc.2 ++ [(addEdge acc.1 (2 * i) (2 * i + 1)
          (if i = horseIdx ∨ listGetD G.wallable i false = false then k + 1 else 1)).2]))
    (List.range G.N) (FlowT.init (2 * G.N + 2), []) hinit
    (by
      intro a i hi ha
      have hiN : i < G.N := List.mem_range.1 hi
      refine addEdge_snkClean hs0 ?_ ?_ ha <;> omega)
  have h2 := foldl_preserve (P := fun f => SnkClean (2 * G.N + 1) f)
    (fun f i => (listGetD G.adj i []).foldl
      (fun f j => (addEdge f (2 * i + 1) (2 * j) (k + 1)).1) f)
    (List.range G.N) _ h1
    (by
      intro a i hi ha
      have hiN : i < G.N := List.mem_range.1 hi
      exact foldl_preserve (P := fun f => SnkClean (2 * G.N + 1) f) _ (listGetD G.adj i []) a ha
        (by
          intro a2 j _ ha2
          refine addEdge_snkClean hs0 ?_ ?_ ha2 <;> omega))
  have h3 := foldl_preserve (P := fun f => SnkClean (2 * G.N + 1) f)
    (fun f i => if i ∈ G.boundary then (addEdge f (2 * i + 1) (2 * G.N + 1) (k + 1)).1 else f)
    (List.range G.N) _ h2
    (by
      intro a i _ ha
      show SnkClean (2 * G.N + 1)
        (if i ∈ G.boundary then (addEdge a (2 * i + 1) (2 * G.N + 1) (k + 1)).1 else a)
      rw [hbound, if_neg (Finset.not_mem_empty i)]
      exact ha)
  have h4 := foldl_preserve (P := fun (acc : FlowT × List Nat) => SnkClean (2 * G.N + 1) acc.1)
    (fun (acc : FlowT × List Nat) i =>
      ((addEdge acc.1 (2 * G.N) (2 * i + 1) (if i = horseIdx then k + 1 else 0)).1,
       acc.2 ++ [(addEdge acc.1 (2 * G.N) (2 * i + 1) (if i = horseIdx then k + 1 else 0)).2]))
    (List.range G.N) (_, []) h3
    (by
      intro a i hi ha
      have hiN : i < G.N := List.mem_range.1 hi
      refine addEdge_snkClean hs0 ?_ ?_ ha <;> omega)
  exact h4


/-- With no edge pointing at the target, the edge scan never discovers it and
never reports success. -/
theorem bfsEdges_no_target {fl : FlowT} {cap : List Int} {t : Nat}
    (hne : ∀ e, listGetD fl.eto e 0 ≠ t) (pathU : List Nat) :
    ∀ (es : List Nat) (disc : List (Option (List Nat))) (pushed : List Nat),
      listGetD disc t none = none →
      (bfsEdges fl cap t pathU es disc pushed).2.2 = false ∧
      listGetD (bfsEdges fl cap t pathU es disc pushed).1 t none = none := by
  intro es
  induction es with
  | nil => intro disc pushed h; exact ⟨rfl, h⟩
  | cons e rest ih =>
    intro disc pushed h
    rw [bfsEdges]
    split
    · exact ih disc pushed h
    · cases hd : listGetD disc (listGetD fl.eto e 0) none with
      | some p =>
        simp only [hd]
        exact ih disc pushed h
      | none =>
        simp only [hd]
        rw [if_neg (hne e)]
        refine ih _ _ ?_
        rw [listGetD_listSet_ne (hne e)]
        exact h

/-- The forward BFS never discovers an unreachable-by-edges target. -/
theorem bfsFlow_no_target {fl : FlowT} {t : Nat}
    (hne : ∀ e, listGetD fl.eto e 0 ≠ t) (cap : List Int) :
    ∀ (fuel : Nat) (disc : List (Option (List Nat))) (queue : List Nat),
      listGetD disc t none = none →
      listGetD (bfsFlow fl cap t fuel disc queue) t none = none := by
  intro fuel
  induction fuel with
  | zero => intro disc queue h; exact h
  | succ fuel ih =>
    intro disc queue h
    cases queue with
    | nil => exact h
    | cons u rest =>
      rw [bfsFlow]
      simp only [h]
      rcases hbe : bfsEdges fl cap t ((listGetD disc u none).getD [])
          (listGetD fl.adj u []) disc [] with ⟨disc2, pushed, found⟩
      obtain ⟨hfalse, hnone⟩ :=
        bfsEdges_no_target hne ((listGetD disc u none).getD [])
          (listGetD fl.adj u []) disc [] h
      rw [hbe] at hfalse hnone
      simp only at hfalse
      subst hfalse
      simp only [hbe]
      exact ih disc2 (rest ++ pushed) hnone

/-- With no edge pointing at the target, every iteration of the augmenting
loop fails to find a path and the loop returns its inputs unchanged. -/
theorem maxflowLoop_no_target {fl : FlowT} {s t : Nat}
    (hne : ∀ e, listGetD fl.eto e 0 ≠ t) (hts : t ≠ s) :
    ∀ (fuel : Nat) (cap : List Int) (flow : Int),
      maxflowLoop fl s t fuel cap flow = (cap, flow) := by
  intro fuel cap flow
  cases fuel with
  | zero => rfl
  | succ fuel =>
    rw [maxflowLoop]
    have hd0 : listGetD (listSet (List.replicate fl.n (none : Option (List Nat))) s
        (some [])) t none = none := by
      rw [listGetD_listSet_ne (fun h2 => hts h2.symm)]
      exact listGetD_replicate _ _ _
    have hd := bfsFlow_no_target hne cap (fl.n + 1)
      (listSet (List.replicate fl.n (none : Option (List Nat))) s (some [])) [s] hd0
    simp only [hd]

theorem maxflowLimit_no_target {fl : FlowT} {s t : Nat}
    (hne : ∀ e, listGetD fl.eto e 0 ≠ t) (hts : t ≠ s) :
    ∀ (cap : List Int) (limit : Int),
      maxflowLimit fl s t cap limit = (cap, 0) := by
  intro cap limit
  rw [maxflowLimit]
  exact maxflowLoop_no_target hne hts _ cap 0

theorem residNbrs_snk_nil {f : FlowT} {snk : Nat}
    (h2 : listGetD f.inAdj snk [] = []) (cap : List Int) :
    residNbrs f cap snk = [] := by
  rw [residNbrs, h2]
  rfl

/-- With an empty incoming-edge list at the sink, the reverse residual scan
finds only the sink itself. -/
theorem sat_snk_singleton {f : FlowT} {snk : Nat}
    (h2 : listGetD f.inAdj snk [] = []) (cap : List Int) (n : Nat) :
    sat (residNbrs f cap) n {snk} = {snk} := by
  apply sat_of_closed
  rw [satStep, Finset.singleton_biUnion, residNbrs_snk_nil h2]
  simp

/-- On a boundary-free graph the root separator query pushes no flow, finds
only the sink reverse-reachable, and extracts the empty cut. -/
theorem minSeparator_preenclosed {G : Graph} (hbound : G.boundary = ∅)
    {k : Int} (hk : 0 ≤ k) :
    minSeparator (buildNetwork G k) ∅ {horseIdx} k = some ∅ := by
  obtain ⟨hne, hin⟩ := buildNetwork_snkClean G k hbound
  rw [minSeparator]
  rw [if_neg (not_not_intro (Finset.disjoint_empty_left _))]
  simp only [Network.SNK, Network.SRC, buildNetwork_G]
  have hts : 2 * G.N + 1 ≠ 2 * G.N := by omega
  simp only [bitList_empty, List.foldl_nil,
    maxflowLimit_no_target hne hts]
  rw [if_neg (show ¬ k < (0 : Int) by omega)]
  rw [sat_snk_singleton hin]
  refine congrArg some ?_
  rw [Finset.filter_eq_empty_iff]
  intro i hi
  have hiN : i < G.N := Finset.mem_range.1 hi
  intro hcon
  have h5 := hcon.2.2.2.2
  rw [Finset.mem_singleton] at h5
  omega


/-- Saturation stays inside a carrier closed under the successor map. -/
theorem sat_subset_carrier {α : Type} [DecidableEq α] {nbrs : α → List α} {U : Finset α}
    (hU : ∀ a ∈ U, ∀ b2 ∈ nbrs a, b2 ∈ U) :
    ∀ (n : Nat) (t : Finset α), t ⊆ U → sat nbrs n t ⊆ U := by
  intro n
  induction n with
  | zero => exact fun t ht => ht
  | succ n ih =>
    intro t ht
    refine ih (satStep nbrs t) ?_
    intro x hx
    rcases Finset.mem_union.1 hx with hx | hx
    · exact ht hx
    · rcases Finset.mem_biUnion.1 hx with ⟨a, ha, hxa⟩
      exact hU a (ht ha) x (List.mem_toFinset.1 hxa)

/-- Every index the flood fill visits is a real dense index. -/
theorem bfsReachable_subset_range {g : Grid} {G : Graph}
    (hb : buildGraph g = Except.ok G) (b : Finset Nat) :
    (bfsReachable G b).1 ⊆ Finset.range G.N := by
  by_cases hh : horseIdx ∈ b
  · rw [bfsReachable, if_pos hh]
    exact Finset.empty_subset _
  · rw [bfsReachable_fst hh]
    have hN := buildGraph_N_pos hb
    refine sat_subset_carrier (idxNbrs_stay hb b) G.N {horseIdx} ?_
    intro x hx
    rw [Finset.mem_singleton] at hx
    subst hx
    exact Finset.mem_range.2 hN

/-- On a boundary-free graph no flood escapes. -/
theorem bfsReachable_noescape {G : Graph} (hbound : G.boundary = ∅)
    {b : Finset Nat} (hh : horseIdx ∉ b) :
    (bfsReachable G b).2.2 = false := by
  rw [bfsReachable, if_neg hh]
  simp [hbound]

/-- On a boundary-free graph with a trivial root separator, the root call
records the full unblocked flood with no walls and stops. -/
theorem dfs_root_preenclosed {net : Network} {k : Int}
    (hbound : net.G.boundary = ∅)
    (hsep : minSeparator net ∅ {horseIdx} k = some ∅) (fuel : Nat) :
    dfs net (fuel + 1) ∅ {horseIdx} k ⟨0, ∅, []⟩ =
      ⟨(bfsReachable net.G ∅).2.1, ∅, [⟨∅, {horseIdx}, k⟩]⟩ := by
  have hh : horseIdx ∉ (∅ : Finset Nat) := Finset.not_mem_empty _
  have hsub : ({horseIdx} : Finset Nat) ⊆ (bfsReachable net.G ∅).1 := by
    intro x hx
    rw [Finset.mem_singleton] at hx
    subst hx
    exact horse_mem_bfsReachable hh
  have hpos : 0 < (bfsReachable net.G ∅).2.1 := bfsReachable_card_pos hh
  have hne0 : (bfsReachable net.G ∅).2.1 ≠ 0 := by omega
  have hesc : (bfsReachable net.G ∅).2.2 = false := bfsReachable_noescape hbound hh
  simp [dfs, hsep, hsub, hpos, hne0, hesc]

/-- The size the flood oracle reports for the unblocked graph equals the size
of the coordinate-level flood of the unwalled grid. -/
theorem preenclosed_area {g : Grid} {G : Graph} (hb : buildGraph g = Except.ok G)
    (hchars : CharsValid g) :
    (bfsReachable G ∅).2.1 = (gridFlood g [] (listGetD G.coords 0 (0, 0))).card := by
  have hh : horseIdx ∉ (∅ : Finset Nat) := Finset.not_mem_empty _
  have hwalls : ∀ q : Coord, q ∈ ([] : List Coord) ↔ ∃ i2, i2 ∈ (∅ : Finset Nat) ∧
      i2 < G.N ∧ listGetD G.coords i2 (0, 0) = q := by
    simp
  have hcorr := flood_correspondence hb hchars hh hwalls
  have himg : gridFlood g [] (listGetD G.coords 0 (0, 0)) =
      (bfsReachable G ∅).1.image (fun i => listGetD G.coords i (0, 0)) := by
    ext p
    rw [hcorr p, Finset.mem_image]
    constructor
    · rintro ⟨i, h1, h2, h3⟩
      exact ⟨i, h1, h3⟩
    · rintro ⟨i, h1, h3⟩
      exact ⟨i, h1,
        Finset.mem_range.1 (bfsReachable_subset_range hb ∅ h1), h3⟩
  obtain ⟨hnd, -, -, -, -, -⟩ := buildGraph_coords_spec hb
  have hcardimg : ((bfsReachable G ∅).1.image
      (fun i => listGetD G.coords i (0, 0))).card = (bfsReachable G ∅).1.card := by
    apply Finset.card_image_of_injOn
    intro i hi j hj hij
    exact coords_getD_inj hnd
      (Finset.mem_range.1 (bfsReachable_subset_range hb ∅ hi))
      (Finset.mem_range.1 (bfsReachable_subset_range hb ∅ hj)) hij
  have hsnd : (bfsReachable G ∅).2.1 = (bfsReachable G ∅).1.card := by
    rw [bfsReachable, if_neg hh]
  rw [hsnd, himg, hcardimg]

/-- C10.  On every grid whose graph build succeeds, whose characters are the
three legal kinds, and whose unwalled flood from the horse misses the
boundary (the horse is pre-enclosed by the existing `#` cells), `solve`
returns exactly that flood's size as the best area, with an empty wall list,
for every non-negative budget — including `k = 0`. -/
theorem solve_preenclosed {g : Grid} {G : Graph} (hb : buildGraph g = Except.ok G)
    (k : Int) (hk : 0 ≤ k) (hchars : CharsValid g)
    (hnob : ∀ p, p ∈ gridFlood g [] (listGetD G.coords 0 (0, 0)) →
      ¬ onBoundary g.length (gridC g) p) :
    solve k g = Except.ok ⟨(gridFlood g [] (listGetD G.coords 0 (0, 0))).card, []⟩ := by
  have hbound : G.boundary = ∅ := boundary_empty_of_noescape hb hnob
  rw [solve_of_build_ok hb]
  rw [if_neg (by rw [hbound]; exact Finset.not_mem_empty _)]
  have hsep := minSeparator_preenclosed hbound hk
  have hroot := dfs_root_preenclosed
    (show (buildNetwork G k).G.boundary = ∅ from hbound) hsep G.N
  rw [hroot]
  rw [show (⟨(bfsReachable (buildNetwork G k).G ∅).2.1, ∅,
      [⟨∅, {horseIdx}, k⟩]⟩ : Ctx).bestWalls = ∅ from rfl]
  rw [show (⟨(bfsReachable (buildNetwork G k).G ∅).2.1, ∅,
      [⟨∅, {horseIdx}, k⟩]⟩ : Ctx).bestArea =
      (bfsReachable (buildNetwork G k).G ∅).2.1 from rfl]
  rw [bitList_empty, buildNetwork_G, preenclosed_area hb hchars]
  rfl

/-- A 5×5 grid whose `#` frame pre-encloses the horse. -/
def gridP : Grid :=
  [['#', '#', '#', '#', '#'],
   ['#', '.', '.', '.', '#'],
   ['#', '.', 'H', '.', '#'],
   ['#', '.', '.', '.', '#'],
   ['#', '#', '#', '#', '#']]

/-- The graph `solve` builds for `gridP`. -/
def graphP : Graph :=
  match buildGraph gridP with
  | .ok G => G
  | .error _ => ⟨0, 0, [], [], [], ∅⟩

set_option maxRecDepth 100000 in
/-- Witness for C10 on the pre-enclosed 5×5 grid with budget 0. -/
theorem solve_preenclosed_witness :
    buildGraph gridP = Except.ok graphP ∧ (0 : Int) ≤ 0 ∧ CharsValid gridP ∧
    (∀ p, p ∈ gridFlood gridP [] (listGetD graphP.coords 0 (0, 0)) →
      ¬ onBoundary gridP.length (gridC gridP) p) ∧
    solve 0 gridP =
      Except.ok ⟨(gridFlood gridP [] (listGetD graphP.coords 0 (0, 0))).card, []⟩ := by
  refine ⟨rfl, by decide, charsValid_of_rows (by decide), ?_, ?_⟩
  · simp only [onBoundary]
    decide
  · exact solve_preenclosed (g := gridP) (G := graphP) rfl 0 (by decide)
      (charsValid_of_rows (by decide)) (by simp only [onBoundary]; decide)


/-! ## Structural well-formedness of the edge template -/

theorem listSet_length {α : Type} (x : α) :
    ∀ (l : List α) (i : Nat), (listSet l i x).length = l.length := by
  intro l
  induction l with
  | nil => intro i; rfl
  | cons a rest ih =>
    intro i
    cases i with
    | zero => rfl
    | succ i => simpa [listSet] using ih i

theorem listGetD_cons_zero {α : Type} (a : α) (l : List α) (d : α) :
    listGetD (a :: l) 0 d = a := rfl

theorem listGetD_listSet {α : Type} (x d : α) :
    ∀ (l : List α) (i j : Nat), listGetD (listSet l i x) j d =
      if j = i ∧ i < l.length then x else listGetD l j d := by
  intro l
  induction l with
  | nil => intro i j; cases i <;> simp [listSet]
  | cons a rest ih =>
    intro i j
    cases i with
    | zero =>
      cases j with
      | zero => simp [listSet, listGetD_cons_zero]
      | succ j => simp [listSet, listGetD_cons_succ]
    | succ i =>
      cases j with
      | zero => simp [listSet, listGetD_cons_zero]
      | succ j =>
        rw [listSet, listGetD_cons_succ, ih i j, listGetD_cons_succ]
        simp only [List.length_cons]
        exact if_congr (by omega) rfl rfl

theorem listGetD_append_pair {α : Type} (d : α) (l : List α) (a b : α) {i : Nat}
    (h : l.length = i) :
    listGetD (l ++ [a, b]) i d = a ∧ listGetD (l ++ [a, b]) (i + 1) d = b := by
  subst h
  constructor
  · rw [listGetD_append_right (Nat.le_refl _), Nat.sub_self]
    rfl
  · rw [listGetD_append_right (by omega)]
    rw [show l.length + 1 - l.length = 1 from by omega]
    rfl

/-- The invariants of the parallel edge arrays that `add_edge` maintains:
matching lengths, node ids below `n`, the reverse-twin involution, and
adjacency lists holding exactly valid edge ids with the right endpoint. -/
structure FlowOk (fl : FlowT) : Prop where
  frm_len : fl.frm.length = fl.eto.length
  rev_len : fl.rev.length = fl.eto.length
  cap_len : fl.baseCap.length = fl.eto.length
  adj_len : fl.adj.length = fl.n
  inAdj_len : fl.inAdj.length = fl.n
  eto_lt : ∀ e, e < fl.eto.length → listGetD fl.eto e 0 < fl.n
  frm_lt : ∀ e, e < fl.eto.length → listGetD fl.frm e 0 < fl.n
  rev_lt : ∀ e, e < fl.eto.length → listGetD fl.rev e 0 < fl.eto.length
  rev_rev : ∀ e, e < fl.eto.length → listGetD fl.rev (listGetD fl.rev e 0) 0 = e
  frm_rev : ∀ e, e < fl.eto.length →
    listGetD fl.frm (listGetD fl.rev e 0) 0 = listGetD fl.eto e 0
  eto_rev : ∀ e, e < fl.eto.length →
    listGetD fl.eto (listGetD fl.rev e 0) 0 = listGetD fl.frm e 0
  adj_mem : ∀ u e, e ∈ listGetD fl.adj u [] →
    e < fl.eto.length ∧ listGetD fl.frm e 0 = u
  inAdj_mem : ∀ v e, e ∈ listGetD fl.inAdj v [] →
    e < fl.eto.length ∧ listGetD fl.eto e 0 = v
  inAdj_complete : ∀ e, e < fl.eto.length →
    e ∈ listGetD fl.inAdj (listGetD fl.eto e 0) []

theorem flowOk_init (n : Nat) : FlowOk (FlowT.init n) := by
  have hadj : (FlowT.init n).adj = List.replicate n ([] : List Nat) := rfl
  have hinadj : (FlowT.init n).inAdj = List.replicate n ([] : List Nat) := rfl
  refine ⟨rfl, rfl, rfl, ?_, ?_, ?_, ?_, ?_, ?_, ?_, ?_, ?_, ?_, ?_⟩
  · exact List.length_replicate n []
  · exact List.length_replicate n []
  · intro e he; exact absurd he (Nat.not_lt_zero e)
  · intro e he; exact absurd he (Nat.not_lt_zero e)
  · intro e he; exact absurd he (Nat.not_lt_zero e)
  · intro e he; exact absurd he (Nat.not_lt_zero e)
  · intro e he; exact absurd he (Nat.not_lt_zero e)
  · intro e he; exact absurd he (Nat.not_lt_zero e)
  · intro u e he
    rw [hadj, listGetD_replicate] at he
    cases he
  · intro v e he
    rw [hinadj, listGetD_replicate] at he
    cases he
  · intro e he; exact absurd he (Nat.not_lt_zero e)

theorem addEdge_flowOk {fl : FlowT} {u v : Nat} {c : Int} (hok : FlowOk fl)
    (hu : u < fl.n) (hv : v < fl.n) : FlowOk (addEdge fl u v c).1 := by
  have hE2 : (addEdge fl u v c).1.eto = fl.eto ++ [v, u] := rfl
  have hF2 : (addEdge fl u v c).1.frm = fl.frm ++ [u, v] := rfl
  have hR2 : (addEdge fl u v c).1.rev =
    fl.rev ++ [fl.eto.length + 1, fl.eto.length] := rfl
  have hn2 : (addEdge fl u v c).1.n = fl.n := rfl
  have hlen : (fl.eto ++ [v, u]).length = fl.eto.length + 2 := by simp
  have hetoE := listGetD_append_pair 0 fl.eto v u (rfl : fl.eto.length = fl.eto.length)
  have hfrmE := listGetD_append_pair 0 fl.frm u v hok.frm_len
  have hrevE := listGetD_append_pair 0 fl.rev (fl.eto.length + 1) (fl.eto.length) hok.rev_len
  -- pointwise descriptions of the new arrays
  have heto : ∀ e, listGetD (fl.eto ++ [v, u]) e 0 =
      if e < fl.eto.length then listGetD fl.eto e 0
      else if e = fl.eto.length then v
      else if e = fl.eto.length + 1 then u else 0 := by
    intro e
    rcases Nat.lt_or_ge e fl.eto.length with h | h
    · rw [listGetD_append_left h, if_pos h]
    · rw [if_neg (by omega)]
      rcases Nat.lt_or_ge e (fl.eto.length + 2) with h2 | h2
      · rcases (by omega : e = fl.eto.length ∨ e = fl.eto.length + 1) with h3 | h3
        · rw [h3, if_pos rfl]
          exact hetoE.1
        · rw [h3, if_neg (by omega), if_pos rfl]
          exact hetoE.2
      · rw [if_neg (by omega), if_neg (by omega), listGetD_append_right h]
        obtain ⟨m, hm⟩ : ∃ m, e - fl.eto.length = m + 2 := ⟨e - fl.eto.length - 2, by omega⟩
        rw [hm, listGetD_cons_succ, listGetD_cons_succ]
        rfl
  have hfrm : ∀ e, listGetD (fl.frm ++ [u, v]) e 0 =
      if e < fl.eto.length then listGetD fl.frm e 0
      else if e = fl.eto.length then u
      else if e = fl.eto.length + 1 then v else 0 := by
    intro e
    rcases Nat.lt_or_ge e fl.eto.length with h | h
    · rw [listGetD_append_left (by rw [hok.frm_len]; exact h), if_pos h]
    · rw [if_neg (by omega)]
      rcases Nat.lt_or_ge e (fl.eto.length + 2) with h2 | h2
      · rcases (by omega : e = fl.eto.length ∨ e = fl.eto.length + 1) with h3 | h3
        · rw [h3, if_pos rfl]
          exact hfrmE.1
        · rw [h3, if_neg (by omega), if_pos rfl]
          exact hfrmE.2
      · rw [if_neg (by omega), if_neg (by omega),
          listGetD_append_right (by rw [hok.frm_len]; omega), hok.frm_len]
        obtain ⟨m, hm⟩ : ∃ m, e - fl.eto.length = m + 2 := ⟨e - fl.eto.length - 2, by omega⟩
        rw [hm, listGetD_cons_succ, listGetD_cons_succ]
        rfl
  have hrev : ∀ e, listGetD (fl.rev ++ [fl.eto.length + 1, fl.eto.length]) e 0 =
      if e < fl.eto.length then listGetD fl.rev e 0
      else if e = fl.eto.length then fl.eto.length + 1
      else if e = fl.eto.length + 1 then fl.eto.length else 0 := by
    intro e
    rcases Nat.lt_or_ge e fl.eto.length with h | h
    · rw [listGetD_append_left (by rw [hok.rev_len]; exact h), if_pos h]
    · rw [if_neg (by omega)]
      rcases Nat.lt_or_ge e (fl.eto.length + 2) with h2 | h2
      · rcases (by omega : e = fl.eto.length ∨ e = fl.eto.length + 1) with h3 | h3
        · rw [h3, if_pos rfl]
          exact hrevE.1
        · rw [h3, if_neg (by omega), if_pos rfl]
          exact hrevE.2
      · rw [if_neg (by omega), if_neg (by omega),
          listGetD_append_right (by rw [hok.rev_len]; omega), hok.rev_len]
        obtain ⟨m, hm⟩ : ∃ m, e - fl.eto.length = m + 2 := ⟨e - fl.eto.length - 2, by omega⟩
        rw [hm, listGetD_cons_succ, listGetD_cons_succ]
        rfl
  refine ⟨?_, ?_, ?_, ?_, ?_, ?_, ?_, ?_, ?_, ?_, ?_, ?_, ?_, ?_⟩
  · show (fl.frm ++ [u, v]).length = (fl.eto ++ [v, u]).length
    simp [hok.frm_len]
  · show (fl.rev ++ [fl.eto.length + 1, fl.eto.length]).length = (fl.eto ++ [v, u]).length
    simp [hok.rev_len]
  · show (fl.baseCap ++ [c, 0]).length = (fl.eto ++ [v, u]).length
    simp [hok.cap_len]
  · show (listSet (listSet fl.adj u _) v _).length = fl.n
    rw [listSet_length, listSet_length]
    exact hok.adj_len
  · show (listSet (listSet fl.inAdj v _) u _).length = fl.n
    rw [listSet_length, listSet_length]
    exact hok.inAdj_len
  · intro e he
    rw [hE2, hlen] at he
    rw [hE2, hn2, heto e]
    split
    · next h => exact hok.eto_lt e h
    · split
      · exact hv
      · split
        · exact hu
        · omega
  · intro e he
    rw [hE2, hlen] at he
    rw [hF2, hn2, hfrm e]
    split
    · next h => exact hok.frm_lt e h
    · split
      · exact hu
      · split
        · exact hv
        · omega
  · intro e he
    rw [hE2, hlen] at he
    rw [hE2, hR2, hlen, hrev e]
    split
    · next h => have := hok.rev_lt e h; omega
    · split
      · omega
      · split
        · omega
        · omega
  · intro e he
    rw [hE2, hlen] at he
    rw [hR2, hrev e]
    split
    · next h =>
      rw [hrev _]
      rw [if_pos (hok.rev_lt e h)]
      exact hok.rev_rev e h
    · split
      · next h2 =>
        subst h2
        rw [hrev _, if_neg (by omega), if_neg (by omega), if_pos rfl]
      · split
        · next h2 h3 =>
          subst h3
          rw [hrev _, if_neg (by omega), if_pos rfl]
        · next h2 h3 => omega
  · intro e he
    rw [hE2, hlen] at he
    rw [hE2, hF2, hR2, hrev e]
    split
    · next h =>
      rw [hfrm _, heto e, if_pos h, if_pos (hok.rev_lt e h)]
      exact hok.frm_rev e h
    · split
      · next h2 =>
        subst h2
        rw [hfrm _, heto _, if_neg (by omega), if_neg (by omega), if_pos rfl,
          if_neg (by omega), if_pos rfl]
      · split
        · next h2 h3 =>
          subst h3
          rw [hfrm _, heto _, if_neg (by omega), if_pos rfl,
            if_neg (by omega), if_neg (by omega), if_pos rfl]
        · next h2 h3 => omega
  · intro e he
    rw [hE2, hlen] at he
    rw [hE2, hF2, hR2, hrev e]
    split
    · next h =>
      rw [heto _, hfrm e, if_pos h, if_pos (hok.rev_lt e h)]
      exact hok.eto_rev e h
    · split
      · next h2 =>
        subst h2
        rw [heto _, hfrm _, if_neg (by omega), if_neg (by omega), if_pos rfl,
          if_neg (by omega), if_pos rfl]
      · split
        · next h2 h3 =>
          subst h3
          rw [heto _, hfrm _, if_neg (by omega), if_pos rfl,
            if_neg (by omega), if_neg (by omega), if_pos rfl]
        · next h2 h3 => omega
  · intro w e he
    have hinner : ∀ w2, listGetD (listSet fl.adj u (listGetD fl.adj u [] ++ [fl.eto.length])) w2 [] =
        if w2 = u then listGetD fl.adj u [] ++ [fl.eto.length]
        else listGetD fl.adj w2 [] := by
      intro w2
      rw [listGetD_listSet]
      by_cases h : w2 = u
      · rw [if_pos ⟨h, by rw [hok.adj_len]; exact hu⟩, if_pos h]
      · rw [if_neg (fun hc => h hc.1), if_neg h]
    have houter : listGetD (addEdge fl u v c).1.adj w [] =
        if w = v then
          (if v = u then listGetD fl.adj u [] ++ [fl.eto.length]
           else listGetD fl.adj v []) ++ [fl.eto.length + 1]
        else if w = u then listGetD fl.adj u [] ++ [fl.eto.length]
        else listGetD fl.adj w [] := by
      show listGetD (listSet (listSet fl.adj u (listGetD fl.adj u [] ++ [fl.eto.length])) v
        (listGetD (listSet fl.adj u (listGetD fl.adj u [] ++ [fl.eto.length])) v []
          ++ [fl.eto.length + 1])) w [] = _
      rw [listGetD_listSet]
      by_cases h : w = v
      · rw [if_pos ⟨h, by rw [listSet_length, hok.adj_len]; exact hv⟩, if_pos h, hinner v]
      · rw [if_neg (fun hc => h hc.1), if_neg h, hinner w]
    rw [houter] at he
    rw [hE2, hF2, hlen, hfrm e]
    split at he
    · next hwv =>
      rcases List.mem_append.1 he with he | he
      · split at he
        · next hvu =>
          rcases List.mem_append.1 he with he | he
          · obtain ⟨h1, h2⟩ := hok.adj_mem u e he
            rw [if_pos h1]
            exact ⟨by omega, by omega⟩
          · rw [List.mem_singleton] at he
            subst he
            rw [if_neg (by omega), if_pos rfl]
            exact ⟨by omega, by omega⟩
        · obtain ⟨h1, h2⟩ := hok.adj_mem v e he
          rw [if_pos h1]
          exact ⟨by omega, by omega⟩
      · rw [List.mem_singleton] at he
        subst he
        rw [if_neg (by omega), if_neg (by omega), if_pos rfl]
        exact ⟨by omega, by omega⟩
    · next hwv =>
      split at he
      · next hwu =>
        rcases List.mem_append.1 he with he | he
        · obtain ⟨h1, h2⟩ := hok.adj_mem u e he
          rw [if_pos h1]
          exact ⟨by omega, by omega⟩
        · rw [List.mem_singleton] at he
          subst he
          rw [if_neg (by omega), if_pos rfl]
          exact ⟨by omega, by omega⟩
      · obtain ⟨h1, h2⟩ := hok.adj_mem w e he
        rw [if_pos h1]
        exact ⟨by omega, h2⟩
  · intro w e he
    have hinner : ∀ w2, listGetD (listSet fl.inAdj v (listGetD fl.inAdj v [] ++ [fl.eto.length])) w2 [] =
        if w2 = v then listGetD fl.inAdj v [] ++ [fl.eto.length]
        else listGetD fl.inAdj w2 [] := by
      intro w2
      rw [listGetD_listSet]
      by_cases h : w2 = v
      · rw [if_pos ⟨h, by rw [hok.inAdj_len]; exact hv⟩, if_pos h]
      · rw [if_neg (fun hc => h hc.1), if_neg h]
    have houter : listGetD (addEdge fl u v c).1.inAdj w [] =
        if w = u then
          (if u = v then listGetD fl.inAdj v [] ++ [fl.eto.length]
           else listGetD fl.inAdj u []) ++ [fl.eto.length + 1]
        else if w = v then listGetD fl.inAdj v [] ++ [fl.eto.length]
        else listGetD fl.inAdj w [] := by
      show listGetD (listSet (listSet fl.inAdj v (listGetD fl.inAdj v [] ++ [fl.eto.length])) u
        (listGetD (listSet fl.inAdj v (listGetD fl.inAdj v [] ++ [fl.eto.length])) u []
          ++ [fl.eto.length + 1])) w [] = _
      rw [listGetD_listSet]
      by_cases h : w = u
      · rw [if_pos ⟨h, by rw [listSet_length, hok.inAdj_len]; exact hu⟩, if_pos h, hinner u]
      · rw [if_neg (fun hc => h hc.1), if_neg h, hinner w]
    rw [houter] at he
    rw [hE2, hlen, heto e]
    split at he
    · next hwu =>
      rcases List.mem_append.1 he with he | he
      · split at he
        · next huv =>
          rcases List.mem_append.1 he with he | he
          · obtain ⟨h1, h2⟩ := hok.inAdj_mem v e he
            rw [if_pos h1]
            exact ⟨by omega, by omega⟩
          · rw [List.mem_singleton] at he
            subst he
            rw [if_neg (by omega), if_pos rfl]
            exact ⟨by omega, by omega⟩
        · obtain ⟨h1, h2⟩ := hok.inAdj_mem u e he
          rw [if_pos h1]
          exact ⟨by omega, by omega⟩
      · rw [List.mem_singleton] at he
        subst he
        rw [if_neg (by omega), if_neg (by omega), if_pos rfl]
        exact ⟨by omega, by omega⟩
    · next hwu =>
      split at he
      · next hwv =>
        rcases List.mem_append.1 he with he | he
        · obtain ⟨h1, h2⟩ := hok.inAdj_mem v e he
          rw [if_pos h1]
          exact ⟨by omega, by omega⟩
        · rw [List.mem_singleton] at he
          subst he
          rw [if_neg (by omega), if_pos rfl]
          exact ⟨by omega, by omega⟩
      · obtain ⟨h1, h2⟩ := hok.inAdj_mem w e he
        rw [if_pos h1]
        exact ⟨by omega, h2⟩
  · intro e he
    rw [hE2, hlen] at he
    have hinner : ∀ w2, listGetD (listSet fl.inAdj v (listGetD fl.inAdj v [] ++ [fl.eto.length])) w2 [] =
        if w2 = v then listGetD fl.inAdj v [] ++ [fl.eto.length]
        else listGetD fl.inAdj w2 [] := by
      intro w2
      rw [listGetD_listSet]
      by_cases h : w2 = v
      · rw [if_pos ⟨h, by rw [hok.inAdj_len]; exact hv⟩, if_pos h]
      · rw [if_neg (fun hc => h hc.1), if_neg h]
    have houter : ∀ w, listGetD (addEdge fl u v c).1.inAdj w [] =
        if w = u then
          (if u = v then listGetD fl.inAdj v [] ++ [fl.eto.length]
           else listGetD fl.inAdj u []) ++ [fl.eto.length + 1]
        else if w = v then listGetD fl.inAdj v [] ++ [fl.eto.length]
        else listGetD fl.inAdj w [] := by
      intro w
      show listGetD (listSet (listSet fl.inAdj v (listGetD fl.inAdj v [] ++ [fl.eto.length])) u
        (listGetD (listSet fl.inAdj v (listGetD fl.inAdj v [] ++ [fl.eto.length])) u []
          ++ [fl.eto.length + 1])) w [] = _
      rw [listGetD_listSet]
      by_cases h : w = u
      · rw [if_pos ⟨h, by rw [listSet_length, hok.inAdj_len]; exact hu⟩, if_pos h, hinner u]
      · rw [if_neg (fun hc => h hc.1), if_neg h, hinner w]
    rw [hE2, heto e]
    rcases Nat.lt_or_ge e fl.eto.length with h | h
    · rw [if_pos h, houter]
      have hold := hok.inAdj_complete e h
      split
      · next hwu =>
        split
        · next huv =>
          refine List.mem_append.2 (Or.inl (List.mem_append.2 (Or.inl ?_)))
          rw [hwu, huv] at hold
          exact hold
        · refine List.mem_append.2 (Or.inl ?_)
          rw [hwu] at hold
          exact hold
      · next hwu =>
        split
        · next hwv =>
          refine List.mem_append.2 (Or.inl ?_)
          rw [hwv] at hold
          exact hold
        · exact hold
    · rcases (by omega : e = fl.eto.length ∨ e = fl.eto.length + 1) with h3 | h3
      · subst h3
        rw [if_neg (by omega), if_pos rfl, houter]
        split
        · next hvu =>
          refine List.mem_append.2 (Or.inl ?_)
          rw [if_pos hvu.symm]
          exact List.mem_append.2 (Or.inr (List.mem_singleton.2 rfl))
        · rw [if_pos rfl]
          exact List.mem_append.2 (Or.inr (List.mem_singleton.2 rfl))
      · subst h3
        rw [if_neg (by omega), if_neg (by omega), if_pos rfl, houter]
        rw [if_pos rfl]
        exact List.mem_append.2 (Or.inr (List.mem_singleton.2 rfl))


theorem listGetD_ge {α : Type} {d : α} :
    ∀ {l : List α} {i : Nat}, l.length ≤ i → listGetD l i d = d := by
  intro l
  induction l with
  | nil => intro i _; rfl
  | cons a rest ih =>
    intro i h
    cases i with
    | zero => simp at h
    | succ i =>
      rw [listGetD_cons_succ]
      exact ih (by simpa using h)

/-- Adjacency entries of a built graph are genuine dense indices. -/
theorem buildGraph_adj_lt {g : Grid} {G : Graph} (hb : buildGraph g = Except.ok G) :
    ∀ i j, j ∈ listGetD G.adj i [] → j < G.N := by
  intro i j hj
  obtain ⟨-, -, -, -, hadj, -⟩ := buildGraph_ok_spec hb
  rcases Nat.lt_or_ge i G.coords.length with hi | hi
  · rw [hadj, listGetD_map (adjOf G.coords) (0, 0) [] hi] at hj
    exact mem_adjOf_lt hj
  · rw [hadj, listGetD_ge (by simpa using hi)] at hj
    cases hj

theorem buildNetwork_flowOk (G : Graph) (k : Int)
    (hGadj : ∀ i j, j ∈ listGetD G.adj i [] → j < G.N) :
    FlowOk (buildNetwork G k).flow ∧ (buildNetwork G k).flow.n = 2 * G.N + 2 := by
  have hinit : FlowOk (FlowT.init (2 * G.N + 2)) ∧
      (FlowT.init (2 * G.N + 2)).n = 2 * G.N + 2 :=
    ⟨flowOk_init _, rfl⟩
  have h1 := foldl_preserve
    (P := fun (acc : FlowT × List Nat) => FlowOk acc.1 ∧ acc.1.n = 2 * G.N + 2)
    (fun (acc : FlowT × List Nat) i =>
      ((addEdge acc.1 (2 * i) (2 * i + 1)
          (if i = horseIdx ∨ listGetD G.wallable i false = false then k + 1 else 1)).1,
       acc.2 ++ [(addEdge acc.1 (2 * i) (2 * i + 1)
          (if i = horseIdx ∨ listGetD G.wallable i false = false then k + 1 else 1)).2]))
    (List.range G.N) (FlowT.init (2 * G.N + 2), []) hinit
    (by
      intro a i hi ha
      have hiN : i < G.N := List.mem_range.1 hi
      refine ⟨addEdge_flowOk ha.1 ?_ ?_, ha.2⟩ <;> rw [ha.2] <;> omega)
  have h2 := foldl_preserve
    (P := fun f => FlowOk f ∧ f.n = 2 * G.N + 2)
    (fun f i => (listGetD G.adj i []).foldl
      (fun f j => (addEdge f (2 * i + 1) (2 * j) (k + 1)).1) f)
    (List.range G.N) _ h1
    (by
      intro a i hi ha
      have hiN : i < G.N := List.mem_range.1 hi
      refine foldl_preserve (P := fun f => FlowOk f ∧ f.n = 2 * G.N + 2) _
        (listGetD G.adj i []) a ha ?_
      intro a2 j hj ha2
      have hjN : j < G.N := hGadj i j hj
      refine ⟨addEdge_flowOk ha2.1 ?_ ?_, ha2.2⟩ <;> rw [ha2.2] <;> omega)
  have h3 := foldl_preserve
    (P := fun f => FlowOk f ∧ f.n = 2 * G.N + 2)
    (fun f i => if i ∈ G.boundary then (addEdge f (2 * i + 1) (2 * G.N + 1) (k + 1)).1 else f)
    (List.range G.N) _ h2
    (by
      intro a i hi ha
      have hiN : i < G.N := List.mem_range.1 hi
      show FlowOk (if i ∈ G.boundary then (addEdge a (2 * i + 1) (2 * G.N + 1) (k + 1)).1 else a) ∧
        (if i ∈ G.boundary then (addEdge a (2 * i + 1) (2 * G.N + 1) (k + 1)).1 else a).n =
          2 * G.N + 2
      split
      · refine ⟨addEdge_flowOk ha.1 ?_ ?_, ha.2⟩ <;> rw [ha.2] <;> omega
      · exact ha)
  have h4 := foldl_preserve
    (P := fun (acc : FlowT × List Nat) => FlowOk acc.1 ∧ acc.1.n = 2 * G.N + 2)
    (fun (acc : FlowT × List Nat) i =>
      ((addEdge acc.1 (2 * G.N) (2 * i + 1) (if i = horseIdx then k + 1 else 0)).1,
       acc.2 ++ [(addEdge acc.1 (2 * G.N) (2 * i + 1) (if i = horseIdx then k + 1 else 0)).2]))
    (List.range G.N) (_, []) h3
    (by
      intro a i hi ha
      have hiN : i < G.N := List.mem_range.1 hi
      refine ⟨addEdge_flowOk ha.1 ?_ ?_, ha.2⟩ <;> rw [ha.2] <;> omega)
  exact h4


/-- The base-array facts about the network template that survive every later
`add_edge`: length bookkeeping and the cell-edge entries laid down by the
first pass (edge id `2*i` for cell `i`, endpoints `in(i) → out(i)`, capacity
`INF` or `1`). -/
def NetBase (G : Graph) (k : Int) (f : FlowT) : Prop :=
  f.frm.length = f.eto.length ∧ f.baseCap.length = f.eto.length ∧
  2 * G.N ≤ f.eto.length ∧
  ∀ i, i < G.N →
    listGetD f.frm (2 * i) 0 = 2 * i ∧
    listGetD f.eto (2 * i) 0 = 2 * i + 1 ∧
    listGetD f.baseCap (2 * i) 0 =
      (if i = horseIdx ∨ listGetD G.wallable i false = false then k + 1 else 1)

theorem addEdge_keeps {G : Graph} {k : Int} {f : FlowT} (u v : Nat) (c : Int)
    (hf : NetBase G k f) : NetBase G k (addEdge f u v c).1 := by
  obtain ⟨h1, h2, h3, h4⟩ := hf
  refine ⟨?_, ?_, ?_, ?_⟩
  · show (f.frm ++ [u, v]).length = (f.eto ++ [v, u]).length
    simp [h1]
  · show (f.baseCap ++ [c, 0]).length = (f.eto ++ [v, u]).length
    simp [h2]
  · show 2 * G.N ≤ (f.eto ++ [v, u]).length
    simp
    omega
  · intro i hi
    obtain ⟨e1, e2, e3⟩ := h4 i hi
    refine ⟨?_, ?_, ?_⟩
    · show listGetD (f.frm ++ [u, v]) (2 * i) 0 = 2 * i
      rw [listGetD_append_left (by omega), e1]
    · show listGetD (f.eto ++ [v, u]) (2 * i) 0 = 2 * i + 1
      rw [listGetD_append_left (by omega), e2]
    · show listGetD (f.baseCap ++ [c, 0]) (2 * i) 0 = _
      rw [listGetD_append_left (by omega), e3]

/-- The first edge pass of `buildNetwork` after `m` cells. -/
def pass1F (G : Graph) (k : Int) (m : Nat) : FlowT × List Nat :=
  (List.range m).foldl
    (fun (acc : FlowT × List Nat) i =>
      ((addEdge acc.1 (2 * i) (2 * i + 1)
          (if i = horseIdx ∨ listGetD G.wallable i false = false then k + 1 else 1)).1,
       acc.2 ++ [(addEdge acc.1 (2 * i) (2 * i + 1)
          (if i = horseIdx ∨ listGetD G.wallable i false = false then k + 1 else 1)).2]))
    (FlowT.init (2 * G.N + 2), [])

theorem pass1F_succ (G : Graph) (k : Int) (m : Nat) :
    pass1F G k (m + 1) =
      ((addEdge (pass1F G k m).1 (2 * m) (2 * m + 1)
          (if m = horseIdx ∨ listGetD G.wallable m false = false then k + 1 else 1)).1,
       (pass1F G k m).2 ++ [(addEdge (pass1F G k m).1 (2 * m) (2 * m + 1)
          (if m = horseIdx ∨ listGetD G.wallable m false = false then k + 1 else 1)).2]) := by
  rw [pass1F, pass1F, List.range_succ, List.foldl_append]
  rfl

theorem pass1F_spec (G : Graph) (k : Int) :
    ∀ m : Nat,
      (pass1F G k m).1.eto.length = 2 * m ∧
      (pass1F G k m).1.frm.length = 2 * m ∧
      (pass1F G k m).1.baseCap.length = 2 * m ∧
      (pass1F G k m).2 = (List.range m).map (fun i => 2 * i) ∧
      ∀ i, i < m →
        listGetD (pass1F G k m).1.frm (2 * i) 0 = 2 * i ∧
        listGetD (pass1F G k m).1.eto (2 * i) 0 = 2 * i + 1 ∧
        listGetD (pass1F G k m).1.baseCap (2 * i) 0 =
          (if i = horseIdx ∨ listGetD G.wallable i false = false then k + 1 else 1) := by
  intro m
  induction m with
  | zero => exact ⟨rfl, rfl, rfl, rfl, fun i hi => absurd hi (Nat.not_lt_zero i)⟩
  | succ m ih =>
    obtain ⟨hl1, hl2, hl3, hidx, hent⟩ := ih
    rw [pass1F_succ]
    have heqE : (addEdge (pass1F G k m).1 (2 * m) (2 * m + 1)
        (if m = horseIdx ∨ listGetD G.wallable m false = false then k + 1 else 1)).1.eto =
        (pass1F G k m).1.eto ++ [2 * m + 1, 2 * m] := rfl
    have heqF : (addEdge (pass1F G k m).1 (2 * m) (2 * m + 1)
        (if m = horseIdx ∨ listGetD G.wallable m false = false then k + 1 else 1)).1.frm =
        (pass1F G k m).1.frm ++ [2 * m, 2 * m + 1] := rfl
    have heqC : (addEdge (pass1F G k m).1 (2 * m) (2 * m + 1)
        (if m = horseIdx ∨ listGetD G.wallable m false = false then k + 1 else 1)).1.baseCap =
        (pass1F G k m).1.baseCap ++
          [(if m = horseIdx ∨ listGetD G.wallable m false = false then k + 1 else 1), 0] := rfl
    have heqI : (addEdge (pass1F G k m).1 (2 * m) (2 * m + 1)
        (if m = horseIdx ∨ listGetD G.wallable m false = false then k + 1 else 1)).2 =
        (pass1F G k m).1.eto.length := rfl
    refine ⟨?_, ?_, ?_, ?_, ?_⟩
    · show ((pass1F G k m).1.eto ++ [2 * m + 1, 2 * m]).length = 2 * (m + 1)
      simp [hl1]
      omega
    · show ((pass1F G k m).1.frm ++ [2 * m, 2 * m + 1]).length = 2 * (m + 1)
      simp [hl2]
      omega
    · show ((pass1F G k m).1.baseCap ++ _).length = 2 * (m + 1)
      simp [hl3]
      omega
    · show (pass1F G k m).2 ++ [(addEdge (pass1F G k m).1 (2 * m) (2 * m + 1) _).2] = _
      rw [heqI, hidx, hl1, List.range_succ, List.map_append]
      rfl
    · intro i hi
      rcases Nat.lt_or_ge i m with him | him
      · obtain ⟨e1, e2, e3⟩ := hent i him
        refine ⟨?_, ?_, ?_⟩
        · show listGetD ((pass1F G k m).1.frm ++ [2 * m, 2 * m + 1]) (2 * i) 0 = 2 * i
          rw [listGetD_append_left (by omega), e1]
        · show listGetD ((pass1F G k m).1.eto ++ [2 * m + 1, 2 * m]) (2 * i) 0 = 2 * i + 1
          rw [listGetD_append_left (by omega), e2]
        · show listGetD ((pass1F G k m).1.baseCap ++ _) (2 * i) 0 = _
          rw [listGetD_append_left (by omega), e3]
      · have him2 : i = m := by omega
        subst him2
        refine ⟨?_, ?_, ?_⟩
        · show listGetD ((pass1F G k i).1.frm ++ [2 * i, 2 * i + 1]) (2 * i) 0 = 2 * i
          exact (listGetD_append_pair 0 _ _ _ hl2).1
        · show listGetD ((pass1F G k i).1.eto ++ [2 * i + 1, 2 * i]) (2 * i) 0 = 2 * i + 1
          exact (listGetD_append_pair 0 _ _ _ hl1).1
        · show listGetD ((pass1F G k i).1.baseCap ++ _) (2 * i) 0 = _
          exact (listGetD_append_pair 0 _ _ _ hl3).1


/-- The source-edge pass of `buildNetwork`, from an arbitrary template. -/
def pass5F (G : Graph) (k : Int) (f4 : FlowT) (m : Nat) : FlowT × List Nat :=
  (List.range m).foldl
    (fun (acc : FlowT × List Nat) i =>
      ((addEdge acc.1 (2 * G.N) (2 * i + 1) (if i = horseIdx then k + 1 else 0)).1,
       acc.2 ++ [(addEdge acc.1 (2 * G.N) (2 * i + 1) (if i = horseIdx then k + 1 else 0)).2]))
    (f4, [])

theorem pass5F_succ (G : Graph) (k : Int) (f4 : FlowT) (m : Nat) :
    pass5F G k f4 (m + 1) =
      ((addEdge (pass5F G k f4 m).1 (2 * G.N) (2 * m + 1)
          (if m = horseIdx then k + 1 else 0)).1,
       (pass5F G k f4 m).2 ++ [(addEdge (pass5F G k f4 m).1 (2 * G.N) (2 * m + 1)
          (if m = horseIdx then k + 1 else 0)).2]) := by
  rw [pass5F, pass5F, List.range_succ, List.foldl_append]
  rfl

theorem pass5F_spec (G : Graph) (k : Int) (f4 : FlowT) (hf : NetBase G k f4) :
    ∀ m : Nat,
      NetBase G k (pass5F G k f4 m).1 ∧
      (pass5F G k f4 m).1.eto.length = f4.eto.length + 2 * m ∧
      (pass5F G k f4 m).2 = (List.range m).map (fun j => f4.eto.length + 2 * j) := by
  intro m
  induction m with
  | zero => exact ⟨hf, by show f4.eto.length = f4.eto.length + 2 * 0; omega, rfl⟩
  | succ m ih =>
    obtain ⟨hb, hl, hidx⟩ := ih
    rw [pass5F_succ]
    have heqE : (addEdge (pass5F G k f4 m).1 (2 * G.N) (2 * m + 1)
        (if m = horseIdx then k + 1 else 0)).1.eto =
        (pass5F G k f4 m).1.eto ++ [2 * m + 1, 2 * G.N] := rfl
    have heqI : (addEdge (pass5F G k f4 m).1 (2 * G.N) (2 * m + 1)
        (if m = horseIdx then k + 1 else 0)).2 = (pass5F G k f4 m).1.eto.length := rfl
    refine ⟨addEdge_keeps _ _ _ hb, ?_, ?_⟩
    · show ((pass5F G k f4 m).1.eto ++ [2 * m + 1, 2 * G.N]).length = f4.eto.length + 2 * (m + 1)
      simp [hl]
      omega
    · show (pass5F G k f4 m).2 ++ [(addEdge (pass5F G k f4 m).1 (2 * G.N) (2 * m + 1) _).2] = _
      rw [heqI, hidx, hl, List.range_succ, List.map_append]
      rfl

theorem buildNetwork_arrays (G : Graph) (k : Int) :
    NetBase G k (buildNetwork G k).flow ∧
    (buildNetwork G k).cellEdgeIdx = (List.range G.N).map (fun i => 2 * i) ∧
    ∃ L, 2 * G.N ≤ L ∧
      (buildNetwork G k).srcEdgeIdx = (List.range G.N).map (fun j => L + 2 * j) := by
  obtain ⟨hl1, hl2, hl3, hidx, hent⟩ := pass1F_spec G k G.N
  have hbase1 : NetBase G k (pass1F G k G.N).1 := by
    refine ⟨by omega, by omega, by omega, hent⟩
  have h2 := foldl_preserve (P := NetBase G k)
    (fun f i => (listGetD G.adj i []).foldl
      (fun f j => (addEdge f (2 * i + 1) (2 * j) (k + 1)).1) f)
    (List.range G.N) (pass1F G k G.N).1 hbase1
    (by
      intro a i _ ha
      refine foldl_preserve (P := NetBase G k) _ (listGetD G.adj i []) a ha ?_
      intro a2 j _ ha2
      exact addEdge_keeps _ _ _ ha2)
  have h3 := foldl_preserve (P := NetBase G k)
    (fun f i => if i ∈ G.boundary then (addEdge f (2 * i + 1) (2 * G.N + 1) (k + 1)).1 else f)
    (List.range G.N) _ h2
    (by
      intro a i _ ha
      show NetBase G k (if i ∈ G.boundary then (addEdge a (2 * i + 1) (2 * G.N + 1) (k + 1)).1 else a)
      split
      · exact addEdge_keeps _ _ _ ha
      · exact ha)
  obtain ⟨h5base, h5len, h5idx⟩ := pass5F_spec G k _ h3 G.N
  exact ⟨h5base, hidx, _, h3.2.2.1, h5idx⟩


/-! ## Conservation of the augmenting loop -/

/-- A chain of edge ids from `u` to `v`: each edge is in range, leaves the
current node by `frm` and moves to its `eto` endpoint. -/
def EPath (fl : FlowT) : Nat → List Nat → Nat → Prop
  | u, [], v => u = v
  | u, e :: rest, v => e < fl.eto.length ∧ listGetD fl.frm e 0 = u ∧
      EPath fl (listGetD fl.eto e 0) rest v

theorem EPath_append {fl : FlowT} :
    ∀ {p : List Nat} {u v : Nat} {q : List Nat} {w : Nat},
      EPath fl u p v → EPath fl v q w → EPath fl u (p ++ q) w := by
  intro p
  induction p with
  | nil =>
    intro u v q w hp hq
    have hp2 : u = v := hp
    subst hp2
    exact hq
  | cons e rest ih =>
    intro u v q w hp hq
    obtain ⟨h1, h2, h3⟩ := hp
    exact ⟨h1, h2, ih h3 hq⟩

/-- The per-edge difference of two capacity vectors (the flow pushed between
the two snapshots). -/
def phiD (capA capB : List Int) (e : Nat) : Int :=
  listGetD capA e 0 - listGetD capB e 0

/-- Twice the net flow out of `v` between two capacity snapshots: the flow on
edges leaving `v` minus the flow on edges entering `v`. -/
def netDelta (fl : FlowT) (capA capB : List Int) (v : Nat) : Int :=
  ((Finset.range fl.eto.length).filter
      (fun e => listGetD fl.frm e 0 = v)).sum (phiD capA capB) -
  ((Finset.range fl.eto.length).filter
      (fun e => listGetD fl.eto e 0 = v)).sum (phiD capA capB)

theorem netDelta_self (fl : FlowT) (cap : List Int) (v : Nat) :
    netDelta fl cap cap v = 0 := by
  rw [netDelta]
  simp [phiD]

theorem netDelta_tri (fl : FlowT) (a b c : List Int) (v : Nat) :
    netDelta fl a c v = netDelta fl a b v + netDelta fl b c v := by
  have hsplit : ∀ s : Finset Nat,
      s.sum (phiD a c) = s.sum (phiD a b) + s.sum (phiD b c) := by
    intro s
    rw [← Finset.sum_add_distrib]
    refine Finset.sum_congr rfl ?_
    intro e _
    rw [phiD, phiD, phiD]
    ring
  rw [netDelta, netDelta, netDelta, hsplit, hsplit]
  ring

theorem augmentEdge_length (fl : FlowT) (cap : List Int) (e : Nat) :
    (augmentEdge fl cap e).length = cap.length := by
  show (listSet (listSet cap e (listGetD cap e 0 - 1)) (listGetD fl.rev e 0)
    (listGetD (listSet cap e (listGetD cap e 0 - 1)) (listGetD fl.rev e 0) 0 + 1)).length =
      cap.length
  rw [listSet_length, listSet_length]

theorem augmentPath_length (fl : FlowT) :
    ∀ (p : List Nat) (cap : List Int), (augmentPath fl cap p).length = cap.length := by
  intro p
  induction p with
  | nil => intro cap; rfl
  | cons e rest ih =>
    intro cap
    rw [show augmentPath fl cap (e :: rest) =
      augmentPath fl (augmentEdge fl cap e) rest from rfl]
    rw [ih, augmentEdge_length]

theorem augmentEdge_getD {fl : FlowT} {cap : List Int} {e : Nat}
    (he : e < cap.length) (hrev : listGetD fl.rev e 0 < cap.length) :
    ∀ x, listGetD (augmentEdge fl cap e) x 0 =
      listGetD cap x 0 - (if x = e then 1 else 0) +
        (if x = listGetD fl.rev e 0 then 1 else 0) := by
  intro x
  show listGetD (listSet (listSet cap e (listGetD cap e 0 - 1)) (listGetD fl.rev e 0)
    (listGetD (listSet cap e (listGetD cap e 0 - 1)) (listGetD fl.rev e 0) 0 + 1)) x 0 = _
  simp only [listGetD_listSet, listSet_length]
  by_cases hxe : x = e
  · subst hxe
    by_cases hre : listGetD fl.rev x 0 = x
    · simp [hre, he]
    · have hre2 : ¬ (x = listGetD fl.rev x 0) := fun h => hre h.symm
      simp [hre, hre2, he]
  · by_cases hxr : x = listGetD fl.rev e 0
    · subst hxr
      have hre2 : ¬ (listGetD fl.rev e 0 = e) := fun h => hxe h
      simp [he, hrev, hre2, hxe]
    · simp [hxe, hxr]

theorem netDelta_augmentEdge {fl : FlowT} (hok : FlowOk fl) {cap : List Int}
    (hlen : cap.length = fl.eto.length) {e : Nat} (he : e < fl.eto.length) :
    ∀ v, netDelta fl cap (augmentEdge fl cap e) v =
      2 * ((if listGetD fl.frm e 0 = v then 1 else 0) -
        (if listGetD fl.eto e 0 = v then 1 else 0)) := by
  intro v
  have hphi : ∀ x, phiD cap (augmentEdge fl cap e) x =
      (if x = e then 1 else 0) - (if x = listGetD fl.rev e 0 then 1 else 0) := by
    intro x
    rw [phiD, augmentEdge_getD (by omega) (by rw [hlen]; exact hok.rev_lt e he)]
    ring
  have hsum : ∀ s : Finset Nat, s.sum (phiD cap (augmentEdge fl cap e)) =
      (if e ∈ s then (1 : Int) else 0) -
        (if listGetD fl.rev e 0 ∈ s then (1 : Int) else 0) := by
    intro s
    rw [show s.sum (phiD cap (augmentEdge fl cap e)) =
      s.sum (fun x => (if x = e then (1 : Int) else 0) -
        (if x = listGetD fl.rev e 0 then (1 : Int) else 0)) from
      Finset.sum_congr rfl (fun x _ => hphi x)]
    rw [Finset.sum_sub_distrib]
    simp [Finset.sum_ite_eq']
  rw [netDelta, hsum, hsum]
  have hmem1 : e ∈ (Finset.range fl.eto.length).filter
      (fun x => listGetD fl.frm x 0 = v) ↔ listGetD fl.frm e 0 = v := by
    rw [Finset.mem_filter, Finset.mem_range]
    exact ⟨fun h => h.2, fun h => ⟨he, h⟩⟩
  have hmem2 : e ∈ (Finset.range fl.eto.length).filter
      (fun x => listGetD fl.eto x 0 = v) ↔ listGetD fl.eto e 0 = v := by
    rw [Finset.mem_filter, Finset.mem_range]
    exact ⟨fun h => h.2, fun h => ⟨he, h⟩⟩
  have hmem3 : listGetD fl.rev e 0 ∈ (Finset.range fl.eto.length).filter
      (fun x => listGetD fl.frm x 0 = v) ↔ listGetD fl.eto e 0 = v := by
    rw [Finset.mem_filter, Finset.mem_range, hok.frm_rev e he]
    exact ⟨fun h => h.2, fun h => ⟨hok.rev_lt e he, h⟩⟩
  have hmem4 : listGetD fl.rev e 0 ∈ (Finset.range fl.eto.length).filter
      (fun x => listGetD fl.eto x 0 = v) ↔ listGetD fl.frm e 0 = v := by
    rw [Finset.mem_filter, Finset.mem_range, hok.eto_rev e he]
    exact ⟨fun h => h.2, fun h => ⟨hok.rev_lt e he, h⟩⟩
  by_cases h1 : listGetD fl.frm e 0 = v <;> by_cases h2 : listGetD fl.eto e 0 = v <;>
    simp [hmem1, hmem2, hmem3, hmem4, h1, h2] <;> ring

theorem netDelta_augmentPath {fl : FlowT} (hok : FlowOk fl) :
    ∀ (p : List Nat) (cap : List Int) (u w : Nat), cap.length = fl.eto.length →
      EPath fl u p w →
      ∀ v, netDelta fl cap (augmentPath fl cap p) v =
        2 * ((if u = v then 1 else 0) - (if w = v then 1 else 0)) := by
  intro p
  induction p with
  | nil =>
    intro cap u w hlen hp v
    have hp2 : u = w := hp
    subst hp2
    rw [show augmentPath fl cap [] = cap from rfl, netDelta_self]
    ring
  | cons e rest ih =>
    intro cap u w hlen hp v
    obtain ⟨he, hfrm, hrest⟩ := hp
    have h1 := netDelta_augmentEdge hok hlen he v
    have h2 := ih (augmentEdge fl cap e) (listGetD fl.eto e 0) w
      (by rw [augmentEdge_length, hlen]) hrest v
    rw [show augmentPath fl cap (e :: rest) =
      augmentPath fl (augmentEdge fl cap e) rest from rfl]
    rw [netDelta_tri fl cap (augmentEdge fl cap e) _ v, h1, h2, hfrm]
    ring


/-- Soundness of the stored parent paths: every discovered node's recorded
path is a real edge chain from the source. -/
def DiscOk (fl : FlowT) (s : Nat) (disc : List (Option (List Nat))) : Prop :=
  ∀ v p, listGetD disc v none = some p → EPath fl s p v

theorem bfsEdges_disc {fl : FlowT} (hok : FlowOk fl) {s t : Nat} {cap : List Int}
    {u : Nat} {pathU : List Nat} (hu : EPath fl s pathU u) :
    ∀ (es : List Nat) (disc : List (Option (List Nat))) (pushed : List Nat),
      (∀ e, e ∈ es → e < fl.eto.length ∧ listGetD fl.frm e 0 = u) →
      DiscOk fl s disc → disc.length = fl.n →
      DiscOk fl s (bfsEdges fl cap t pathU es disc pushed).1 ∧
      (∀ w q, listGetD disc w none = some q →
        listGetD (bfsEdges fl cap t pathU es disc pushed).1 w none = some q) ∧
      (∀ w, w ∈ (bfsEdges fl cap t pathU es disc pushed).2.1 → w ∈ pushed ∨
        ∃ q, listGetD (bfsEdges fl cap t pathU es disc pushed).1 w none = some q) ∧
      (bfsEdges fl cap t pathU es disc pushed).1.length = fl.n := by
  intro es
  induction es with
  | nil =>
    intro disc pushed _ hdisc hdl
    exact ⟨hdisc, fun w q h => h, fun w hw => Or.inl hw, hdl⟩
  | cons e rest ih =>
    intro disc pushed hes hdisc hdl
    obtain ⟨heE, hefrm⟩ := hes e (List.mem_cons_self _ _)
    have hrest : ∀ e2, e2 ∈ rest → e2 < fl.eto.length ∧ listGetD fl.frm e2 0 = u :=
      fun e2 h2 => hes e2 (List.mem_cons_of_mem e h2)
    rw [bfsEdges]
    split
    · exact ih disc pushed hrest hdisc hdl
    · cases hd : listGetD disc (listGetD fl.eto e 0) none with
      | some p =>
        simp only [hd]
        exact ih disc pushed hrest hdisc hdl
      | none =>
        simp only [hd]
        have hvn : listGetD fl.eto e 0 < fl.n := hok.eto_lt e heE
        have hstep : EPath fl s (pathU ++ [e]) (listGetD fl.eto e 0) :=
          EPath_append hu ⟨heE, hefrm, rfl⟩
        have hd2 : DiscOk fl s
            (listSet disc (listGetD fl.eto e 0) (some (pathU ++ [e]))) := by
          intro w q hq
          rw [listGetD_listSet] at hq
          split at hq
          · next hc =>
            cases hq
            rw [hc.1]
            exact hstep
          · exact hdisc w q hq
        have hmono2 : ∀ w q, listGetD disc w none = some q →
            listGetD (listSet disc (listGetD fl.eto e 0) (some (pathU ++ [e]))) w none =
              some q := by
          intro w q hq
          rw [listGetD_listSet]
          split
          · next hc =>
            rw [hc.1] at hq
            rw [hd] at hq
            cases hq
          · exact hq
        have hl2 : (listSet disc (listGetD fl.eto e 0) (some (pathU ++ [e]))).length =
            fl.n := by rw [listSet_length, hdl]
        have hsome : listGetD (listSet disc (listGetD fl.eto e 0)
            (some (pathU ++ [e]))) (listGetD fl.eto e 0) none = some (pathU ++ [e]) := by
          rw [listGetD_listSet, if_pos ⟨rfl, by rw [hdl]; exact hvn⟩]
        split
        · exact ⟨hd2, hmono2, fun w hw => absurd hw (List.not_mem_nil w), hl2⟩
        · obtain ⟨ih1, ih2, ih3, ih4⟩ := ih
            (listSet disc (listGetD fl.eto e 0) (some (pathU ++ [e])))
            (pushed ++ [listGetD fl.eto e 0]) hrest hd2 hl2
          refine ⟨ih1, ?_, ?_, ih4⟩
          · intro w q hq
            exact ih2 w q (hmono2 w q hq)
          · intro w hw
            rcases ih3 w hw with hw2 | hw2
            · rcases List.mem_append.1 hw2 with hw3 | hw3
              · exact Or.inl hw3
              · rw [List.mem_singleton] at hw3
                subst hw3
                exact Or.inr ⟨pathU ++ [e], ih2 _ _ hsome⟩
            · exact Or.inr hw2

theorem bfsFlow_disc {fl : FlowT} (hok : FlowOk fl) {s : Nat} (t : Nat) (cap : List Int) :
    ∀ (fuel : Nat) (disc : List (Option (List Nat))) (queue : List Nat),
      DiscOk fl s disc → disc.length = fl.n →
      (∀ u, u ∈ queue → ∃ q, listGetD disc u none = some q) →
      DiscOk fl s (bfsFlow fl cap t fuel disc queue) := by
  intro fuel
  induction fuel with
  | zero => intro disc queue hdisc _ _; exact hdisc
  | succ fuel ih =>
    intro disc queue hdisc hdl hq
    cases queue with
    | nil => exact hdisc
    | cons u rest =>
      rw [bfsFlow]
      cases hdt : listGetD disc t none with
      | some p =>
        simp only [hdt]
        exact hdisc
      | none =>
        simp only [hdt]
        obtain ⟨pu, hpu⟩ := hq u (List.mem_cons_self _ _)
        have hupath : EPath fl s ((listGetD disc u none).getD []) u := by
          rw [hpu]
          exact hdisc u pu hpu
        have hadj : ∀ e, e ∈ listGetD fl.adj u [] →
            e < fl.eto.length ∧ listGetD fl.frm e 0 = u :=
          fun e he => hok.adj_mem u e he
        rcases hbe : bfsEdges fl cap t ((listGetD disc u none).getD [])
            (listGetD fl.adj u []) disc [] with ⟨disc2, pushed, found⟩
        obtain ⟨hd2, hmono, hpsh, hl2⟩ :=
          bfsEdges_disc hok hupath (listGetD fl.adj u []) disc [] hadj hdisc hdl
        rw [hbe] at hd2 hmono hpsh hl2
        cases found with
        | true =>
          simp only [hbe]
          exact hd2
        | false =>
          simp only [hbe]
          refine ih disc2 (rest ++ pushed) hd2 hl2 ?_
          intro w hw
          rcases List.mem_append.1 hw with hw | hw
          · obtain ⟨q, hq2⟩ := hq w (List.mem_cons_of_mem u hw)
            exact ⟨q, hmono w q hq2⟩
          · rcases hpsh w hw with hw2 | hw2
            · exact absurd hw2 (List.not_mem_nil w)
            · exact hw2

/-- Conservation of the augmenting loop: the final capacities differ from the
initial ones by a circulation pushing `flow` units from `s` to `t`, and the
flow counter never decreases. -/
theorem maxflowLoop_net {fl : FlowT} (hok : FlowOk fl) {s : Nat} (t : Nat) (hsn : s < fl.n) :
    ∀ (fuel : Nat) (cap : List Int) (fc : Int), cap.length = fl.eto.length →
      (maxflowLoop fl s t fuel cap fc).1.length = fl.eto.length ∧
      fc ≤ (maxflowLoop fl s t fuel cap fc).2 ∧
      ∀ v, netDelta fl cap (maxflowLoop fl s t fuel cap fc).1 v =
        2 * ((maxflowLoop fl s t fuel cap fc).2 - fc) *
          ((if s = v then 1 else 0) - (if t = v then 1 else 0)) := by
  intro fuel
  induction fuel with
  | zero =>
    intro cap fc hlen
    refine ⟨hlen, le_refl _, ?_⟩
    intro v
    rw [show maxflowLoop fl s t 0 cap fc = (cap, fc) from rfl]
    rw [netDelta_self]
    ring
  | succ fuel ih =>
    intro cap fc hlen
    rw [maxflowLoop]
    cases hdt : listGetD (bfsFlow fl cap t (fl.n + 1)
        (listSet (List.replicate fl.n (none : Option (List Nat))) s (some [])) [s])
        t none with
    | none =>
      simp only [hdt]
      refine ⟨hlen, le_refl _, ?_⟩
      intro v
      rw [netDelta_self]
      ring
    | some path =>
      simp only [hdt]
      have hd0 : DiscOk fl s
          (listSet (List.replicate fl.n (none : Option (List Nat))) s (some [])) := by
        intro w q hq
        rw [listGetD_listSet] at hq
        split at hq
        · next hc =>
          cases hq
          rw [hc.1]
          rfl
        · rw [listGetD_replicate] at hq
          cases hq
      have hdisc := bfsFlow_disc hok t cap (fl.n + 1)
        (listSet (List.replicate fl.n (none : Option (List Nat))) s (some [])) [s] hd0
        (by rw [listSet_length, List.length_replicate])
        (by
          intro w hw
          rw [List.mem_singleton] at hw
          subst hw
          refine ⟨[], ?_⟩
          rw [listGetD_listSet, if_pos ⟨rfl, by rw [List.length_replicate]; exact hsn⟩])
      have hpath : EPath fl s path t := hdisc t path hdt
      obtain ⟨ihl, ihle, ihnet⟩ := ih (augmentPath fl cap path) (fc + 1)
        (by rw [augmentPath_length, hlen])
      refine ⟨ihl, by omega, ?_⟩
      intro v
      rw [netDelta_tri fl cap (augmentPath fl cap path) _ v,
        netDelta_augmentPath hok path cap s t hlen hpath v, ihnet v]
      ring


theorem mem_residNbrs {fl : FlowT} {cap : List Int} {v b : Nat} :
    b ∈ residNbrs fl cap v ↔ ∃ e, e ∈ listGetD fl.inAdj v [] ∧
      0 < listGetD cap e 0 ∧ listGetD fl.frm e 0 = b := by
  rw [residNbrs, List.mem_filterMap]
  constructor
  · rintro ⟨e, he, hf⟩
    by_cases hc : 0 < listGetD cap e 0
    · rw [if_pos hc] at hf
      exact ⟨e, he, hc, Option.some.inj hf⟩
    · rw [if_neg hc] at hf
      cases hf
  · rintro ⟨e, he, hc, hb⟩
    exact ⟨e, he, by rw [if_pos hc, hb]⟩

theorem can_subset_range {fl : FlowT} (hok : FlowOk fl) {t : Nat} (htn : t < fl.n)
    (cap : List Int) (m : Nat) :
    sat (residNbrs fl cap) m {t} ⊆ Finset.range fl.n := by
  refine sat_subset_carrier ?_ m {t} ?_
  · intro a _ b hb
    obtain ⟨e, he, -, hfrm⟩ := mem_residNbrs.1 hb
    have h2 := hok.inAdj_mem a e he
    rw [← hfrm]
    exact Finset.mem_range.2 (hok.frm_lt e h2.1)
  · intro x hx
    rw [Finset.mem_singleton] at hx
    subst hx
    exact Finset.mem_range.2 htn

/-- The residual reverse scan is closed: a positive-capacity edge into a
reachable node makes its tail reachable. -/
theorem can_closure {fl : FlowT} (hok : FlowOk fl) {t : Nat} (htn : t < fl.n)
    {capF : List Int} {e : Nat} (heE : e < fl.eto.length)
    (hcan : listGetD fl.eto e 0 ∈ sat (residNbrs fl capF) fl.n {t})
    (hcap : 0 < listGetD capF e 0) :
    listGetD fl.frm e 0 ∈ sat (residNbrs fl capF) fl.n {t} := by
  have hstay : ∀ a ∈ Finset.range fl.n, ∀ b2 ∈ residNbrs fl capF a,
      b2 ∈ Finset.range fl.n := by
    intro a _ b hb
    obtain ⟨e2, he2, -, hfrm⟩ := mem_residNbrs.1 hb
    rw [← hfrm]
    exact Finset.mem_range.2 (hok.frm_lt e2 (hok.inAdj_mem a e2 he2).1)
  have hclosed := satStep_sat_card (s := {t}) (U := Finset.range fl.n)
    (by
      intro x hx
      rw [Finset.mem_singleton] at hx
      subst hx
      exact Finset.mem_range.2 htn)
    hstay
  rw [Finset.card_range] at hclosed
  have hmem : listGetD fl.frm e 0 ∈ residNbrs fl capF (listGetD fl.eto e 0) :=
    mem_residNbrs.2 ⟨e, hok.inAdj_complete e heE, hcap, rfl⟩
  have h2 := mem_satStep_of_mem (residNbrs fl capF) hcan hmem
  rw [hclosed] at h2
  exact h2

/-- One augmentation preserves the combined capacity of every twin pair. -/
theorem augmentEdge_pairSum {fl : FlowT} (hok : FlowOk fl) {cap : List Int}
    (hlen : cap.length = fl.eto.length) {d : Nat} (hd : d < fl.eto.length) :
    ∀ e, e < fl.eto.length →
      listGetD (augmentEdge fl cap d) e 0 +
        listGetD (augmentEdge fl cap d) (listGetD fl.rev e 0) 0 =
      listGetD cap e 0 + listGetD cap (listGetD fl.rev e 0) 0 := by
  intro e he
  have hrevd : listGetD fl.rev d 0 < cap.length := by
    rw [hlen]
    exact hok.rev_lt d hd
  rw [augmentEdge_getD (by omega) hrevd, augmentEdge_getD (by omega) hrevd]
  have h1 : (listGetD fl.rev e 0 = d) ↔ (e = listGetD fl.rev d 0) := by
    constructor
    · intro h
      rw [← hok.rev_rev e he, h]
    · intro h
      rw [h, hok.rev_rev d hd]
  have h2 : (listGetD fl.rev e 0 = listGetD fl.rev d 0) ↔ (e = d) := by
    constructor
    · intro h
      rw [← hok.rev_rev e he, h, hok.rev_rev d hd]
    · intro h
      rw [h]
  rw [show (if listGetD fl.rev e 0 = d then (1 : Int) else 0) =
      (if e = listGetD fl.rev d 0 then (1 : Int) else 0) from by
    rcases h1 with ⟨hf, hb⟩
    by_cases hc : listGetD fl.rev e 0 = d
    · rw [if_pos hc, if_pos (hf hc)]
    · rw [if_neg hc, if_neg (fun hcc => hc (hb hcc))]]
  rw [show (if listGetD fl.rev e 0 = listGetD fl.rev d 0 then (1 : Int) else 0) =
      (if e = d then (1 : Int) else 0) from by
    rcases h2 with ⟨hf, hb⟩
    by_cases hc : listGetD fl.rev e 0 = listGetD fl.rev d 0
    · rw [if_pos hc, if_pos (hf hc)]
    · rw [if_neg hc, if_neg (fun hcc => hc (hb hcc))]]
  ring

theorem augmentPath_pairSum {fl : FlowT} (hok : FlowOk fl) :
    ∀ (p : List Nat) (cap : List Int) (u w : Nat), cap.length = fl.eto.length →
      EPath fl u p w →
      ∀ e, e < fl.eto.length →
        listGetD (augmentPath fl cap p) e 0 +
          listGetD (augmentPath fl cap p) (listGetD fl.rev e 0) 0 =
        listGetD cap e 0 + listGetD cap (listGetD fl.rev e 0) 0 := by
  intro p
  induction p with
  | nil => intro cap u w _ _ e _; rfl
  | cons d rest ih =>
    intro cap u w hlen hp e he
    obtain ⟨hd, hdfrm, hrest⟩ := hp
    rw [show augmentPath fl cap (d :: rest) =
      augmentPath fl (augmentEdge fl cap d) rest from rfl]
    rw [ih (augmentEdge fl cap d) _ w (by rw [augmentEdge_length, hlen]) hrest e he]
    exact augmentEdge_pairSum hok hlen hd e he

theorem maxflowLoop_pairSum {fl : FlowT} (hok : FlowOk fl) {s : Nat} (t : Nat) (hsn : s < fl.n) :
    ∀ (fuel : Nat) (cap : List Int) (fc : Int), cap.length = fl.eto.length →
      ∀ e, e < fl.eto.length →
        listGetD (maxflowLoop fl s t fuel cap fc).1 e 0 +
          listGetD (maxflowLoop fl s t fuel cap fc).1 (listGetD fl.rev e 0) 0 =
        listGetD cap e 0 + listGetD cap (listGetD fl.rev e 0) 0 := by
  intro fuel
  induction fuel with
  | zero => intro cap fc _ e _; rfl
  | succ fuel ih =>
    intro cap fc hlen e he
    rw [maxflowLoop]
    cases hdt : listGetD (bfsFlow fl cap t (fl.n + 1)
        (listSet (List.replicate fl.n (none : Option (List Nat))) s (some [])) [s])
        t none with
    | none =>
      simp only [hdt]
    | some path =>
      simp only [hdt]
      have hd0 : DiscOk fl s
          (listSet (List.replicate fl.n (none : Option (List Nat))) s (some [])) := by
        intro w q hq
        rw [listGetD_listSet] at hq
        split at hq
        · next hc =>
          cases hq
          rw [hc.1]
          rfl
        · rw [listGetD_replicate] at hq
          cases hq
      have hdisc := bfsFlow_disc hok t cap (fl.n + 1)
        (listSet (List.replicate fl.n (none : Option (List Nat))) s (some [])) [s] hd0
        (by rw [listSet_length, List.length_replicate])
        (by
          intro w hw
          rw [List.mem_singleton] at hw
          subst hw
          refine ⟨[], ?_⟩
          rw [listGetD_listSet, if_pos ⟨rfl, by rw [List.length_replicate]; exact hsn⟩])
      have hpath : EPath fl s path t := hdisc t path hdt
      rw [ih (augmentPath fl cap path) (fc + 1)
        (by rw [augmentPath_length, hlen]) e he]
      exact augmentPath_pairSum hok path cap s t hlen hpath e he


/-- The set the reverse residual scan discovers. -/
def canSet (fl : FlowT) (capF : List Int) (t : Nat) : Finset Nat :=
  sat (residNbrs fl capF) fl.n {t}

/-- The nodes on the source side of the residual cut. -/
def cutV (fl : FlowT) (capF : List Int) (t : Nat) : Finset Nat :=
  Finset.range fl.n \ canSet fl capF t

/-- Counting argument: a family of pairwise distinct unit-capacity edges that
cross from the source side of the residual cut into the scan's reachable set
is no larger than the flow the loop pushed. -/
theorem cut_card_le_flow {fl : FlowT} (hok : FlowOk fl) {s t : Nat}
    (hsn : s < fl.n) (htn : t < fl.n)
    {cap2 capF : List Int}
    (hnn : ∀ e, e < fl.eto.length → 0 ≤ listGetD cap2 e 0)
    {fc : Int} (hfc : 0 ≤ fc)
    (hnet : ∀ v, netDelta fl cap2 capF v =
      2 * fc * ((if s = v then 1 else 0) - (if t = v then 1 else 0)))
    (hpair : ∀ e, e < fl.eto.length →
      listGetD capF e 0 + listGetD capF (listGetD fl.rev e 0) 0 =
      listGetD cap2 e 0 + listGetD cap2 (listGetD fl.rev e 0) 0)
    (S : Finset Nat)
    (hS : ∀ e ∈ S, e < fl.eto.length ∧
      listGetD fl.frm e 0 ∉ canSet fl capF t ∧
      listGetD fl.eto e 0 ∈ canSet fl capF t ∧
      1 ≤ listGetD cap2 e 0) :
    (S.card : Int) ≤ fc := by
  have htcan : t ∈ canSet fl capF t := by
    rw [canSet]
    exact subset_sat _ _ _ (Finset.mem_singleton_self t)
  have htV : t ∉ cutV fl capF t := by
    rw [cutV, Finset.mem_sdiff]
    intro hcon
    exact hcon.2 htcan
  -- the crossing-edge classes
  have hmemX : ∀ e, e ∈ (Finset.range fl.eto.length).filter
      (fun e => listGetD fl.frm e 0 ∈ cutV fl capF t ∧
        listGetD fl.eto e 0 ∉ cutV fl capF t) ↔
      e < fl.eto.length ∧ listGetD fl.frm e 0 ∈ cutV fl capF t ∧
        listGetD fl.eto e 0 ∉ cutV fl capF t := by
    intro e
    rw [Finset.mem_filter, Finset.mem_range]
  have hmemY : ∀ e, e ∈ (Finset.range fl.eto.length).filter
      (fun e => listGetD fl.eto e 0 ∈ cutV fl capF t ∧
        listGetD fl.frm e 0 ∉ cutV fl capF t) ↔
      e < fl.eto.length ∧ listGetD fl.eto e 0 ∈ cutV fl capF t ∧
        listGetD fl.frm e 0 ∉ cutV fl capF t := by
    intro e
    rw [Finset.mem_filter, Finset.mem_range]
  -- step A: the conservation sum over the source side
  have hsumA : ∑ v ∈ cutV fl capF t, netDelta fl cap2 capF v =
      2 * fc * (if s ∈ cutV fl capF t then 1 else 0) := by
    calc ∑ v ∈ cutV fl capF t, netDelta fl cap2 capF v
        = ∑ v ∈ cutV fl capF t,
            2 * fc * ((if s = v then 1 else 0) - (if t = v then 1 else 0)) :=
          Finset.sum_congr rfl (fun v _ => hnet v)
      _ = 2 * fc * ∑ v ∈ cutV fl capF t,
            ((if s = v then 1 else 0) - (if t = v then 1 else 0)) :=
          (Finset.mul_sum _ _ _).symm
      _ = 2 * fc * ((if s ∈ cutV fl capF t then 1 else 0) -
            (if t ∈ cutV fl capF t then 1 else 0)) := by
          rw [Finset.sum_sub_distrib]
          simp [Finset.sum_ite_eq]
      _ = 2 * fc * (if s ∈ cutV fl capF t then 1 else 0) := by
          rw [if_neg htV]
          ring
  -- step B: exchange of summation
  have hfib1 : ∑ v ∈ cutV fl capF t, ((Finset.range fl.eto.length).filter
      (fun e => listGetD fl.frm e 0 = v)).sum (phiD cap2 capF) =
      ((Finset.range fl.eto.length).filter
        (fun e => listGetD fl.frm e 0 ∈ cutV fl capF t)).sum (phiD cap2 capF) :=
    Finset.sum_fiberwise_eq_sum_filter _ _ _ _
  have hfib2 : ∑ v ∈ cutV fl capF t, ((Finset.range fl.eto.length).filter
      (fun e => listGetD fl.eto e 0 = v)).sum (phiD cap2 capF) =
      ((Finset.range fl.eto.length).filter
        (fun e => listGetD fl.eto e 0 ∈ cutV fl capF t)).sum (phiD cap2 capF) :=
    Finset.sum_fiberwise_eq_sum_filter _ _ _ _
  have hsumB : ∑ v ∈ cutV fl capF t, netDelta fl cap2 capF v =
      ((Finset.range fl.eto.length).filter
        (fun e => listGetD fl.frm e 0 ∈ cutV fl capF t)).sum (phiD cap2 capF) -
      ((Finset.range fl.eto.length).filter
        (fun e => listGetD fl.eto e 0 ∈ cutV fl capF t)).sum (phiD cap2 capF) := by
    simp only [netDelta]
    rw [Finset.sum_sub_distrib, hfib1, hfib2]
  -- step C: split each side by the other endpoint
  have hC1 : ((Finset.range fl.eto.length).filter
      (fun e => listGetD fl.frm e 0 ∈ cutV fl capF t)).sum (phiD cap2 capF) =
      ((Finset.range fl.eto.length).filter
        (fun e => listGetD fl.frm e 0 ∈ cutV fl capF t ∧
          listGetD fl.eto e 0 ∈ cutV fl capF t)).sum (phiD cap2 capF) +
      ((Finset.range fl.eto.length).filter
        (fun e => listGetD fl.frm e 0 ∈ cutV fl capF t ∧
          listGetD fl.eto e 0 ∉ cutV fl capF t)).sum (phiD cap2 capF) := by
    rw [← Finset.sum_filter_add_sum_filter_not ((Finset.range fl.eto.length).filter
      (fun e => listGetD fl.frm e 0 ∈ cutV fl capF t))
      (fun e => listGetD fl.eto e 0 ∈ cutV fl capF t) (phiD cap2 capF)]
    rw [Finset.filter_filter, Finset.filter_filter]
  have hC2 : ((Finset.range fl.eto.length).filter
      (fun e => listGetD fl.eto e 0 ∈ cutV fl capF t)).sum (phiD cap2 capF) =
      ((Finset.range fl.eto.length).filter
        (fun e => listGetD fl.frm e 0 ∈ cutV fl capF t ∧
          listGetD fl.eto e 0 ∈ cutV fl capF t)).sum (phiD cap2 capF) +
      ((Finset.range fl.eto.length).filter
        (fun e => listGetD fl.eto e 0 ∈ cutV fl capF t ∧
          listGetD fl.frm e 0 ∉ cutV fl capF t)).sum (phiD cap2 capF) := by
    rw [← Finset.sum_filter_add_sum_filter_not ((Finset.range fl.eto.length).filter
      (fun e => listGetD fl.eto e 0 ∈ cutV fl capF t))
      (fun e => listGetD fl.frm e 0 ∈ cutV fl capF t) (phiD cap2 capF)]
    rw [Finset.filter_filter, Finset.filter_filter]
    have hcomm : (Finset.range fl.eto.length).filter
        (fun e => listGetD fl.eto e 0 ∈ cutV fl capF t ∧
          listGetD fl.frm e 0 ∈ cutV fl capF t) =
        (Finset.range fl.eto.length).filter
        (fun e => listGetD fl.frm e 0 ∈ cutV fl capF t ∧
          listGetD fl.eto e 0 ∈ cutV fl capF t) := by
      refine Finset.filter_congr ?_
      intro x _
      constructor
      · rintro ⟨a, b⟩; exact ⟨b, a⟩
      · rintro ⟨a, b⟩; exact ⟨b, a⟩
    rw [hcomm]
  -- step D: the reverse-twin pairing flips the sign of the crossing sum
  have hD : ((Finset.range fl.eto.length).filter
      (fun e => listGetD fl.eto e 0 ∈ cutV fl capF t ∧
        listGetD fl.frm e 0 ∉ cutV fl capF t)).sum (phiD cap2 capF) =
      - ((Finset.range fl.eto.length).filter
        (fun e => listGetD fl.frm e 0 ∈ cutV fl capF t ∧
          listGetD fl.eto e 0 ∉ cutV fl capF t)).sum (phiD cap2 capF) := by
    have hbij : ((Finset.range fl.eto.length).filter
        (fun e => listGetD fl.eto e 0 ∈ cutV fl capF t ∧
          listGetD fl.frm e 0 ∉ cutV fl capF t)).sum (phiD cap2 capF) =
        ((Finset.range fl.eto.length).filter
          (fun e => listGetD fl.frm e 0 ∈ cutV fl capF t ∧
            listGetD fl.eto e 0 ∉ cutV fl capF t)).sum
          (fun e => - phiD cap2 capF e) := by
      refine Finset.sum_nbij' (fun e => listGetD fl.rev e 0)
        (fun e => listGetD fl.rev e 0) ?_ ?_ ?_ ?_ ?_
      · intro a ha
        obtain ⟨haE, h1, h2⟩ := (hmemY a).1 ha
        refine (hmemX _).2 ⟨hok.rev_lt a haE, ?_, ?_⟩
        · rw [hok.frm_rev a haE]
          exact h1
        · rw [hok.eto_rev a haE]
          exact h2
      · intro a ha
        obtain ⟨haE, h1, h2⟩ := (hmemX a).1 ha
        refine (hmemY _).2 ⟨hok.rev_lt a haE, ?_, ?_⟩
        · rw [hok.eto_rev a haE]
          exact h1
        · rw [hok.frm_rev a haE]
          exact h2
      · intro a ha
        exact hok.rev_rev a ((hmemY a).1 ha).1
      · intro a ha
        exact hok.rev_rev a ((hmemX a).1 ha).1
      · intro a ha
        have haE := ((hmemY a).1 ha).1
        have hp := hpair a haE
        show phiD cap2 capF a = - phiD cap2 capF (listGetD fl.rev a 0)
        rw [phiD, phiD]
        omega
    rw [hbij, Finset.sum_neg_distrib]
  -- step E: the crossing sum equals the flow on the source side
  have hXval : ((Finset.range fl.eto.length).filter
      (fun e => listGetD fl.frm e 0 ∈ cutV fl capF t ∧
        listGetD fl.eto e 0 ∉ cutV fl capF t)).sum (phiD cap2 capF) =
      fc * (if s ∈ cutV fl capF t then 1 else 0) := by
    rw [hsumB, hC1, hC2, hD] at hsumA
    by_cases hsV : s ∈ cutV fl capF t
    · rw [if_pos hsV] at hsumA ⊢
      linarith
    · rw [if_neg hsV] at hsumA ⊢
      linarith
  -- step F: each member of the family contributes at least one unit
  have hXnn : ∀ e ∈ (Finset.range fl.eto.length).filter
      (fun e => listGetD fl.frm e 0 ∈ cutV fl capF t ∧
        listGetD fl.eto e 0 ∉ cutV fl capF t), 0 ≤ phiD cap2 capF e := by
    intro e he
    obtain ⟨heE, h1, h2⟩ := (hmemX e).1 he
    have hetoCan : listGetD fl.eto e 0 ∈ canSet fl capF t := by
      by_contra hcon
      exact h2 (by
        rw [cutV, Finset.mem_sdiff]
        exact ⟨Finset.mem_range.2 (hok.eto_lt e heE), hcon⟩)
    have hcapF : listGetD capF e 0 ≤ 0 := by
      by_contra hcon
      have hfrmCan := can_closure hok htn heE hetoCan (by omega)
      rw [cutV, Finset.mem_sdiff] at h1
      exact h1.2 hfrmCan
    have := hnn e heE
    rw [phiD]
    omega
  have hSsub : S ⊆ (Finset.range fl.eto.length).filter
      (fun e => listGetD fl.frm e 0 ∈ cutV fl capF t ∧
        listGetD fl.eto e 0 ∉ cutV fl capF t) := by
    intro e he
    obtain ⟨heE, h1, h2, h3⟩ := hS e he
    refine (hmemX e).2 ⟨heE, ?_, ?_⟩
    · rw [cutV, Finset.mem_sdiff]
      exact ⟨Finset.mem_range.2 (hok.frm_lt e heE), h1⟩
    · rw [cutV, Finset.mem_sdiff]
      intro hcon
      exact hcon.2 h2
  have hone : ∀ e ∈ S, (1 : Int) ≤ phiD cap2 capF e := by
    intro e he
    obtain ⟨heE, h1, h2, h3⟩ := hS e he
    have hetoCan := h2
    have hcapF : listGetD capF e 0 ≤ 0 := by
      by_contra hcon
      exact h1 (can_closure hok htn heE hetoCan (by omega))
    rw [phiD]
    omega
  have hchain1 : (S.card : Int) ≤ S.sum (phiD cap2 capF) := by
    have h1 : (S.card : Int) = S.sum (fun _ => (1 : Int)) := by simp
    rw [h1]
    exact Finset.sum_le_sum hone
  have hchain2 : S.sum (phiD cap2 capF) ≤
      ((Finset.range fl.eto.length).filter
        (fun e => listGetD fl.frm e 0 ∈ cutV fl capF t ∧
          listGetD fl.eto e 0 ∉ cutV fl capF t)).sum (phiD cap2 capF) :=
    Finset.sum_le_sum_of_subset_of_nonneg hSsub (fun e he _ => hXnn e he)
  rw [hXval] at hchain2
  by_cases hsV : s ∈ cutV fl capF t
  · rw [if_pos hsV] at hchain2
    linarith
  · rw [if_neg hsV] at hchain2
    linarith


theorem listGetD_range {N i : Nat} (h : i < N) : listGetD (List.range N) i 0 = i := by
  rw [listGetD, List.getD, List.get?_range h]
  rfl

/-- The horse cell is never wallable: its character is `H`, not `.`. -/
theorem buildGraph_horse_not_wallable {g : Grid} {G : Graph}
    (hb : buildGraph g = Except.ok G) :
    listGetD G.wallable horseIdx false = false := by
  obtain ⟨-, -, -, hcw, -, -⟩ := buildGraph_ok_spec hb
  obtain ⟨-, hspec⟩ := computeWallable_spec hcw
  have hN := buildGraph_N_pos hb
  obtain ⟨ch, hch, hwch⟩ := hspec 0 hN
  obtain ⟨-, -, -, hH, -, -⟩ := buildGraph_coords_spec hb
  show listGetD G.wallable 0 false = false
  rw [hH] at hch
  have hch2 : ch = 'H' := (Option.some.inj hch).symm
  subst hch2
  rw [hwch]
  rfl

theorem addEdge_cap_nonneg {f : FlowT} {u v : Nat} {c : Int} (hc : 0 ≤ c)
    (hf : ∀ e, 0 ≤ listGetD f.baseCap e 0) :
    ∀ e, 0 ≤ listGetD (addEdge f u v c).1.baseCap e 0 := by
  intro e
  show 0 ≤ listGetD (f.baseCap ++ [c, 0]) e 0
  rcases Nat.lt_or_ge e f.baseCap.length with h | h
  · rw [listGetD_append_left h]
    exact hf e
  · rw [listGetD_append_right h]
    cases hm : e - f.baseCap.length with
    | zero => exact hc
    | succ m =>
      cases m with
      | zero => rw [listGetD_cons_succ, listGetD_cons_zero]
      | succ m =>
        rw [listGetD_cons_succ, listGetD_cons_succ]
        rw [show listGetD ([] : List Int) m 0 = 0 from rfl]

theorem buildNetwork_cap_nonneg (G : Graph) (k : Int) (hk : 0 ≤ k) :
    ∀ e, 0 ≤ listGetD (buildNetwork G k).flow.baseCap e 0 := by
  have hinit : ∀ e, 0 ≤ listGetD (FlowT.init (2 * G.N + 2)).baseCap e 0 := by
    intro e
    rw [show listGetD (FlowT.init (2 * G.N + 2)).baseCap e 0 = 0 from rfl]
  have h1 := foldl_preserve
    (P := fun (acc : FlowT × List Nat) => ∀ e, 0 ≤ listGetD acc.1.baseCap e 0)
    (fun (acc : FlowT × List Nat) i =>
      ((addEdge acc.1 (2 * i) (2 * i + 1)
          (if i = horseIdx ∨ listGetD G.wallable i false = false then k + 1 else 1)).1,
       acc.2 ++ [(addEdge acc.1 (2 * i) (2 * i + 1)
          (if i = horseIdx ∨ listGetD G.wallable i false = false then k + 1 else 1)).2]))
    (List.range G.N) (FlowT.init (2 * G.N + 2), []) hinit
    (by
      intro a i _ ha
      exact addEdge_cap_nonneg (by split <;> omega) ha)
  have h2 := foldl_preserve
    (P := fun f => ∀ e, 0 ≤ listGetD f.baseCap e 0)
    (fun f i => (listGetD G.adj i []).foldl
      (fun f j => (addEdge f (2 * i + 1) (2 * j) (k + 1)).1) f)
    (List.range G.N) _ h1
    (by
      intro a i _ ha
      refine foldl_preserve (P := fun f => ∀ e, 0 ≤ listGetD f.baseCap e 0) _
        (listGetD G.adj i []) a ha ?_
      intro a2 j _ ha2
      exact addEdge_cap_nonneg (by omega) ha2)
  have h3 := foldl_preserve
    (P := fun f => ∀ e, 0 ≤ listGetD f.baseCap e 0)
    (fun f i => if i ∈ G.boundary then (addEdge f (2 * i + 1) (2 * G.N + 1) (k + 1)).1 else f)
    (List.range G.N) _ h2
    (by
      intro a i _ ha
      show ∀ e, 0 ≤ listGetD
        (if i ∈ G.boundary then (addEdge a (2 * i + 1) (2 * G.N + 1) (k + 1)).1 else a).baseCap e 0
      split
      · exact addEdge_cap_nonneg (by omega) ha
      · exact ha)
  have h4 := foldl_preserve
    (P := fun (acc : FlowT × List Nat) => ∀ e, 0 ≤ listGetD acc.1.baseCap e 0)
    (fun (acc : FlowT × List Nat) i =>
      ((addEdge acc.1 (2 * G.N) (2 * i + 1) (if i = horseIdx then k + 1 else 0)).1,
       acc.2 ++ [(addEdge acc.1 (2 * G.N) (2 * i + 1) (if i = horseIdx then k + 1 else 0)).2]))
    (List.range G.N) (_, []) h3
    (by
      intro a i _ ha
      exact addEdge_cap_nonneg (by split <;> omega) ha)
  exact h4

/-- The capacity patches applied by `min_separator` do not touch the cell
edge of an uncommitted cell. -/
theorem patched_keep {net : Network} {d f : Finset Nat} {i : Nat}
    (hcell : net.cellEdgeIdx = (List.range net.G.N).map (fun i => 2 * i))
    {L : Nat} (hL : 2 * net.G.N ≤ L)
    (hsrc : net.srcEdgeIdx = (List.range net.G.N).map (fun j => L + 2 * j))
    (hi : i < net.G.N) (hd : i ∉ d) (hf : i ∉ f) :
    listGetD ((bitList net.G.N f).foldl
      (fun cap j => listSet (listSet cap (listGetD net.cellEdgeIdx j 0) net.INF)
        (listGetD net.srcEdgeIdx j 0) net.INF)
      ((bitList net.G.N d).foldl
        (fun cap j => listSet cap (listGetD net.cellEdgeIdx j 0) 0) net.flow.baseCap))
      (2 * i) 0 = listGetD net.flow.baseCap (2 * i) 0 := by
  have hcellAt : ∀ j, j < net.G.N → listGetD net.cellEdgeIdx j 0 = 2 * j := by
    intro j hj
    rw [hcell, listGetD_map (fun i => 2 * i) 0 0 (by simpa using hj), listGetD_range hj]
  have hsrcAt : ∀ j, j < net.G.N → listGetD net.srcEdgeIdx j 0 = L + 2 * j := by
    intro j hj
    rw [hsrc, listGetD_map (fun j => L + 2 * j) 0 0 (by simpa using hj), listGetD_range hj]
  have h1 := foldl_preserve
    (P := fun cap => listGetD cap (2 * i) 0 = listGetD net.flow.baseCap (2 * i) 0)
    (fun cap j => listSet cap (listGetD net.cellEdgeIdx j 0) 0)
    (bitList net.G.N d) net.flow.baseCap rfl
    (by
      intro cap j hj hcap
      obtain ⟨hjN, hjd⟩ := mem_bitList.1 hj
      show listGetD (listSet cap (listGetD net.cellEdgeIdx j 0) 0) (2 * i) 0 = _
      rw [listGetD_listSet_ne (by rw [hcellAt j hjN]; intro hc; exact hd (by
        rw [show i = j from by omega]; exact hjd)), hcap])
  refine foldl_preserve
    (P := fun cap => listGetD cap (2 * i) 0 = listGetD net.flow.baseCap (2 * i) 0)
    _ (bitList net.G.N f) _ h1 ?_
  intro cap j hj hcap
  obtain ⟨hjN, hjf⟩ := mem_bitList.1 hj
  show listGetD (listSet (listSet cap (listGetD net.cellEdgeIdx j 0) net.INF)
    (listGetD net.srcEdgeIdx j 0) net.INF) (2 * i) 0 = _
  rw [listGetD_listSet_ne (by rw [hsrcAt j hjN]; omega),
    listGetD_listSet_ne (by rw [hcellAt j hjN]; intro hc; exact hf (by
      rw [show i = j from by omega]; exact hjf)), hcap]

/-- The capacity patches keep the vector length and non-negativity. -/
theorem patched_nonneg {net : Network} (d f : Finset Nat)
    (hnn : ∀ e, 0 ≤ listGetD net.flow.baseCap e 0) (hInf : 0 ≤ net.INF) :
    ((bitList net.G.N f).foldl
      (fun cap j => listSet (listSet cap (listGetD net.cellEdgeIdx j 0) net.INF)
        (listGetD net.srcEdgeIdx j 0) net.INF)
      ((bitList net.G.N d).foldl
        (fun cap j => listSet cap (listGetD net.cellEdgeIdx j 0) 0) net.flow.baseCap)).length =
      net.flow.baseCap.length ∧
    ∀ e, 0 ≤ listGetD ((bitList net.G.N f).foldl
      (fun cap j => listSet (listSet cap (listGetD net.cellEdgeIdx j 0) net.INF)
        (listGetD net.srcEdgeIdx j 0) net.INF)
      ((bitList net.G.N d).foldl
        (fun cap j => listSet cap (listGetD net.cellEdgeIdx j 0) 0) net.flow.baseCap)) e 0 := by
  have hset : ∀ (cap : List Int) (pos : Nat) (x : Int), 0 ≤ x →
      (∀ e, 0 ≤ listGetD cap e 0) → ∀ e, 0 ≤ listGetD (listSet cap pos x) e 0 := by
    intro cap pos x hx hcap e
    rw [listGetD_listSet]
    split
    · exact hx
    · exact hcap e
  have h1 := foldl_preserve
    (P := fun cap => cap.length = net.flow.baseCap.length ∧ ∀ e, 0 ≤ listGetD cap e 0)
    (fun cap j => listSet cap (listGetD net.cellEdgeIdx j 0) 0)
    (bitList net.G.N d) net.flow.baseCap ⟨rfl, hnn⟩
    (by
      intro cap j _ hcap
      refine ⟨?_, hset cap _ 0 (le_refl 0) hcap.2⟩
      show (listSet cap (listGetD net.cellEdgeIdx j 0) 0).length = _
      rw [listSet_length, hcap.1])
  refine foldl_preserve
    (P := fun cap => cap.length = net.flow.baseCap.length ∧ ∀ e, 0 ≤ listGetD cap e 0)
    _ (bitList net.G.N f)
    ((bitList net.G.N d).foldl
      (fun cap j => listSet cap (listGetD net.cellEdgeIdx j 0) 0) net.flow.baseCap) h1 ?_
  intro cap j _ hcap
  refine ⟨?_, hset _ _ _ hInf (hset _ _ _ hInf hcap.2)⟩
  show (listSet (listSet cap (listGetD net.cellEdgeIdx j 0) net.INF)
    (listGetD net.srcEdgeIdx j 0) net.INF).length = _
  rw [listSet_length, listSet_length, hcap.1]


/-- The extracted separator is no larger than the flow the oracle pushed,
which the guard keeps at most `k_rem`. -/
theorem minSeparator_card_le {g : Grid} {G : Graph} (hb : buildGraph g = Except.ok G)
    {k : Int} (hk : 0 ≤ k) {d f : Finset Nat} {kr : Int} {sep : Finset Nat}
    (h : minSeparator (buildNetwork G k) d f kr = some sep) :
    (sep.card : Int) ≤ kr := by
  obtain ⟨hfok, hn⟩ := buildNetwork_flowOk G k (buildGraph_adj_lt hb)
  obtain ⟨⟨hfrmlen, hcaplen, hElen, hents⟩, hcell, L, hL, hsrc⟩ := buildNetwork_arrays G k
  unfold minSeparator at h
  split at h
  · exact absurd h (by simp)
  · dsimp only at h
    split at h
    · exact absurd h (by simp)
    · next hflow =>
      have hsepEq := Option.some.inj h
      have hsn : (buildNetwork G k).SRC < (buildNetwork G k).flow.n := by
        rw [hn]
        show 2 * G.N < 2 * G.N + 2
        omega
      have htn : (buildNetwork G k).SNK < (buildNetwork G k).flow.n := by
        rw [hn]
        show 2 * G.N + 1 < 2 * G.N + 2
        omega
      have hInf : (0 : Int) ≤ (buildNetwork G k).INF := by
        show (0 : Int) ≤ k + 1
        omega
      obtain ⟨hc2len, hc2nn⟩ :=
        patched_nonneg d f (buildNetwork_cap_nonneg G k hk) hInf
      set c2 := (bitList (buildNetwork G k).G.N f).foldl
        (fun cap j => listSet (listSet cap
          (listGetD (buildNetwork G k).cellEdgeIdx j 0) (buildNetwork G k).INF)
          (listGetD (buildNetwork G k).srcEdgeIdx j 0) (buildNetwork G k).INF)
        ((bitList (buildNetwork G k).G.N d).foldl
          (fun cap j => listSet cap (listGetD (buildNetwork G k).cellEdgeIdx j 0) 0)
          (buildNetwork G k).flow.baseCap) with hc2def
      have hlen0 : c2.length = (buildNetwork G k).flow.eto.length := by
        rw [hc2def]
        rw [hc2len, hfok.cap_len]
      have hrdef : maxflowLimit (buildNetwork G k).flow ((buildNetwork G k).SRC)
          ((buildNetwork G k).SNK) c2 (kr + 1) =
          maxflowLoop (buildNetwork G k).flow ((buildNetwork G k).SRC)
            ((buildNetwork G k).SNK) ((kr + 1).toNat) c2 0 := rfl
      have hloop := maxflowLoop_net hfok ((buildNetwork G k).SNK) hsn
        ((kr + 1).toNat) c2 0 hlen0
      have hps := maxflowLoop_pairSum hfok ((buildNetwork G k).SNK) hsn
        ((kr + 1).toNat) c2 0 hlen0
      have hfc : (0 : Int) ≤ (maxflowLimit (buildNetwork G k).flow
          ((buildNetwork G k).SRC) ((buildNetwork G k).SNK) c2 (kr + 1)).2 := by
        rw [hrdef]
        exact hloop.2.1
      have hnet : ∀ v, netDelta (buildNetwork G k).flow c2
          (maxflowLimit (buildNetwork G k).flow ((buildNetwork G k).SRC)
            ((buildNetwork G k).SNK) c2 (kr + 1)).1 v =
          2 * (maxflowLimit (buildNetwork G k).flow ((buildNetwork G k).SRC)
            ((buildNetwork G k).SNK) c2 (kr + 1)).2 *
          ((if (buildNetwork G k).SRC = v then 1 else 0) -
            (if (buildNetwork G k).SNK = v then 1 else 0)) := by
        intro v
        rw [hrdef]
        have h2 := hloop.2.2 v
        rw [h2]
        ring
      have hpair : ∀ e, e < (buildNetwork G k).flow.eto.length →
          listGetD (maxflowLimit (buildNetwork G k).flow ((buildNetwork G k).SRC)
            ((buildNetwork G k).SNK) c2 (kr + 1)).1 e 0 +
          listGetD (maxflowLimit (buildNetwork G k).flow ((buildNetwork G k).SRC)
            ((buildNetwork G k).SNK) c2 (kr + 1)).1
            (listGetD (buildNetwork G k).flow.rev e 0) 0 =
          listGetD c2 e 0 + listGetD c2 (listGetD (buildNetwork G k).flow.rev e 0) 0 := by
        intro e he
        rw [hrdef]
        exact hps e he
      have hcard : (sep.image (fun i => 2 * i)).card = sep.card :=
        Finset.card_image_of_injOn (fun a _ b _ hab => by omega)
      have hmemsep : ∀ i, i ∈ sep → i < G.N ∧
          listGetD (buildNetwork G k).G.wallable i false = true ∧ i ∉ d ∧ i ∉ f ∧
          2 * i ∉ canSet (buildNetwork G k).flow
            (maxflowLimit (buildNetwork G k).flow ((buildNetwork G k).SRC)
              ((buildNetwork G k).SNK) c2 (kr + 1)).1 ((buildNetwork G k).SNK) ∧
          2 * i + 1 ∈ canSet (buildNetwork G k).flow
            (maxflowLimit (buildNetwork G k).flow ((buildNetwork G k).SRC)
              ((buildNetwork G k).SNK) c2 (kr + 1)).1 ((buildNetwork G k).SNK) := by
        intro i hi
        rw [← hsepEq] at hi
        obtain ⟨hrange, hw, hid, hif, hcan1, hcan2⟩ := Finset.mem_filter.1 hi
        exact ⟨Finset.mem_range.1 hrange, hw, hid, hif, hcan1, hcan2⟩
      have hS : ∀ e ∈ sep.image (fun i => 2 * i),
          e < (buildNetwork G k).flow.eto.length ∧
          listGetD (buildNetwork G k).flow.frm e 0 ∉
            canSet (buildNetwork G k).flow
              (maxflowLimit (buildNetwork G k).flow ((buildNetwork G k).SRC)
                ((buildNetwork G k).SNK) c2 (kr + 1)).1 ((buildNetwork G k).SNK) ∧
          listGetD (buildNetwork G k).flow.eto e 0 ∈
            canSet (buildNetwork G k).flow
              (maxflowLimit (buildNetwork G k).flow ((buildNetwork G k).SRC)
                ((buildNetwork G k).SNK) c2 (kr + 1)).1 ((buildNetwork G k).SNK) ∧
          1 ≤ listGetD c2 e 0 := by
        intro e he
        obtain ⟨i, hi, hei⟩ := Finset.mem_image.1 he
        obtain ⟨hiN, hw, hid, hif, hcan1, hcan2⟩ := hmemsep i hi
        obtain ⟨hfrme, hetoe, hcape⟩ := hents i hiN
        subst hei
        refine ⟨by omega, ?_, ?_, ?_⟩
        · rw [hfrme]
          exact hcan1
        · rw [hetoe]
          exact hcan2
        · have hkeep := patched_keep hcell hL hsrc hiN hid hif
          rw [← hc2def] at hkeep
          rw [hkeep, hcape]
          have hwal : listGetD G.wallable i false = true := hw
          have hih : i ≠ horseIdx := by
            intro hcon
            rw [hcon, buildGraph_horse_not_wallable hb] at hwal
            cases hwal
          rw [if_neg (by
            rintro (hcon | hcon)
            · exact hih hcon
            · rw [hcon] at hwal
              cases hwal)]
      have hcut := cut_card_le_flow hfok hsn htn
        (fun e he => hc2nn e) hfc hnet hpair (sep.image (fun i => 2 * i)) hS
      rw [hcard] at hcut
      omega


/-- Through the whole search, the recorded best walls stay within the
original budget: every branch keeps `|deleted| + k_rem ≤ k`, and an update
records `deleted ∪ sep` with `|sep|` bounded by the separator oracle. -/
theorem dfs_preserves_budget {g : Grid} {G : Graph} (hb : buildGraph g = Except.ok G)
    {k : Int} (hk : 0 ≤ k) :
    ∀ (fuel : Nat) (d f : Finset Nat) (kr : Int) (ctx : Ctx),
      (d.card : Int) + kr ≤ k →
      (ctx.bestWalls.card : Int) ≤ k →
      (((dfs (buildNetwork G k) fuel d f kr ctx).bestWalls.card : Int)) ≤ k := by
  intro fuel
  induction fuel with
  | zero => intro d f kr ctx _ hctx; exact hctx
  | succ fuel ih =>
    intro d f kr ctx hstate hctx
    simp only [dfs]
    split
    · exact hctx
    · split
      · exact hctx
      · split
        · exact hctx
        · split
          · exact hctx
          · next sep heq =>
            have hsep := minSeparator_card_le hb hk heq
            have hctx2 : (((if (bfsReachable (buildNetwork G k).G (d ∪ sep)).2.2 = false ∧
                  ctx.bestArea < (bfsReachable (buildNetwork G k).G (d ∪ sep)).2.1 then
                  (⟨(bfsReachable (buildNetwork G k).G (d ∪ sep)).2.1, d ∪ sep,
                    State.mk d f kr :: ctx.memo⟩ : Ctx)
                else ⟨ctx.bestArea, ctx.bestWalls,
                  State.mk d f kr :: ctx.memo⟩).bestWalls.card : Int)) ≤ k := by
              split
              · show (((d ∪ sep).card : Int)) ≤ k
                have h1 := Finset.card_union_le d sep
                omega
              · exact hctx
            split
            · exact hctx2
            · split
              · exact hctx2
              · refine ih (insert _ d) f (kr - 1) _ ?_ (ih d (insert _ f) kr _ ?_ hctx2)
                · have h2 := Finset.card_insert_le (sep.min'
                    (Finset.nonempty_iff_ne_empty.mpr (by assumption))) d
                  omega
                · omega

/-- C3.  For every grid whose graph build succeeds and every budget `k ≥ 0`,
the wall list `solve` returns has length at most `k`. -/
theorem solve_budget (k : Int) (hk : 0 ≤ k) (g : Grid) (res : SolveResult)
    (h : solve k g = Except.ok res) :
    (res.walls.length : Int) ≤ k := by
  cases hb : buildGraph g with
  | error e =>
    rw [solve_of_build_error hb] at h
    cases h
  | ok G =>
    rw [solve_of_build_ok hb] at h
    split at h
    · cases h
      show (((0 : Nat) : Int)) ≤ k
      omega
    · cases h
      show ((sortByLe lexLe ((bitList G.N (dfs (buildNetwork G k) (G.N + 1) ∅ {horseIdx} k
        ⟨0, ∅, []⟩).bestWalls).map (fun i => listGetD G.coords i (0, 0)))).length : Int) ≤ k
      rw [length_sortByLe, List.length_map]
      rcases searchCtx_good G k with ⟨-, hempty⟩ | ⟨-, ⟨hsub, -⟩, -, -⟩
      · rw [hempty, bitList_empty]
        show (((0 : Nat) : Int)) ≤ k
        omega
      · have hsub2 : (dfs (buildNetwork G k) (G.N + 1) ∅ {horseIdx} k
            ⟨0, ∅, []⟩).bestWalls ⊆ Finset.range G.N := hsub
        rw [length_bitList_card hsub2]
        refine dfs_preserves_budget hb hk (G.N + 1) ∅ {horseIdx} k ⟨0, ∅, []⟩ ?_ ?_
        · rw [Finset.card_empty]
          omega
        · show (((∅ : Finset Nat).card : Int)) ≤ k
          rw [Finset.card_empty]
          omega

set_option maxRecDepth 80000 in
/-- Witness for C3 on a concrete run: budget 4 on the 3×3 grid yields four
walls, within the budget. -/
theorem solve_budget_witness :
    (0 : Int) ≤ 4 ∧ solve 4 gridA = Except.ok ⟨1, gridA_walls⟩ ∧
    (((⟨1, gridA_walls⟩ : SolveResult).walls.length : Int)) ≤ 4 := by
  have hs : solve 4 gridA = Except.ok ⟨1, gridA_walls⟩ := rfl
  exact ⟨by decide, hs, solve_budget 4 (by decide) gridA ⟨1, gridA_walls⟩ hs⟩


end Enclose
